import Mathlib

/-!
Verification of the scoring and statistical-comparison engine of the
artist-calendar benchmark (`benchmark/benchmark.py`).

The Python code is shallowly embedded: Python values become the inductive
type `PyVal` (dicts are association lists, floats are modelled as exact
rationals `ℚ`), every scoring function becomes a computable Lean function
translated line by line from the source, and the Mersenne-Twister stream
behind `random.Random(BOOTSTRAP_SEED)` is abstracted as an explicit
sequence of draws passed to the bootstrap procedures.
-/

namespace Bench

/-- Model of a Python value as consumed by the scoring engine.  Strings are
lists of characters, dictionaries are association lists (Python dicts have
unique keys; lookups take the first occurrence), and floats are modelled as
exact rationals. -/
inductive PyVal where
  | pynone
  | pybool (b : Bool)
  | pyint (n : Int)
  | pyfloat (q : ℚ)
  | pystr (s : List Char)
  | pylist (xs : List PyVal)
  | pydict (entries : List (String × PyVal))

/-- A Python dictionary body: an association list of string keys. -/
abbrev PyDict := List (String × PyVal)

/-- Build a `PyVal` string from a Lean string literal. -/
def pstr (s : String) : PyVal := PyVal.pystr s.data

/-- `data.get(key)`: first value bound to `key`, or Python `None` when the
key is absent (Python's `dict.get` default). -/
def dictGet (entries : PyDict) (k : String) : PyVal :=
  match entries.find? (fun e => e.1 = k) with
  | Option.some e => e.2
  | Option.none => PyVal.pynone

/-- The keys of a dictionary, in insertion order. -/
def dictKeys (entries : PyDict) : List String := entries.map (fun e => e.1)

/-- `set(xs) ⊆ set(ys)` on key lists. -/
def keysSubset (xs ys : List String) : Bool := xs.all (fun k => ys.contains k)

/-- `set(xs) == set(ys)` on key lists. -/
def keysSetEq (xs ys : List String) : Bool := keysSubset xs ys && keysSubset ys xs

/-- The characters stripped by Python `str.strip()` (ASCII whitespace; the
records scored by the benchmark contain only ASCII whitespace). -/
def isSpaceChar (c : Char) : Bool :=
  c = ' ' || c = '\t' || c = '\n' || c = '\r' || c = '\x0b' || c = '\x0c'

/-- Python `str.strip()`. -/
def pyStrip (s : List Char) : List Char :=
  ((s.dropWhile isSpaceChar).reverse.dropWhile isSpaceChar).reverse

/-- Python `str.lower()`, modelled on the ASCII range via `Char.toLower`. -/
def pyLower (s : List Char) : List Char := s.map Char.toLower

/-- `re.sub(r"\\s+", " ", value)` exactly as written in the source: the raw
pattern `\\s+` is regex for one literal backslash followed by one or more
letters `s`, so each maximal run `\ss…s` is replaced by a single space.
(Runs of actual whitespace are left untouched.)  The flag records whether
the scanner is inside a run of `s` that followed a replaced backslash. -/
def subBackslashS : Bool → List Char → List Char
  | _, [] => []
  | inRun, c :: rest =>
    if inRun && c = 's' then subBackslashS true rest
    else if c = '\\' && rest.head? = Option.some 's' then ' ' :: subBackslashS true rest
    else c :: subBackslashS false rest

/-- `_normalize_text` on a string: `value.strip().lower()` followed by the
(mis-escaped) whitespace substitution. -/
def normalizeChars (s : List Char) : List Char :=
  subBackslashS false (pyLower (pyStrip s))

/-- Rendering used by `str(value)` for the non-string, non-`None` fallback
branch of `_normalize_text`.  No claim exercises this branch (all scored
fields are strings or `None`), so container rendering is left coarse; the
numeric and boolean cases follow Python. -/
def pyStrFallback : PyVal → List Char
  | PyVal.pybool true => "True".data
  | PyVal.pybool false => "False".data
  | PyVal.pyint n => (toString n).data
  | PyVal.pyfloat q => (toString q).data
  | _ => []

/-- `_normalize_text(value)`: `None` becomes the empty string, strings are
normalized, anything else is rendered with `str` first. -/
def normalize_text : PyVal → List Char
  | PyVal.pynone => []
  | PyVal.pystr s => normalizeChars s
  | v => normalizeChars (pyStrFallback v)

/-- `_normalize_handle(value)`: normalize, then drop one leading `@`. -/
def normalize_handle (v : PyVal) : List Char :=
  let text := normalize_text v
  match text with
  | '@' :: rest => rest
  | _ => text

/-! ### `difflib.SequenceMatcher` (as used by `_string_score`)

`SequenceMatcher(None, a, b).ratio()` is `2·M / (len a + len b)` where `M`
is the total size of the matching blocks found by the recursive
longest-matching-block heuristic.  With `isjunk = None` the junk set is
empty; the `autojunk` heuristic drops from the index every character that
occurs more than `len b / 100 + 1` times when `len b ≥ 200`. -/

/-- `b2j[c]` after autojunk filtering: the ascending positions of `c` in
`b`, or `[]` when `c` is "popular" (autojunk). -/
def b2jPositions (b : List Char) (c : Char) : List ℕ :=
  let idxs := (List.range b.length).filter (fun j => b.getD j ' ' = c && j < b.length)
  if b.length ≥ 200 && idxs.length > b.length / 100 + 1 then [] else idxs

/-- Lookup in the `j2len` row map of `find_longest_match` (default 0). -/
def j2lenGet (l : List (ℕ × ℕ)) (j : ℕ) : ℕ :=
  match l.find? (fun e => e.1 = j) with
  | Option.some e => e.2
  | Option.none => 0

/-- One `j` step of the inner loop of `find_longest_match`: extend the run
ending at `(i, j)` using the previous row, record it in the new row, and
update the best block when strictly longer. -/
def flmStep (prev : List (ℕ × ℕ)) (i : ℕ)
    (acc : (ℕ × ℕ × ℕ) × List (ℕ × ℕ)) (j : ℕ) : (ℕ × ℕ × ℕ) × List (ℕ × ℕ) :=
  let best := acc.1
  let newRow := acc.2
  let k := (if j = 0 then 0 else j2lenGet prev (j - 1)) + 1
  let newRow := (j, k) :: newRow
  if k > best.2.2 then ((i + 1 - k, j + 1 - k, k), newRow) else (best, newRow)

/-- One row (`i`) of the dynamic program of `find_longest_match`: iterate
over the positions of `a[i]` in `b` that lie in `[blo, bhi)` (the source
skips positions `< blo` and breaks at the first `≥ bhi`; the position list
is ascending, so filter-then-takeWhile is the same traversal). -/
def flmRow (a b : List Char) (blo bhi : ℕ)
    (acc : (ℕ × ℕ × ℕ) × List (ℕ × ℕ)) (i : ℕ) : (ℕ × ℕ × ℕ) × List (ℕ × ℕ) :=
  let js := ((b2jPositions b (a.getD i ' ')).filter (fun j => blo ≤ j)).takeWhile (fun j => j < bhi)
  let res := js.foldl (flmStep acc.2 i) (acc.1, [])
  (res.1, res.2)

/-- The backward extension loop of `find_longest_match` (junk set empty, so
only the plain-element loop runs).  Fuel bounds the iteration count. -/
def flmExtendBack (a b : List Char) (alo blo : ℕ) : ℕ → (ℕ × ℕ × ℕ) → ℕ × ℕ × ℕ
  | 0, best => best
  | fuel + 1, (besti, bestj, bestsize) =>
    if alo < besti && blo < bestj && a.getD (besti - 1) ' ' = b.getD (bestj - 1) ' ' then
      flmExtendBack a b alo blo fuel (besti - 1, bestj - 1, bestsize + 1)
    else (besti, bestj, bestsize)

/-- The forward extension loop of `find_longest_match`. -/
def flmExtendFwd (a b : List Char) (ahi bhi : ℕ) : ℕ → (ℕ × ℕ × ℕ) → ℕ × ℕ × ℕ
  | 0, best => best
  | fuel + 1, (besti, bestj, bestsize) =>
    if besti + bestsize < ahi && bestj + bestsize < bhi
        && a.getD (besti + bestsize) ' ' = b.getD (bestj + bestsize) ' ' then
      flmExtendFwd a b ahi bhi fuel (besti, bestj, bestsize + 1)
    else (besti, bestj, bestsize)

/-- `find_longest_match(alo, ahi, blo, bhi)` of `SequenceMatcher(None, a, b)`. -/
def findLongestMatch (a b : List Char) (alo ahi blo bhi : ℕ) : ℕ × ℕ × ℕ :=
  let dp := (List.range' alo (ahi - alo)).foldl (flmRow a b blo bhi) ((alo, blo, 0), [])
  let best := flmExtendBack a b alo blo dp.1.1 dp.1
  flmExtendFwd a b ahi bhi (ahi + bhi) best

/-- Total size of the matching blocks of `get_matching_blocks` (block
merging preserves the total, and `ratio` only uses the total).  The
recursion mirrors the queue in the source; fuel bounds the depth. -/
def matchTotalFuel (a b : List Char) : ℕ → ℕ → ℕ → ℕ → ℕ → ℕ
  | 0, _, _, _, _ => 0
  | fuel + 1, alo, ahi, blo, bhi =>
    let m := findLongestMatch a b alo ahi blo bhi
    if m.2.2 = 0 then 0
    else m.2.2 + matchTotalFuel a b fuel alo m.1 blo m.2.1
        + matchTotalFuel a b fuel (m.1 + m.2.2) ahi (m.2.1 + m.2.2) bhi

/-- Sum of matching-block sizes over the whole pair of sequences. -/
def matchTotal (a b : List Char) : ℕ :=
  matchTotalFuel a b (a.length + 1) 0 a.length 0 b.length

/-- `SequenceMatcher(None, a, b).ratio()` (`_calculate_ratio`). -/
def ratioOf (a b : List Char) : ℚ :=
  if a.length + b.length = 0 then 1
  else 2 * (matchTotal a b : ℚ) / ((a.length : ℚ) + (b.length : ℚ))

/-- `_string_score(gold, pred)`. -/
def string_score (gold pred : PyVal) : ℚ :=
  let goldNorm := normalize_text gold
  let predNorm := normalize_text pred
  if goldNorm.isEmpty && predNorm.isEmpty then 1
  else if goldNorm.isEmpty || predNorm.isEmpty then 0
  else if goldNorm = predNorm then 1
  else ratioOf goldNorm predNorm

/-- `_exact_score(gold, pred)`. -/
def exact_score (gold pred : PyVal) : ℚ :=
  let goldNorm := normalize_text gold
  let predNorm := normalize_text pred
  if goldNorm.isEmpty && predNorm.isEmpty then 1
  else if goldNorm.isEmpty || predNorm.isEmpty then 0
  else if goldNorm = predNorm then 1 else 0

/-- `_is_blank(value)`: `None`, or a string that strips to empty. -/
def is_blank : PyVal → Bool
  | PyVal.pynone => true
  | PyVal.pystr s => (pyStrip s).isEmpty
  | _ => false

/-- `_event_list(data)`: the `events` list with non-dict entries dropped;
`[]` when `data` is not a dict or `events` is not a list. -/
def event_list (data : PyVal) : List PyDict :=
  match data with
  | PyVal.pydict es =>
    match dictGet es "events" with
    | PyVal.pylist xs =>
      xs.filterMap (fun v => match v with | PyVal.pydict d => Option.some d | _ => Option.none)
    | _ => []
  | _ => []

/-- `_event_count_score(gold_events, pred_events)`. -/
def event_count_score (goldEvents predEvents : List PyDict) : ℚ :=
  let goldCount := goldEvents.length
  let predCount := predEvents.length
  if goldCount = 0 && predCount = 0 then 1
  else
    let denom : ℚ := max goldCount (max predCount 1)
    max 0 (1 - |(goldCount : ℚ) - (predCount : ℚ)| / denom)

/-- `_score_top_level(gold, pred)`: the weighted average over
`TOP_LEVEL_WEIGHTS` in the source's insertion order; `weight_sum` is the
sum of the five weights. -/
def score_top_level (gold pred : PyVal) : ℚ :=
  match gold, pred with
  | PyVal.pydict g, PyVal.pydict p =>
    let total : ℚ :=
      0.35 * string_score (dictGet g "artist_name") (dictGet p "artist_name")
      + 0.15 * exact_score (PyVal.pystr (normalize_handle (dictGet g "instagram_handle")))
          (PyVal.pystr (normalize_handle (dictGet p "instagram_handle")))
      + 0.2 * string_score (dictGet g "tour_name") (dictGet p "tour_name")
      + 0.1 * string_score (dictGet g "contact_info") (dictGet p "contact_info")
      + 0.2 * exact_score (dictGet g "source_month") (dictGet p "source_month")
    let weightSum : ℚ := 0.35 + 0.15 + 0.2 + 0.1 + 0.2
    total / weightSum
  | _, _ => 0

/-- `_location_score(gold_event, pred_event)`. -/
def location_score (goldEvent predEvent : PyDict) : ℚ :=
  let city := string_score (dictGet goldEvent "city") (dictGet predEvent "city")
  let province := string_score (dictGet goldEvent "province") (dictGet predEvent "province")
  let country := exact_score (dictGet goldEvent "country") (dictGet predEvent "country")
  (city + province + country) / 3

/-- `_event_similarity(gold_event, pred_event)`: weighted sum over
`EVENT_SCORE_WEIGHTS`. -/
def event_similarity (goldEvent predEvent : PyDict) : ℚ :=
  0.3 * exact_score (dictGet goldEvent "date") (dictGet predEvent "date")
  + 0.05 * exact_score (dictGet goldEvent "time") (dictGet predEvent "time")
  + 0.2 * string_score (dictGet goldEvent "venue") (dictGet predEvent "venue")
  + 0.15 * string_score (dictGet goldEvent "city") (dictGet predEvent "city")
  + 0.1 * string_score (dictGet goldEvent "province") (dictGet predEvent "province")
  + 0.05 * exact_score (dictGet goldEvent "country") (dictGet predEvent "country")
  + 0.05 * string_score (dictGet goldEvent "event_name") (dictGet predEvent "event_name")
  + 0.05 * string_score (dictGet goldEvent "ticket_info") (dictGet predEvent "ticket_info")
  + 0.05 * exact_score (dictGet goldEvent "status") (dictGet predEvent "status")

/-- `_event_similarity_core(gold_event, pred_event)`: weighted sum over
`CORE_EVENT_SCORE_WEIGHTS`. -/
def event_similarity_core (goldEvent predEvent : PyDict) : ℚ :=
  0.375 * exact_score (dictGet goldEvent "date") (dictGet predEvent "date")
  + 0.25 * string_score (dictGet goldEvent "venue") (dictGet predEvent "venue")
  + 0.1875 * string_score (dictGet goldEvent "city") (dictGet predEvent "city")
  + 0.125 * string_score (dictGet goldEvent "province") (dictGet predEvent "province")
  + 0.0625 * exact_score (dictGet goldEvent "country") (dictGet predEvent "country")

/-! ### `_hungarian`

The source is the classic O(k³) potential-based Kuhn–Munkres routine over a
square cost matrix, with 1-based arrays of length `size + 1` and
`float("inf")` sentinels in `minv`.  The embedding keeps the 1-based state
as functions `ℕ → _`; `minv` values live in `Option ℚ` with `Option.none`
playing the role of `float("inf")`.  The matrix argument is passed as an
indexing function together with its size.  The two `while` loops carry
explicit fuel (`size + 1` marks at most all columns; the augmenting walk
visits each used column once); the fuel is never exhausted on the reachable
states, which the correctness lemmas below establish. -/

/-- Pointwise update of a 1-based array modelled as a function. -/
def upd {α : Type} (f : ℕ → α) (i : ℕ) (x : α) : ℕ → α :=
  fun j => if j = i then x else f j

/-- `q < m` where `m : Option ℚ` encodes `minv[j]` (`Option.none` = `inf`). -/
def ltInf (q : ℚ) (m : Option ℚ) : Bool :=
  match m with
  | Option.none => true
  | Option.some x => q < x

/-- `m < d` on `Option ℚ` with `Option.none` = `inf`. -/
def ltInfInf (m d : Option ℚ) : Bool :=
  match m, d with
  | Option.none, _ => false
  | Option.some _, Option.none => true
  | Option.some x, Option.some y => x < y

/-- The mutable state of `_hungarian` while processing one row: potentials
`u`, `v`, the column-to-row matching `p` (`p[j] = 0` means free), the
parent pointers `way`, the tentative reduced costs `minv`, the visited set
`used`, and the current column `j0`. -/
structure PhaseState where
  u : ℕ → ℚ
  v : ℕ → ℚ
  p : ℕ → ℕ
  way : ℕ → ℕ
  minv : ℕ → Option ℚ
  used : ℕ → Bool
  j0 : ℕ

/-- One column `j` of the scan `for j in range(1, size + 1)`: skip used
columns, refresh `minv[j]`/`way[j]` with the reduced cost of the tree row
`i0` seen from column `j0`, and fold the running `(delta, j1)` minimum
(strict comparison, so the first attaining column is kept). -/
def hungScanStep (cost : ℕ → ℕ → ℚ) (i0 j0 : ℕ) (uf vf : ℕ → ℚ) (used : ℕ → Bool)
    (acc : (ℕ → Option ℚ) × (ℕ → ℕ) × Option ℚ × ℕ) (j : ℕ) :
    (ℕ → Option ℚ) × (ℕ → ℕ) × Option ℚ × ℕ :=
  let minv := acc.1
  let way := acc.2.1
  let delta := acc.2.2.1
  let j1 := acc.2.2.2
  if used j then acc
  else
    let cur : ℚ := cost (i0 - 1) (j - 1) - uf i0 - vf j
    let minv := if ltInf cur (minv j) then upd minv j (Option.some cur) else minv
    let way := if ltInf cur (acc.1 j) then upd way j j0 else way
    if ltInfInf (minv j) delta then (minv, way, minv j, j) else (minv, way, delta, j1)

/-- One column `j` of the potential update: a used column shifts
`u[p[j]]` up and `v[j]` down by `delta`, an unused column shifts `minv[j]`
down. -/
def hungUpdateStep (d : ℚ) (s : PhaseState) (j : ℕ) : PhaseState :=
  if s.used j then
    { s with u := upd s.u (s.p j) (s.u (s.p j) + d), v := upd s.v j (s.v j - d) }
  else
    { s with minv := upd s.minv j ((s.minv j).map (fun x => x - d)) }

/-- The potential update `for j in range(size + 1)` once `delta` is known. -/
def hungUpdate (size : ℕ) (d : ℚ) (st : PhaseState) : PhaseState :=
  (List.range (size + 1)).foldl (hungUpdateStep d) st

/-- The Dijkstra-style `while True` loop of `_hungarian`: mark `j0` used,
scan the columns, apply the potential update, move to the minimising column
`j1`, and stop as soon as that column is free.  An infinite `delta` cannot
occur on reachable states (the scan from the first tree row fills every
`minv` entry with a finite value); in that impossible case the state is
returned as is. -/
def phaseLoop (cost : ℕ → ℕ → ℚ) (size : ℕ) : ℕ → PhaseState → PhaseState
  | 0, st => st
  | fuel + 1, st =>
    let st1 := { st with used := upd st.used st.j0 true }
    let i0 := st1.p st1.j0
    let scan := (List.range' 1 size).foldl
      (hungScanStep cost i0 st1.j0 st1.u st1.v st1.used)
      (st1.minv, st1.way, Option.none, 0)
    match scan.2.2.1 with
    | Option.none => { st1 with minv := scan.1, way := scan.2.1 }
    | Option.some d =>
      let st2 := hungUpdate size d { st1 with minv := scan.1, way := scan.2.1 }
      let st3 := { st2 with j0 := scan.2.2.2 }
      if st3.p st3.j0 = 0 then st3 else phaseLoop cost size fuel st3

/-- The augmenting walk `while True: j1 = way[j0]; p[j0] = p[j1]; j0 = j1`,
stopping once `j0` has returned to column 0. -/
def augmentLoop (way : ℕ → ℕ) : ℕ → (ℕ → ℕ) → ℕ → (ℕ → ℕ)
  | 0, p, _ => p
  | fuel + 1, p, j0 =>
    let j1 := way j0
    let p2 := upd p j0 (p j1)
    if j1 = 0 then p2 else augmentLoop way fuel p2 j1

/-- The final matching state of `_hungarian`: fold the per-row phase
(`p[0] = i`, reset `minv` and `used`, run the loop, augment) over the rows
`1 … size`, starting from all-zero arrays. -/
structure HState where
  u : ℕ → ℚ
  v : ℕ → ℚ
  p : ℕ → ℕ
  way : ℕ → ℕ

/-- One outer iteration of `_hungarian` (`for i in range(1, size + 1)`). -/
def hungRow (cost : ℕ → ℕ → ℚ) (size : ℕ) (hs : HState) (i : ℕ) : HState :=
  let ps : PhaseState :=
    { u := hs.u, v := hs.v, p := upd hs.p 0 i, way := hs.way,
      minv := fun _ => Option.none, used := fun _ => false, j0 := 0 }
  let fin := phaseLoop cost size (size + 1) ps
  let p2 := augmentLoop fin.way (size + 2) fin.p fin.j0
  { u := fin.u, v := fin.v, p := p2, way := fin.way }

/-- All outer iterations of `_hungarian`. -/
def hungarianState (cost : ℕ → ℕ → ℚ) (size : ℕ) : HState :=
  (List.range' 1 size).foldl (hungRow cost size)
    { u := fun _ => 0, v := fun _ => 0, p := fun _ => 0, way := fun _ => 0 }

/-- `_hungarian(cost)`: the assignment list (`assignment[p[j] - 1] = j - 1`
for every column `j` with `p[j] > 0`, starting from all `-1`).  The matrix
is passed as an indexing function plus its size (`size = len(cost)`). -/
def hungarian (cost : ℕ → ℕ → ℚ) (size : ℕ) : List ℤ :=
  if size = 0 then []
  else
    let hs := hungarianState cost size
    (List.range' 1 size).foldl
      (fun acc j => if hs.p j > 0 then acc.set (hs.p j - 1) ((j : ℤ) - 1) else acc)
      (List.replicate size (-1))

/-- `_optimal_event_matches(gold_events, pred_events, similarity_fn)`: build
the padded square similarity matrix, run `_hungarian` on `1 - similarity`,
and read one `(gold_index, pred_index?, similarity)` triple per real gold
event.  (The source's dead `j is None` test cannot fire: the assignment
list holds integers.) -/
def optimal_event_matches (simf : PyDict → PyDict → ℚ) (gold pred : List PyDict) :
    List (ℕ × Option ℕ × ℚ) :=
  let goldCount := gold.length
  let predCount := pred.length
  let size := max goldCount predCount
  if size = 0 then []
  else
    let sim : ℕ → ℕ → ℚ := fun i j =>
      if i < goldCount && j < predCount then simf (gold.getD i []) (pred.getD j []) else 0
    let cost : ℕ → ℕ → ℚ := fun i j => 1 - sim i j
    let assignment := hungarian cost size
    (List.range goldCount).map (fun i =>
      let j : ℤ := if i < assignment.length then assignment.getD i (-1) else -1
      if j < 0 || (predCount : ℤ) ≤ j then (i, Option.none, (0 : ℚ))
      else (i, Option.some j.toNat, sim i j.toNat))

/-- `_match_events(gold_events, pred_events, similarity_fn)`: the aggregate
`(event_match, venue, location)` triple, each averaged over the gold
events. -/
def match_events (simf : PyDict → PyDict → ℚ) (gold pred : List PyDict) : ℚ × ℚ × ℚ :=
  if gold.isEmpty && pred.isEmpty then (1, 1, 1)
  else if gold.isEmpty then (0, 0, 0)
  else
    let found := optimal_event_matches simf gold pred
    let totals := found.foldl
      (fun (acc : ℚ × ℚ × ℚ) m =>
        match m.2.1 with
        | Option.none => (acc.1 + m.2.2, acc.2.1, acc.2.2)
        | Option.some j =>
          (acc.1 + m.2.2,
           acc.2.1 + string_score (dictGet (gold.getD m.1 []) "venue")
               (dictGet (pred.getD j []) "venue"),
           acc.2.2 + location_score (gold.getD m.1 []) (pred.getD j [])))
      (0, 0, 0)
    let totalGold : ℚ := gold.length
    if gold.length = 0 then (0, 0, 0)
    else (totals.1 / totalGold, totals.2.1 / totalGold, totals.2.2 / totalGold)

/-- `_missing_field_rate(pred_events, expected_events)`. -/
def missing_field_rate (predEvents : List PyDict) (expectedEvents : ℕ) : ℚ :=
  if expectedEvents = 0 then 0
  else if predEvents.isEmpty then 1
  else
    let total := predEvents.length * 4
    if total = 0 then 0
    else
      let missing := predEvents.foldl
        (fun acc event =>
          acc + (["date", "venue", "city", "province"].countP
            (fun f => is_blank (dictGet event f))))
        0
      (missing : ℚ) / (total : ℚ)

/-- `_structured_score(parse_ok, schema_strict_ok)`. -/
def structured_score (parseOk schemaStrictOk : Bool) : ℚ :=
  0.7 * (if schemaStrictOk then 1 else 0) + 0.3 * (if parseOk then 1 else 0)

/-- `_app_quality_score(...)`: weighted sum of the four component scores,
scaled to 100, minus the missing-field penalty, then clamped. -/
def app_quality_score (structuredScore topLevelScore eventMatchScore eventCountScore
    missingFieldRate : ℚ) : ℚ :=
  let base := 0.4 * structuredScore + 0.15 * topLevelScore
    + 0.35 * eventMatchScore + 0.1 * eventCountScore
  let score := base * 100
  let score := score - 10 * missingFieldRate
  max 0 (min score 100)

/-! ### `_schema_valid` -/

/-- ASCII decimal digit (the `\d` class as used on the benchmark's
ASCII-only date and month strings). -/
def isDigitChar (c : Char) : Bool := '0' ≤ c && c ≤ '9'

/-- `re.match(r"^\d{4}-\d{2}$", s)`: fully anchored, except that `$` also
matches just before a single trailing newline. -/
def matchMonth (s : List Char) : Bool :=
  match s with
  | [a, b, c, d, '-', e, f] =>
    isDigitChar a && isDigitChar b && isDigitChar c && isDigitChar d
      && isDigitChar e && isDigitChar f
  | [a, b, c, d, '-', e, f, '\n'] =>
    isDigitChar a && isDigitChar b && isDigitChar c && isDigitChar d
      && isDigitChar e && isDigitChar f
  | _ => false

/-- `re.match(r"^\d{4}-\d{2}-\d{2}$", s)` (same `$` caveat). -/
def matchDate (s : List Char) : Bool :=
  match s with
  | [a, b, c, d, '-', e, f, '-', g, h] =>
    isDigitChar a && isDigitChar b && isDigitChar c && isDigitChar d
      && isDigitChar e && isDigitChar f && isDigitChar g && isDigitChar h
  | [a, b, c, d, '-', e, f, '-', g, h, '\n'] =>
    isDigitChar a && isDigitChar b && isDigitChar c && isDigitChar d
      && isDigitChar e && isDigitChar f && isDigitChar g && isDigitChar h
  | _ => false

/-- `re.match(r"^\d{2}:\d{2}$", s)` (same `$` caveat). -/
def matchTime (s : List Char) : Bool :=
  match s with
  | [a, b, ':', c, d] => isDigitChar a && isDigitChar b && isDigitChar c && isDigitChar d
  | [a, b, ':', c, d, '\n'] => isDigitChar a && isDigitChar b && isDigitChar c && isDigitChar d
  | _ => false

/-- The required top-level keys of a record. -/
def requiredTopKeys : List String :=
  ["artist_name", "instagram_handle", "tour_name", "contact_info", "source_month",
   "poster_confidence", "events"]

/-- The required keys of an event object. -/
def requiredEventKeys : List String :=
  ["date", "event_name", "venue", "city", "province", "country", "time", "ticket_info",
   "status", "confidence"]

/-- `isinstance(x, str)`. -/
def isStr : PyVal → Bool
  | PyVal.pystr _ => true
  | _ => false

/-- `isinstance(x, (int, float))`.  Python's `bool` is a subclass of `int`,
so booleans count as numbers here, exactly as in the source. -/
def isNumeric : PyVal → Bool
  | PyVal.pyint _ => true
  | PyVal.pyfloat _ => true
  | PyVal.pybool _ => true
  | _ => false

/-- The numeric value used in `< 0` / `> 1` comparisons (`True == 1`). -/
def numVal : PyVal → ℚ
  | PyVal.pyint n => n
  | PyVal.pyfloat q => q
  | PyVal.pybool b => if b then 1 else 0
  | _ => 0

/-- `value is None or isinstance(value, str)`. -/
def strOrNone : PyVal → Bool
  | PyVal.pynone => true
  | PyVal.pystr _ => true
  | _ => false

/-- The per-event checks of `_schema_valid` (key set, date, country,
status, time, five nullable strings, confidence). -/
def eventValid (strict : Bool) (event : PyVal) : Bool :=
  match event with
  | PyVal.pydict e =>
    (if strict then keysSetEq (dictKeys e) requiredEventKeys
     else keysSubset requiredEventKeys (dictKeys e))
    && (match dictGet e "date" with
        | PyVal.pystr s => matchDate s
        | _ => false)
    && isStr (dictGet e "country")
    && (match dictGet e "status" with
        | PyVal.pystr s =>
          s = "active".data || s = "cancelled".data || s = "postponed".data
        | _ => false)
    && (match dictGet e "time" with
        | PyVal.pynone => true
        | PyVal.pystr s => matchTime s
        | _ => false)
    && (["event_name", "venue", "city", "province", "ticket_info"].all
        (fun k => strOrNone (dictGet e k)))
    && (match dictGet e "confidence" with
        | PyVal.pynone => true
        | v => isNumeric v && decide ((0 : ℚ) ≤ numVal v) && decide (numVal v ≤ 1))
  | _ => false

/-- `_schema_valid(data, strict)`: a total Boolean check, never an
exception. -/
def schema_valid (data : PyVal) (strict : Bool) : Bool :=
  match data with
  | PyVal.pydict d =>
    (if strict then keysSetEq (dictKeys d) requiredTopKeys
     else keysSubset requiredTopKeys (dictKeys d))
    && isStr (dictGet d "artist_name")
    && (["instagram_handle", "tour_name", "contact_info"].all
        (fun k => strOrNone (dictGet d k)))
    && (match dictGet d "source_month" with
        | PyVal.pystr s => matchMonth s
        | _ => false)
    && (match dictGet d "events" with
        | PyVal.pylist _ => true
        | _ => false)
    && (match dictGet d "poster_confidence" with
        | PyVal.pynone => true
        | v => isNumeric v && decide ((0 : ℚ) ≤ numVal v) && decide (numVal v ≤ 1))
    && (match dictGet d "events" with
        | PyVal.pylist xs => xs.all (eventValid strict)
        | _ => true)
  | _ => false

/-! ### Bootstrap statistics

`random.Random(BOOTSTRAP_SEED)` is a deterministic pseudo-random stream;
its Mersenne-Twister internals are irrelevant to every claim, so the
stream is abstracted as an explicit sequence of draws, with
`rng.randrange(count)` modelled as `draws t % count` at the `t`-th
consumption point.  All properties below are proved for every stream, so
in particular for the one the seeded generator produces. -/

/-- An abstract stream of RNG draws. -/
abbrev Draws := ℕ → ℕ

/-- `BOOTSTRAP_SAMPLES = 1000`. -/
abbrev bootstrapSamples : ℕ := 1000

/-- `int((BOOTSTRAP_ALPHA / 2) * BOOTSTRAP_SAMPLES)` with
`BOOTSTRAP_ALPHA = 0.05` (the source computes 25 in float arithmetic). -/
abbrev ciLowIdx : ℕ := 25

/-- `int((1 - BOOTSTRAP_ALPHA / 2) * BOOTSTRAP_SAMPLES) - 1` (= 974 in the
source's float arithmetic). -/
abbrev ciHighIdx : ℕ := 974

/-- `_bootstrap_ci(values)`.  `Except.error` models an uncaught Python
exception (it is proved unreachable); `Except.ok Option.none` is the
explicit "no result" for empty input. -/
def bootstrap_ci (draws : Draws) (values : List ℚ) : Except String (Option (ℚ × ℚ)) :=
  if values.isEmpty then Except.ok Option.none
  else
    let count := values.length
    let means := (List.range bootstrapSamples).map (fun s =>
      ((List.range count).foldl
        (fun tot t => tot + values.getD (draws (s * count + t) % count) 0) (0 : ℚ)) / count)
    let sorted := means.mergeSort (fun a b => a ≤ b)
    if h : ciLowIdx < sorted.length ∧ ciHighIdx < sorted.length then
      Except.ok (Option.some (sorted.get ⟨ciLowIdx, h.1⟩, sorted.get ⟨ciHighIdx, h.2⟩))
    else Except.error "IndexError"

/-- The record returned by `_bootstrap_diff_stats`. -/
structure DiffStats where
  diff_mean : ℚ
  ci_low : ℚ
  ci_high : ℚ
  p_value : ℚ

/-- `_bootstrap_diff_stats(values_a, values_b)`: each of the 1000
iterations resamples both lists (consuming `count_a` draws for A then
`count_b` for B) and records the difference of resample means; the point
estimate `diff_mean` comes from the raw lists; `p_value` doubles the
smaller tail fraction of the resampled differences. -/
def bootstrap_diff_stats (draws : Draws) (valuesA valuesB : List ℚ) :
    Except String (Option DiffStats) :=
  if valuesA.isEmpty || valuesB.isEmpty then Except.ok Option.none
  else
    let countA := valuesA.length
    let countB := valuesB.length
    let diffs := (List.range bootstrapSamples).map (fun s =>
      let meanA := ((List.range countA).foldl (fun tot t =>
          tot + valuesA.getD (draws (s * (countA + countB) + t) % countA) 0) (0 : ℚ)) / countA
      let meanB := ((List.range countB).foldl (fun tot t =>
          tot + valuesB.getD (draws (s * (countA + countB) + countA + t) % countB) 0) (0 : ℚ)) / countB
      meanA - meanB)
    let sorted := diffs.mergeSort (fun a b => a ≤ b)
    let diffMean := valuesA.sum / countA - valuesB.sum / countB
    let negative := sorted.countP (fun d => d ≤ 0)
    let positive := bootstrapSamples - negative
    let pValue : ℚ :=
      2 * min ((negative : ℚ) / (bootstrapSamples : ℚ)) ((positive : ℚ) / (bootstrapSamples : ℚ))
    if h : ciLowIdx < sorted.length ∧ ciHighIdx < sorted.length then
      Except.ok (Option.some
        { diff_mean := diffMean, ci_low := sorted.get ⟨ciLowIdx, h.1⟩,
          ci_high := sorted.get ⟨ciHighIdx, h.2⟩, p_value := pValue })
    else Except.error "IndexError"

/-- `command_report`'s significance flag:
`significant = not (ci_low <= 0 <= ci_high)`. -/
def significant (st : DiffStats) : Bool :=
  !(decide (st.ci_low ≤ 0) && decide ((0 : ℚ) ≤ st.ci_high))

/-- The per-poster pair of overall scores exactly as `command_report`
assembles them: the full variant feeds `event_match_score` and the core
variant feeds `core_event_match_score` into the same
`_app_quality_score`; `parse_ok` is `isinstance(pred, dict)` and the
strict schema check is only run on parsed objects. -/
def poster_scores (gold pred : PyVal) : ℚ × ℚ :=
  let goldEvents := event_list gold
  let predEvents := event_list pred
  let predOk := match pred with | PyVal.pydict _ => true | _ => false
  let schemaStrictOk := if predOk then schema_valid pred true else false
  let eventCount := event_count_score goldEvents predEvents
  let eventMatch := (match_events event_similarity goldEvents predEvents).1
  let coreEventMatch := (match_events event_similarity_core goldEvents predEvents).1
  let topLevel := score_top_level gold pred
  let missingRate := missing_field_rate predEvents goldEvents.length
  let structured := structured_score predOk schemaStrictOk
  (app_quality_score structured topLevel eventMatch eventCount missingRate,
   app_quality_score structured topLevel coreEventMatch eventCount missingRate)

/-- The reduced cost of 1-based row `i` against 1-based column `j`. -/
def slack (cost : ℕ → ℕ → ℚ) (u v : ℕ → ℚ) (i j : ℕ) : ℚ :=
  cost (i - 1) (j - 1) - u i - v j

/-- `minv` values live in `Option ℚ` with `Option.none` as infinity; order
them as `WithTop ℚ`. -/
def toT (m : Option ℚ) : WithTop ℚ := m

/-- The scan accumulator after processing the columns of `l`. -/
def hungScanFold (cost : ℕ → ℕ → ℚ) (i0 j0 : ℕ) (uf vf : ℕ → ℚ) (used : ℕ → Bool)
    (minv0 : ℕ → Option ℚ) (way0 : ℕ → ℕ) (l : List ℕ) :
    (ℕ → Option ℚ) × (ℕ → ℕ) × Option ℚ × ℕ :=
  l.foldl (hungScanStep cost i0 j0 uf vf used) (minv0, way0, Option.none, 0)

/-- The invariant carried through the Dijkstra-style loop of one phase of
`_hungarian`.  `pf` is the column-to-row matching fixed at phase start
(`pf 0` is the row being inserted); `ul` is the list of used columns, most
recently marked first.  The fields are the classical ones: the state's
matching never changes during the loop, potentials stay feasible, the old
matching stays tight, `minv` under-approximates every tree row's reduced
cost, finite `minv` entries are witnessed by their `way` column, and every
used column's `way` edge is tight and points to an earlier-marked column. -/
structure PhaseInv (cost : ℕ → ℕ → ℚ) (size : ℕ) (pf : ℕ → ℕ)
    (st : PhaseState) (ul : List ℕ) : Prop where
  p_eq : st.p = pf
  nodup : ul.Nodup
  used_iff : ∀ j, st.used j = true ↔ j ∈ ul
  ul_range : ∀ j ∈ ul, j ≤ size
  ul_matched : ∀ j ∈ ul, j ≠ 0 → pf j ≠ 0
  feas : ∀ i, 1 ≤ i → i ≤ size → ∀ j, 1 ≤ j → j ≤ size →
    st.u i + st.v j ≤ cost (i - 1) (j - 1)
  mtight : ∀ j, 1 ≤ j → j ≤ size → pf j ≠ 0 →
    st.u (pf j) + st.v j = cost (pf j - 1) (j - 1)
  minv_ub : ∀ j, 1 ≤ j → j ≤ size → st.used j = false → ∀ ju ∈ ul,
    toT (st.minv j) ≤ ((slack cost st.u st.v (pf ju) j : ℚ) : WithTop ℚ)
  minv_way : ∀ j, 1 ≤ j → j ≤ size → st.used j = false → st.minv j ≠ Option.none →
    st.way j ∈ ul ∧ st.minv j = Option.some (slack cost st.u st.v (pf (st.way j)) j)
  tight : ∀ l1 j l2, ul = l1 ++ j :: l2 → j ≠ 0 →
    st.way j ∈ l2 ∧ slack cost st.u st.v (pf (st.way j)) j = 0

/-- The state after one full iteration of the phase loop: mark `j0`, scan
the columns, shift the potentials by the scan's `delta`, and move to the
scan's minimising column (the first `match` arm is the unreachable
infinite-`delta` case). -/
def phaseIterState (cost : ℕ → ℕ → ℚ) (size : ℕ) (st : PhaseState) : PhaseState :=
  let st1 := { st with used := upd st.used st.j0 true }
  let scan := hungScanFold cost (st1.p st1.j0) st1.j0 st1.u st1.v st1.used st1.minv st1.way
      (List.range' 1 size)
  match scan.2.2.1 with
  | Option.none => { st1 with minv := scan.1, way := scan.2.1 }
  | Option.some d =>
    { hungUpdate size d { st1 with minv := scan.1, way := scan.2.1 } with j0 := scan.2.2.2 }

/-- What holds of the phase state when the loop exits: the invariant, and
a free in-range unused column `j0` whose `way` edge into the tree is
tight. -/
structure PhaseOut (cost : ℕ → ℕ → ℚ) (size : ℕ) (pf : ℕ → ℕ)
    (st : PhaseState) (ul : List ℕ) : Prop where
  inv : PhaseInv cost size pf st ul
  j0_ge : 1 ≤ st.j0
  j0_le : st.j0 ≤ size
  j0_free : pf st.j0 = 0
  j0_unused : st.used st.j0 = false
  way_mem : st.way st.j0 ∈ ul
  way_tight : slack cost st.u st.v (pf (st.way st.j0)) st.j0 = 0

/-- The columns rewritten by the augmenting walk of `_hungarian`, as an
unordered package: the walk starts at `j0`, every later column lies in the
used list `s`, the parent links `way` stay inside the package and reach
column `0`, and running `augmentLoop` moves every column's row one step
along the walk. -/
structure AugChain (way : ℕ → ℕ) (s : List ℕ) (j0 : ℕ) (c : List ℕ) : Prop where
  head_mem : j0 ∈ c
  ne_zero : ∀ x ∈ c, x ≠ 0
  mem_s : ∀ x ∈ c, x = j0 ∨ x ∈ s
  way_s : ∀ x ∈ c, way x ∈ s ∨ way x = 0
  way_closed : ∀ x ∈ c, way x ∈ c ∨ way x = 0
  way_inj : ∀ x ∈ c, ∀ y ∈ c, way x = way y → x = y
  parent : ∀ x ∈ c, x ≠ j0 → ∃ y ∈ c, way y = x
  root : ∃ y ∈ c, way y = 0
  run : ∀ fuel, s.length + 1 ≤ fuel → ∀ p : ℕ → ℕ,
    augmentLoop way fuel p j0 = fun j => if j ∈ c then p (way j) else p j

/-- The invariant of the outer row loop of `_hungarian` after `r` rows:
the matching `p` sends columns `1 … size` injectively onto the processed
rows `1 … r` (with `0` for free columns), the potentials are feasible, and
matched pairs are tight. -/
structure MainInv (cost : ℕ → ℕ → ℚ) (size r : ℕ) (hs : HState) : Prop where
  p_le : ∀ j, 1 ≤ j → j ≤ size → hs.p j ≤ r
  p_inj : ∀ j, 1 ≤ j → j ≤ size → ∀ j', 1 ≤ j' → j' ≤ size →
    hs.p j ≠ 0 → hs.p j = hs.p j' → j = j'
  p_onto : ∀ i, 1 ≤ i → i ≤ r → ∃ j, 1 ≤ j ∧ j ≤ size ∧ hs.p j = i
  feas : ∀ i, 1 ≤ i → i ≤ size → ∀ j, 1 ≤ j → j ≤ size →
    hs.u i + hs.v j ≤ cost (i - 1) (j - 1)
  tight : ∀ j, 1 ≤ j → j ≤ size → hs.p j ≠ 0 →
    hs.u (hs.p j) + hs.v j = cost (hs.p j - 1) (j - 1)

/-- The padded square similarity matrix of `_optimal_event_matches`:
real (gold, pred) pairs get `similarity_fn`, padding gets `0`. -/
def padSim (simf : PyDict → PyDict → ℚ) (gold pred : List PyDict) (i j : ℕ) : ℚ :=
  if i < gold.length && j < pred.length then simf (gold.getD i []) (pred.getD j []) else 0

/-- The cost matrix `1 - similarity` handed to `_hungarian` by
`_optimal_event_matches`. -/
def oemCost (simf : PyDict → PyDict → ℚ) (gold pred : List PyDict) (i j : ℕ) : ℚ :=
  1 - padSim simf gold pred i j

/-- The total similarity collected by a match list (third component of
each triple). -/
def matchedSimTotal (l : List (ℕ × Option ℕ × ℚ)) : ℚ :=
  (l.map (fun t => t.2.2)).sum

/-- The total similarity of an arbitrary partial assignment `a` of gold
indices to predicted indices. -/
def assignTotal (simf : PyDict → PyDict → ℚ) (gold pred : List PyDict)
    (a : ℕ → Option ℕ) : ℚ :=
  ((List.range gold.length).map (fun i =>
    match a i with
    | Option.none => 0
    | Option.some j => simf (gold.getD i []) (pred.getD j []))).sum

/-- A valid one-to-one assignment of gold events to predicted events:
assigned indices are in range and no predicted event is used twice. -/
def ValidAssign (n m : ℕ) (a : ℕ → Option ℕ) : Prop :=
  (∀ i j, i < n → a i = Option.some j → j < m) ∧
  (∀ i i' j, i < n → i' < n → a i = Option.some j → a i' = Option.some j → i = i')

/-- A strict-schema-valid event whose venue, city and province are null
(the schema allows this). -/
def selfEvent : PyDict :=
  [("date", pstr "2024-01-01"), ("event_name", PyVal.pynone), ("venue", PyVal.pynone),
   ("city", PyVal.pynone), ("province", PyVal.pynone), ("country", pstr "Thailand"),
   ("time", PyVal.pynone), ("ticket_info", PyVal.pynone), ("status", pstr "active"),
   ("confidence", PyVal.pynone)]

/-- A strict-schema-valid record containing `selfEvent`. -/
def selfRecord : PyVal := PyVal.pydict
  [("artist_name", pstr "Band"), ("instagram_handle", PyVal.pynone),
   ("tour_name", PyVal.pynone), ("contact_info", PyVal.pynone),
   ("source_month", pstr "2024-01"), ("poster_confidence", PyVal.pynone),
   ("events", PyVal.pylist [PyVal.pydict selfEvent])]

/-- A parseable object with every required key but a wrong-typed
`artist_name`, hence strict-invalid. -/
def badPred : PyDict :=
  [("artist_name", PyVal.pyint 1), ("instagram_handle", PyVal.pynone),
   ("tour_name", PyVal.pynone), ("contact_info", PyVal.pynone),
   ("source_month", pstr "2024-01"), ("poster_confidence", PyVal.pynone),
   ("events", PyVal.pylist [])]

/-- The window bounds maintained by `find_longest_match`: the best block
`(i, j, k)` lies inside `[alo, ahi) × [blo, bhi)`. -/
def BestOK (alo blo ahi bhi : ℕ) (best : ℕ × ℕ × ℕ) : Prop :=
  alo ≤ best.1 ∧ blo ≤ best.2.1 ∧ best.1 + best.2.2 ≤ ahi ∧ best.2.1 + best.2.2 ≤ bhi

/-! ### Correctness of `_hungarian`

The routine is the potential-based Kuhn–Munkres algorithm.  The proof
follows the classical duality argument: the final state carries potentials
`u`, `v` that are feasible for every (row, column) pair, the matching `p`
is a bijection from columns onto rows, and every matched pair is tight;
the matching cost is then minimal over all permutations.  The invariants
are established phase by phase, for cost matrices with non-negative
entries (in the benchmark, costs are `1 − similarity` with similarities in
`[0, 1]`). -/

theorem toT_none : toT Option.none = ⊤ := rfl

theorem toT_some (x : ℚ) : toT (Option.some x) = (x : WithTop ℚ) := rfl

theorem ltInf_iff (q : ℚ) (m : Option ℚ) : ltInf q m = true ↔ (q : WithTop ℚ) < toT m := by
  cases m
  · simp only [ltInf, toT_none, true_iff]
    exact WithTop.coe_lt_top q
  · simp [ltInf, toT_some, WithTop.coe_lt_coe]

theorem ltInfInf_iff (m d : Option ℚ) : ltInfInf m d = true ↔ toT m < toT d := by
  cases m <;> cases d <;>
    simp [ltInfInf, toT_none, toT_some, WithTop.coe_lt_coe, WithTop.coe_lt_top]

theorem upd_same {α : Type} (f : ℕ → α) (i : ℕ) (x : α) : upd f i x i = x := by
  simp [upd]

theorem upd_ne {α : Type} (f : ℕ → α) (i j : ℕ) (x : α) (h : j ≠ i) : upd f i x j = f j := by
  simp [upd, h]

/-- The potential-update fold never touches `used`, `p`, `way` or `j0`. -/
theorem hungUpdate_fold_stable (d : ℚ) (l : List ℕ) (st : PhaseState) :
    (l.foldl (hungUpdateStep d) st).used = st.used
    ∧ (l.foldl (hungUpdateStep d) st).p = st.p
    ∧ (l.foldl (hungUpdateStep d) st).way = st.way
    ∧ (l.foldl (hungUpdateStep d) st).j0 = st.j0 := by
  induction l generalizing st with
  | nil => exact ⟨rfl, rfl, rfl, rfl⟩
  | cons x xs ih =>
    have hstep : (hungUpdateStep d st x).used = st.used
        ∧ (hungUpdateStep d st x).p = st.p
        ∧ (hungUpdateStep d st x).way = st.way
        ∧ (hungUpdateStep d st x).j0 = st.j0 := by
      unfold hungUpdateStep
      split <;> exact ⟨rfl, rfl, rfl, rfl⟩
    obtain ⟨h1, h2, h3, h4⟩ := ih (hungUpdateStep d st x)
    rw [List.foldl_cons]
    exact ⟨h1.trans hstep.1, h2.trans hstep.2.1, h3.trans hstep.2.2.1,
      h4.trans hstep.2.2.2⟩

/-- Effect of the potential-update fold on `u`: each row matched to a used
column in the processed list gains `d` exactly once (matched rows are
pairwise distinct). -/
theorem hungUpdate_fold_u (d : ℚ) (l : List ℕ) (hl : l.Nodup) (st : PhaseState)
    (hinj : ∀ j ∈ l, ∀ j' ∈ l, st.used j = true → st.used j' = true →
      st.p j = st.p j' → j = j') :
    ∀ i, (l.foldl (hungUpdateStep d) st).u i =
      if ∃ j ∈ l, st.used j = true ∧ st.p j = i then st.u i + d else st.u i := by
  induction l generalizing st with
  | nil => intro i; simp
  | cons x xs ih =>
    intro i
    rw [List.foldl_cons]
    have hstable := hungUpdate_fold_stable d xs (hungUpdateStep d st x)
    have hused : (hungUpdateStep d st x).used = st.used ∧ (hungUpdateStep d st x).p = st.p := by
      unfold hungUpdateStep
      split <;> exact ⟨rfl, rfl⟩
    have hxs := ih (List.nodup_cons.mp hl).2 (hungUpdateStep d st x)
      (by
        intro j hj j' hj' h1 h2 h3
        rw [hused.1] at h1 h2
        rw [hused.2] at h3
        exact hinj j (List.mem_cons_of_mem x hj) j' (List.mem_cons_of_mem x hj') h1 h2 h3) i
    rw [hused.1, hused.2] at hxs
    by_cases hx : st.used x = true
    · have hstepu : (hungUpdateStep d st x).u =
          upd st.u (st.p x) (st.u (st.p x) + d) := by
        unfold hungUpdateStep
        rw [if_pos hx]
      by_cases hex : ∃ j ∈ xs, st.used j = true ∧ st.p j = i
      · rw [if_pos (by
          obtain ⟨j, hj, hju, hjp⟩ := hex
          exact ⟨j, List.mem_cons_of_mem x hj, hju, hjp⟩)]
        rw [hxs, if_pos hex, hstepu]
        obtain ⟨j, hj, hju, hjp⟩ := hex
        have hne : i ≠ st.p x := by
          intro hie
          have := hinj j (List.mem_cons_of_mem x hj) x (List.mem_cons_self x xs)
            hju hx (by rw [hjp, hie])
          exact (List.nodup_cons.mp hl).1 (this ▸ hj)
        rw [upd_ne _ _ _ _ hne]
      · rw [hxs, if_neg hex, hstepu]
        by_cases hix : i = st.p x
        · rw [if_pos ⟨x, List.mem_cons_self x xs, hx, hix.symm⟩, hix, upd_same]
        · rw [if_neg (by
            rintro ⟨j, hj, hju, hjp⟩
            rcases List.mem_cons.mp hj with rfl | hj2
            · exact hix hjp.symm
            · exact hex ⟨j, hj2, hju, hjp⟩), upd_ne _ _ _ _ hix]
    · have hstepu : (hungUpdateStep d st x).u = st.u := by
        unfold hungUpdateStep
        rw [if_neg hx]
      rw [hxs, hstepu]
      by_cases hex : ∃ j ∈ xs, st.used j = true ∧ st.p j = i
      · obtain ⟨j, hj, hju, hjp⟩ := hex
        rw [if_pos ⟨j, hj, hju, hjp⟩, if_pos ⟨j, List.mem_cons_of_mem x hj, hju, hjp⟩]
      · rw [if_neg hex, if_neg (by
          rintro ⟨j, hj, hju, hjp⟩
          rcases List.mem_cons.mp hj with rfl | hj2
          · exact absurd hju (by simp [hx])
          · exact hex ⟨j, hj2, hju, hjp⟩)]

/-- Effect of the potential-update fold on `v`. -/
theorem hungUpdate_fold_v (d : ℚ) (l : List ℕ) (hl : l.Nodup) (st : PhaseState) :
    ∀ j, (l.foldl (hungUpdateStep d) st).v j =
      if j ∈ l ∧ st.used j = true then st.v j - d else st.v j := by
  induction l generalizing st with
  | nil => intro j; simp
  | cons x xs ih =>
    intro j
    rw [List.foldl_cons]
    have hused : (hungUpdateStep d st x).used = st.used := by
      unfold hungUpdateStep
      split <;> rfl
    have hxs := ih (List.nodup_cons.mp hl).2 (hungUpdateStep d st x) j
    rw [hused] at hxs
    by_cases hx : st.used x = true
    · have hstepv : (hungUpdateStep d st x).v = upd st.v x (st.v x - d) := by
        unfold hungUpdateStep
        rw [if_pos hx]
      rw [hxs, hstepv]
      by_cases hjx : j = x
      · subst hjx
        rw [if_neg (fun h => (List.nodup_cons.mp hl).1 h.1), upd_same,
          if_pos ⟨List.mem_cons_self j xs, hx⟩]
      · by_cases hj : j ∈ xs ∧ st.used j = true
        · rw [if_pos hj, if_pos ⟨List.mem_cons_of_mem x hj.1, hj.2⟩, upd_ne _ _ _ _ hjx]
        · rw [if_neg hj, upd_ne _ _ _ _ hjx, if_neg (by
            rintro ⟨hmem, hu⟩
            rcases List.mem_cons.mp hmem with rfl | h2
            · exact hjx rfl
            · exact hj ⟨h2, hu⟩)]
    · have hstepv : (hungUpdateStep d st x).v = st.v := by
        unfold hungUpdateStep
        rw [if_neg hx]
      rw [hxs, hstepv]
      by_cases hj : j ∈ xs ∧ st.used j = true
      · rw [if_pos hj, if_pos ⟨List.mem_cons_of_mem x hj.1, hj.2⟩]
      · rw [if_neg hj, if_neg (by
          rintro ⟨hmem, hu⟩
          rcases List.mem_cons.mp hmem with rfl | h2
          · exact absurd hu (by simp [hx])
          · exact hj ⟨h2, hu⟩)]

/-- Effect of the potential-update fold on `minv`. -/
theorem hungUpdate_fold_minv (d : ℚ) (l : List ℕ) (hl : l.Nodup) (st : PhaseState) :
    ∀ j, (l.foldl (hungUpdateStep d) st).minv j =
      if j ∈ l ∧ st.used j = false then (st.minv j).map (fun x => x - d) else st.minv j := by
  induction l generalizing st with
  | nil => intro j; simp
  | cons x xs ih =>
    intro j
    rw [List.foldl_cons]
    have hused : (hungUpdateStep d st x).used = st.used := by
      unfold hungUpdateStep
      split <;> rfl
    have hxs := ih (List.nodup_cons.mp hl).2 (hungUpdateStep d st x) j
    rw [hused] at hxs
    by_cases hx : st.used x = true
    · have hstepm : (hungUpdateStep d st x).minv = st.minv := by
        unfold hungUpdateStep
        rw [if_pos hx]
      rw [hxs, hstepm]
      by_cases hj : j ∈ xs ∧ st.used j = false
      · rw [if_pos hj, if_pos ⟨List.mem_cons_of_mem x hj.1, hj.2⟩]
      · rw [if_neg hj, if_neg (by
          rintro ⟨hmem, hu⟩
          rcases List.mem_cons.mp hmem with rfl | h2
          · rw [hx] at hu; cases hu
          · exact hj ⟨h2, hu⟩)]
    · have hxf : st.used x = false := by
        cases h : st.used x
        · rfl
        · exact absurd h hx
      have hstepm : (hungUpdateStep d st x).minv =
          upd st.minv x ((st.minv x).map (fun y => y - d)) := by
        unfold hungUpdateStep
        rw [if_neg hx]
      rw [hxs, hstepm]
      by_cases hjx : j = x
      · subst hjx
        rw [if_neg (fun h => (List.nodup_cons.mp hl).1 h.1), upd_same,
          if_pos ⟨List.mem_cons_self j xs, hxf⟩]
      · by_cases hj : j ∈ xs ∧ st.used j = false
        · rw [if_pos hj, if_pos ⟨List.mem_cons_of_mem x hj.1, hj.2⟩, upd_ne _ _ _ _ hjx]
        · rw [if_neg hj, upd_ne _ _ _ _ hjx, if_neg (by
            rintro ⟨hmem, hu⟩
            rcases List.mem_cons.mp hmem with rfl | h2
            · exact hjx rfl
            · exact hj ⟨h2, hu⟩)]

/-- Full characterisation of the column scan of `_hungarian`: on unused
scanned columns, `minv`/`way` are refreshed with the reduced cost of the
tree row `i0` (strict improvement check); `(delta, j1)` is a minimum of
the refreshed `minv` over the unused scanned columns together with a
column attaining it. -/
theorem hungScan_fold_spec (cost : ℕ → ℕ → ℚ) (i0 j0 : ℕ) (uf vf : ℕ → ℚ)
    (used : ℕ → Bool) (minv0 : ℕ → Option ℚ) (way0 : ℕ → ℕ)
    (l : List ℕ) (hl : l.Nodup) :
    (∀ j, j ∉ l →
      (hungScanFold cost i0 j0 uf vf used minv0 way0 l).1 j = minv0 j
      ∧ (hungScanFold cost i0 j0 uf vf used minv0 way0 l).2.1 j = way0 j)
    ∧ (∀ j ∈ l, used j = true →
      (hungScanFold cost i0 j0 uf vf used minv0 way0 l).1 j = minv0 j
      ∧ (hungScanFold cost i0 j0 uf vf used minv0 way0 l).2.1 j = way0 j)
    ∧ (∀ j ∈ l, used j = false →
      (hungScanFold cost i0 j0 uf vf used minv0 way0 l).1 j =
        (if ltInf (slack cost uf vf i0 j) (minv0 j) then
          Option.some (slack cost uf vf i0 j) else minv0 j)
      ∧ (hungScanFold cost i0 j0 uf vf used minv0 way0 l).2.1 j =
        (if ltInf (slack cost uf vf i0 j) (minv0 j) then j0 else way0 j))
    ∧ (∀ j ∈ l, used j = false →
      toT (hungScanFold cost i0 j0 uf vf used minv0 way0 l).2.2.1
        ≤ toT ((hungScanFold cost i0 j0 uf vf used minv0 way0 l).1 j))
    ∧ ((hungScanFold cost i0 j0 uf vf used minv0 way0 l).2.2.1 = Option.none
      ∨ ((hungScanFold cost i0 j0 uf vf used minv0 way0 l).2.2.2 ∈ l
        ∧ used (hungScanFold cost i0 j0 uf vf used minv0 way0 l).2.2.2 = false
        ∧ (hungScanFold cost i0 j0 uf vf used minv0 way0 l).1
            ((hungScanFold cost i0 j0 uf vf used minv0 way0 l).2.2.2)
          = (hungScanFold cost i0 j0 uf vf used minv0 way0 l).2.2.1)) := by
  induction l using List.reverseRecOn with
  | nil =>
    refine ⟨fun j _ => ⟨rfl, rfl⟩, by simp, by simp, by simp, Or.inl rfl⟩
  | append_singleton l x ih =>
    have hlx : l.Nodup ∧ x ∉ l := by
      have h := hl
      rw [List.nodup_append] at h
      exact ⟨h.1, fun hx => h.2.2 hx (List.mem_singleton_self x)⟩
    obtain ⟨ihA, ihB, ihC, ihD, ihE⟩ := ih hlx.1
    have hfold : hungScanFold cost i0 j0 uf vf used minv0 way0 (l ++ [x]) =
        hungScanStep cost i0 j0 uf vf used
          (hungScanFold cost i0 j0 uf vf used minv0 way0 l) x := by
      unfold hungScanFold
      rw [List.foldl_append, List.foldl_cons, List.foldl_nil]
    set res := hungScanFold cost i0 j0 uf vf used minv0 way0 l with hres
    obtain ⟨mvx, wyx⟩ := ihA x hlx.2
    by_cases hx : used x = true
    · have hstep : hungScanStep cost i0 j0 uf vf used res x = res := by
        unfold hungScanStep
        rw [if_pos hx]
      rw [hfold, hstep]
      refine ⟨?_, ?_, ?_, ?_, ?_⟩
      · intro j hj
        exact ihA j (fun h => hj (List.mem_append_left _ h))
      · intro j hj hju
        rcases List.mem_append.mp hj with h | h
        · exact ihB j h hju
        · rw [List.mem_singleton.mp h]
          exact ⟨mvx, wyx⟩
      · intro j hj hju
        rcases List.mem_append.mp hj with h | h
        · exact ihC j h hju
        · rw [List.mem_singleton.mp h] at hju
          rw [hju] at hx
          cases hx
      · intro j hj hju
        rcases List.mem_append.mp hj with h | h
        · exact ihD j h hju
        · rw [List.mem_singleton.mp h] at hju
          rw [hju] at hx
          cases hx
      · rcases ihE with h | ⟨h1, h2, h3⟩
        · exact Or.inl h
        · exact Or.inr ⟨List.mem_append_left _ h1, h2, h3⟩
    · have hxf : used x = false := by
        cases h : used x
        · rfl
        · exact absurd h hx
      have hcur : cost (i0 - 1) (x - 1) - uf i0 - vf x = slack cost uf vf i0 x := rfl
      rw [hfold]
      unfold hungScanStep
      rw [if_neg hx]
      simp only [hcur, mvx]
      by_cases himp : ltInf (slack cost uf vf i0 x) (minv0 x) = true
      · rw [if_pos himp]
        simp only [himp, if_true]
        by_cases hsel : ltInfInf (upd res.1 x (Option.some (slack cost uf vf i0 x)) x)
            res.2.2.1 = true
        · rw [if_pos hsel]
          dsimp only
          refine ⟨?_, ?_, ?_, ?_, ?_⟩
          · intro j hj
            have hjl : j ∉ l := fun h => hj (List.mem_append_left _ h)
            have hjx : j ≠ x := fun h => hj (by
              rw [h]
              exact List.mem_append_right _ (List.mem_singleton_self x))
            obtain ⟨h1, h2⟩ := ihA j hjl
            exact ⟨by rw [upd_ne _ _ _ _ hjx, h1], by rw [upd_ne _ _ _ _ hjx, h2]⟩
          · intro j hj hju
            rcases List.mem_append.mp hj with h | h
            · have hjx : j ≠ x := fun he => hx (he ▸ hju)
              obtain ⟨h1, h2⟩ := ihB j h hju
              exact ⟨by rw [upd_ne _ _ _ _ hjx, h1], by rw [upd_ne _ _ _ _ hjx, h2]⟩
            · rw [List.mem_singleton.mp h] at hju
              exact absurd hju hx
          · intro j hj hju
            rcases List.mem_append.mp hj with h | h
            · have hjx : j ≠ x := hlx.2 ∘ (· ▸ h)
              obtain ⟨h1, h2⟩ := ihC j h hju
              exact ⟨by rw [upd_ne _ _ _ _ hjx, h1], by rw [upd_ne _ _ _ _ hjx, h2]⟩
            · rw [List.mem_singleton.mp h]
              rw [upd_same, upd_same]
              exact ⟨by rw [if_pos himp], by rw [if_pos himp]⟩
          · intro j hj hju
            rw [upd_same] at hsel
            rcases List.mem_append.mp hj with h | h
            · have hjx : j ≠ x := hlx.2 ∘ (· ▸ h)
              rw [upd_same, upd_ne _ _ _ _ hjx]
              calc toT (Option.some (slack cost uf vf i0 x))
                  ≤ toT res.2.2.1 := le_of_lt ((ltInfInf_iff _ _).mp hsel)
                _ ≤ toT (res.1 j) := ihD j h hju
            · rw [List.mem_singleton.mp h, upd_same]
          · exact Or.inr ⟨List.mem_append_right _ (List.mem_singleton_self x), hxf, rfl⟩
        · rw [if_neg hsel]
          dsimp only
          rw [upd_same] at hsel
          have hge : toT res.2.2.1 ≤ toT (Option.some (slack cost uf vf i0 x)) :=
            le_of_not_lt (fun h => hsel ((ltInfInf_iff _ _).mpr h))
          refine ⟨?_, ?_, ?_, ?_, ?_⟩
          · intro j hj
            have hjl : j ∉ l := fun h => hj (List.mem_append_left _ h)
            have hjx : j ≠ x := fun h => hj (by
              rw [h]
              exact List.mem_append_right _ (List.mem_singleton_self x))
            obtain ⟨h1, h2⟩ := ihA j hjl
            exact ⟨by rw [upd_ne _ _ _ _ hjx, h1], by rw [upd_ne _ _ _ _ hjx, h2]⟩
          · intro j hj hju
            rcases List.mem_append.mp hj with h | h
            · have hjx : j ≠ x := fun he => hx (he ▸ hju)
              obtain ⟨h1, h2⟩ := ihB j h hju
              exact ⟨by rw [upd_ne _ _ _ _ hjx, h1], by rw [upd_ne _ _ _ _ hjx, h2]⟩
            · rw [List.mem_singleton.mp h] at hju
              exact absurd hju hx
          · intro j hj hju
            rcases List.mem_append.mp hj with h | h
            · have hjx : j ≠ x := hlx.2 ∘ (· ▸ h)
              obtain ⟨h1, h2⟩ := ihC j h hju
              exact ⟨by rw [upd_ne _ _ _ _ hjx, h1], by rw [upd_ne _ _ _ _ hjx, h2]⟩
            · rw [List.mem_singleton.mp h]
              rw [upd_same, upd_same]
              exact ⟨by rw [if_pos himp], by rw [if_pos himp]⟩
          · intro j hj hju
            rcases List.mem_append.mp hj with h | h
            · have hjx : j ≠ x := hlx.2 ∘ (· ▸ h)
              rw [upd_ne _ _ _ _ hjx]
              exact ihD j h hju
            · rw [List.mem_singleton.mp h, upd_same]
              exact hge
          · rcases ihE with h | ⟨h1, h2, h3⟩
            · rw [h] at hge
              rw [h]
              have : toT (Option.some (slack cost uf vf i0 x)) = ⊤ :=
                top_le_iff.mp (by rw [← toT_none]; exact hge)
              cases this
            · refine Or.inr ⟨List.mem_append_left _ h1, h2, ?_⟩
              have hjx : res.2.2.2 ≠ x := hlx.2 ∘ (· ▸ h1)
              rw [upd_ne _ _ _ _ hjx]
              exact h3
      · rw [if_neg himp]
        simp only [himp, if_false]
        by_cases hsel : ltInfInf (res.1 x) res.2.2.1 = true
        · rw [if_pos hsel]
          dsimp only
          refine ⟨?_, ?_, ?_, ?_, ?_⟩
          · intro j hj
            exact ihA j (fun h => hj (List.mem_append_left _ h))
          · intro j hj hju
            rcases List.mem_append.mp hj with h | h
            · exact ihB j h hju
            · rw [List.mem_singleton.mp h] at hju
              exact absurd hju hx
          · intro j hj hju
            rcases List.mem_append.mp hj with h | h
            · exact ihC j h hju
            · rw [List.mem_singleton.mp h]
              refine ⟨?_, ?_⟩
              · rw [if_neg himp]
                exact mvx
              · rw [if_neg himp]
                exact wyx
          · intro j hj hju
            rcases List.mem_append.mp hj with h | h
            · calc toT (res.1 x) ≤ toT res.2.2.1 :=
                    le_of_lt ((ltInfInf_iff _ _).mp hsel)
                _ ≤ toT (res.1 j) := ihD j h hju
            · rw [List.mem_singleton.mp h]
          · exact Or.inr ⟨List.mem_append_right _ (List.mem_singleton_self x), hxf, rfl⟩
        · rw [if_neg hsel]
          dsimp only
          have hge : toT res.2.2.1 ≤ toT (res.1 x) :=
            le_of_not_lt (fun h => hsel ((ltInfInf_iff _ _).mpr h))
          refine ⟨?_, ?_, ?_, ?_, ?_⟩
          · intro j hj
            exact ihA j (fun h => hj (List.mem_append_left _ h))
          · intro j hj hju
            rcases List.mem_append.mp hj with h | h
            · exact ihB j h hju
            · rw [List.mem_singleton.mp h] at hju
              exact absurd hju hx
          · intro j hj hju
            rcases List.mem_append.mp hj with h | h
            · exact ihC j h hju
            · rw [List.mem_singleton.mp h]
              refine ⟨?_, ?_⟩
              · rw [if_neg himp]
                exact mvx
              · rw [if_neg himp]
                exact wyx
          · intro j hj hju
            rcases List.mem_append.mp hj with h | h
            · exact ihD j h hju
            · rw [List.mem_singleton.mp h]
              exact hge
          · rcases ihE with h | ⟨h1, h2, h3⟩
            · rw [h] at hge
              have hxv : res.1 x = minv0 x := mvx
              have : toT (res.1 x) = ⊤ := top_le_iff.mp (by rw [← toT_none]; exact hge)
              rw [hxv] at this
              have hm0 : minv0 x = Option.none := by
                cases hmm : minv0 x
                · rfl
                · rw [hmm] at this
                  cases this
              rw [hm0] at himp
              exact absurd rfl himp
            · exact Or.inr ⟨List.mem_append_left _ h1, h2, h3⟩

/-! ### Helper lemmas -/

/-- A left fold whose step fixes every element of the list is the
identity on the accumulator. -/
theorem foldl_fixed {α β : Type} (f : α → β → α) (l : List β) (acc : α)
    (h : ∀ a b, b ∈ l → f a b = a) : l.foldl f acc = acc := by
  induction l generalizing acc with
  | nil => rfl
  | cons x xs ih =>
    rw [List.foldl_cons, h acc x (by simp)]
    exact ih acc (fun a b hb => h a b (List.mem_cons_of_mem x hb))

/-- With an empty prediction list, `_optimal_event_matches` marks every
gold event unmatched with similarity 0. -/
theorem optimal_event_matches_no_preds (simf : PyDict → PyDict → ℚ)
    (g : PyDict) (gs : List PyDict) :
    optimal_event_matches simf (g :: gs) [] =
      (List.range (g :: gs).length).map (fun i => (i, Option.none, (0 : ℚ))) := by
  unfold optimal_event_matches
  have hsize : max (g :: gs).length ([] : List PyDict).length ≠ 0 := by simp
  simp only [List.length_nil, hsize, if_neg hsize]
  refine List.map_congr_left (fun i _ => ?_)
  have hcond : ∀ j : ℤ, (decide (j < 0) || decide ((0 : ℤ) ≤ j)) = true := by
    intro j
    rcases lt_or_le j 0 with h | h <;> simp [h]
  simp [hcond]

/-- A left fold that ignores both arguments returns its accumulator. -/
theorem foldl_id {α β : Type} (l : List β) (acc : α) :
    l.foldl (fun a _ => a) acc = acc := by
  induction l with
  | nil => rfl
  | cons x xs ih => exact ih

/-- With an empty prediction list and non-empty gold list, `_match_events`
returns all-zero aggregates. -/
theorem match_events_no_preds (simf : PyDict → PyDict → ℚ) (g : PyDict) (gs : List PyDict) :
    match_events simf (g :: gs) [] = (0, 0, 0) := by
  simp [match_events, optimal_event_matches_no_preds, List.foldl_map, foldl_id]

/-! ### Claim theorems (easy group) -/

/-- C10: for all event lists, `_event_count_score` equals
`1 − |n−m| / max(n,m,1)` clamped to `[0,1]`, always lies in `[0,1]`, and
equals 1 exactly when the two lists have the same length. -/
theorem c10_event_count_score (gold pred : List PyDict) :
    event_count_score gold pred =
      max 0 (min (1 - |(gold.length : ℚ) - (pred.length : ℚ)| /
        max (gold.length : ℚ) (max (pred.length : ℚ) 1)) 1)
    ∧ 0 ≤ event_count_score gold pred
    ∧ event_count_score gold pred ≤ 1
    ∧ (event_count_score gold pred = 1 ↔ gold.length = pred.length) := by
  set n := gold.length with hn
  set m := pred.length with hm
  have hden : (0 : ℚ) < max (n : ℚ) (max (m : ℚ) 1) :=
    lt_of_lt_of_le one_pos (le_max_of_le_right (le_max_right _ _))
  have habs : (0 : ℚ) ≤ |(n : ℚ) - (m : ℚ)| := abs_nonneg _
  have hfrac : (0 : ℚ) ≤ |(n : ℚ) - (m : ℚ)| / max (n : ℚ) (max (m : ℚ) 1) :=
    div_nonneg habs (le_of_lt hden)
  have hle1 : 1 - |(n : ℚ) - (m : ℚ)| / max (n : ℚ) (max (m : ℚ) 1) ≤ 1 := by linarith
  have hmin : min (1 - |(n : ℚ) - (m : ℚ)| / max (n : ℚ) (max (m : ℚ) 1)) 1 =
      1 - |(n : ℚ) - (m : ℚ)| / max (n : ℚ) (max (m : ℚ) 1) := min_eq_left hle1
  have hval : event_count_score gold pred =
      max 0 (1 - |(n : ℚ) - (m : ℚ)| / max (n : ℚ) (max (m : ℚ) 1)) := by
    unfold event_count_score
    by_cases h0 : n = 0 ∧ m = 0
    · obtain ⟨h1, h2⟩ := h0
      rw [← hn, ← hm, h1, h2]
      norm_num
    · have : ¬ (n = 0 && m = 0) = true := by
        simp only [Bool.and_eq_true, decide_eq_true_eq]
        exact fun h => h0 ⟨by simpa using h.1, by simpa using h.2⟩
      rw [← hn, ← hm, if_neg this]
  refine ⟨by rw [hval, hmin], by rw [hval]; exact le_max_left _ _, ?_, ?_⟩
  · rw [hval]
    exact max_le (by norm_num) hle1
  · rw [hval]
    constructor
    · intro h
      have h1 : 1 - |(n : ℚ) - (m : ℚ)| / max (n : ℚ) (max (m : ℚ) 1) = 1 := by
        rcases max_choice (0 : ℚ) (1 - |(n : ℚ) - (m : ℚ)| / max (n : ℚ) (max (m : ℚ) 1))
          with hc | hc
        · rw [hc] at h; norm_num at h
        · rw [hc] at h; exact h
      have h2 : |(n : ℚ) - (m : ℚ)| / max (n : ℚ) (max (m : ℚ) 1) = 0 := by linarith
      have h3 : |(n : ℚ) - (m : ℚ)| = 0 := by
        by_contra hne
        exact hne (by
          have := (div_eq_zero_iff.mp h2)
          rcases this with h | h
          · exact h
          · exact absurd h (ne_of_gt hden))
      have h4 : (n : ℚ) = (m : ℚ) := by
        have := abs_eq_zero.mp h3
        linarith
      exact_mod_cast h4
    · intro h
      rw [h]
      simp

/-- C2: `_app_quality_score` equals the weighted sum scaled to 100 minus
the missing-field penalty, clamped once to `[0,100]` at the end, so it
always lies in `[0,100]`; the core overall of `command_report` is the same
function applied to `core_event_match_score`. -/
theorem c2_app_quality_score (s t em ec mfr : ℚ) :
    app_quality_score s t em ec mfr =
      max 0 (min 100 (100 * (0.4 * s + 0.15 * t + 0.35 * em + 0.1 * ec) - 10 * mfr))
    ∧ 0 ≤ app_quality_score s t em ec mfr
    ∧ app_quality_score s t em ec mfr ≤ 100
    ∧ ∀ gold pred : PyVal, (poster_scores gold pred).2 =
        app_quality_score
          (structured_score (match pred with | PyVal.pydict _ => true | _ => false)
            (if (match pred with | PyVal.pydict _ => true | _ => false) then
              schema_valid pred true else false))
          (score_top_level gold pred)
          ((match_events event_similarity_core (event_list gold) (event_list pred)).1)
          (event_count_score (event_list gold) (event_list pred))
          (missing_field_rate (event_list pred) (event_list gold).length) := by
  refine ⟨?_, ?_, ?_, ?_⟩
  · have h1 : 100 * (0.4 * s + 0.15 * t + 0.35 * em + 0.1 * ec) - 10 * mfr =
        (0.4 * s + 0.15 * t + 0.35 * em + 0.1 * ec) * 100 - 10 * mfr := by ring
    rw [h1, min_comm]
    rfl
  · exact le_max_left _ _
  · exact max_le (by norm_num) (min_le_right _ _)
  · intro gold pred
    rfl

/-- C4 (code bug): `_normalize_text` was meant to collapse whitespace but
its substitution pattern is written `r"\\s+"`, which replaces runs of a
literal backslash-`s`, not whitespace; hence `"a  b"` is unchanged by
normalization and `_string_score("a b", "a  b")` is the sequence ratio
6/7 rather than the 1.0 the specification requires for strings differing
only in whitespace runs. -/
theorem c4_whitespace_not_collapsed :
    normalize_text (pstr "a  b") = "a  b".data
    ∧ normalize_text (pstr "a\\ssb") = "a b".data
    ∧ string_score (pstr "a b") (pstr "a  b") = 6 / 7
    ∧ (6 / 7 : ℚ) ≠ 1 := by
  refine ⟨by decide, by decide, ?_, by norm_num⟩
  unfold string_score
  rw [show normalize_text (pstr "a b") = "a b".data from by decide,
      show normalize_text (pstr "a  b") = "a  b".data from by decide]
  rw [if_neg (by decide), if_neg (by decide), if_neg (by decide)]
  unfold ratioOf
  rw [if_neg (by decide)]
  rw [show matchTotal "a b".data "a  b".data = 3 from by decide]
  norm_num [show "a b".data.length = 3 from by decide,
    show "a  b".data.length = 4 from by decide]

/-- C5 (counterexample): `_string_score` is not symmetric.
`difflib.SequenceMatcher`'s recursive longest-matching-block heuristic is
order dependent: for `"aba"` against `"babba"` it finds blocks totalling
3 in one direction and 2 in the other. -/
theorem c5_counterexample :
    string_score (pstr "aba") (pstr "babba") = 3 / 4
    ∧ string_score (pstr "babba") (pstr "aba") = 1 / 2
    ∧ string_score (pstr "aba") (pstr "babba") ≠ string_score (pstr "babba") (pstr "aba") := by
  have h1 : string_score (pstr "aba") (pstr "babba") = 3 / 4 := by
    unfold string_score
    rw [show normalize_text (pstr "aba") = "aba".data from by decide,
        show normalize_text (pstr "babba") = "babba".data from by decide]
    rw [if_neg (by decide), if_neg (by decide), if_neg (by decide)]
    unfold ratioOf
    rw [if_neg (by decide)]
    rw [show matchTotal "aba".data "babba".data = 3 from by decide]
    norm_num [show "aba".data.length = 3 from by decide,
      show "babba".data.length = 5 from by decide]
  have h2 : string_score (pstr "babba") (pstr "aba") = 1 / 2 := by
    unfold string_score
    rw [show normalize_text (pstr "babba") = "babba".data from by decide,
        show normalize_text (pstr "aba") = "aba".data from by decide]
    rw [if_neg (by decide), if_neg (by decide), if_neg (by decide)]
    unfold ratioOf
    rw [if_neg (by decide)]
    rw [show matchTotal "babba".data "aba".data = 2 from by decide]
    norm_num [show "babba".data.length = 5 from by decide,
      show "aba".data.length = 3 from by decide]
  refine ⟨h1, h2, ?_⟩
  rw [h1, h2]
  norm_num

/-- C5 (amended): `_string_score` is symmetric whenever the two normalized
strings are equal or at least one of them is empty (the 1.0/0.0 paths);
the general sequence-ratio path is not symmetric. -/
theorem c5_symmetry_on_decided_paths (a b : PyVal)
    (h : normalize_text a = normalize_text b
      ∨ normalize_text a = [] ∨ normalize_text b = []) :
    string_score a b = string_score b a := by
  have key : ∀ x y : PyVal, normalize_text x = [] → string_score x y = string_score y x := by
    intro x y hx
    unfold string_score
    by_cases hy : (normalize_text y).isEmpty
    · simp [hx, hy]
    · simp [hx, hy]
  rcases h with h | h | h
  · unfold string_score
    rw [h]
  · exact key a b h
  · exact (key b a h).symm

/-- C5 witness: symmetry on a case-fold pair via the amended theorem. -/
theorem c5_symmetry_witness :
    string_score (pstr "HELLO") (pstr "hello") = string_score (pstr "hello") (pstr "HELLO") :=
  c5_symmetry_on_decided_paths (pstr "HELLO") (pstr "hello") (Or.inl (by decide))

/-- C8: the event matcher's edge cases: both lists empty gives the empty
match list and all-1.0 aggregates; empty gold with non-empty predictions
gives all-zero aggregates; non-empty gold with no predictions leaves every
gold event unmatched at similarity 0, so the aggregates are 0. -/
theorem c8_event_matcher_edge_cases (simf : PyDict → PyDict → ℚ)
    (e : PyDict) (es : List PyDict) :
    optimal_event_matches simf ([] : List PyDict) [] = []
    ∧ match_events simf ([] : List PyDict) [] = (1, 1, 1)
    ∧ match_events simf ([] : List PyDict) (e :: es) = (0, 0, 0)
    ∧ optimal_event_matches simf (e :: es) [] =
        (List.range (e :: es).length).map (fun i => (i, Option.none, (0 : ℚ)))
    ∧ match_events simf (e :: es) [] = (0, 0, 0) := by
  exact ⟨rfl, rfl, rfl, optimal_event_matches_no_preds simf e es,
    match_events_no_preds simf e es⟩

/-! ### C3 and C7: concrete records -/

/-- C3 (counterexample): a strict-valid record scored against itself can
have a positive missing-field rate: strict validity permits null venue,
city and province, and `_missing_field_rate` counts those as missing, so
`selfRecord` gets rate 3/4 ≠ 0 against itself. -/
theorem c3_counterexample :
    schema_valid selfRecord true = true
    ∧ missing_field_rate (event_list selfRecord) (event_list selfRecord).length = 3 / 4
    ∧ (3 / 4 : ℚ) ≠ 0 := by
  refine ⟨by decide, ?_, by norm_num⟩
  have hev : event_list selfRecord = [selfEvent] := rfl
  rw [hev]
  have h34 : missing_field_rate [selfEvent] 1 = ((3 : ℕ) : ℚ) / ((4 : ℕ) : ℚ) := rfl
  rw [show [selfEvent].length = 1 from rfl, h34]
  norm_num

/-- C7 (counterexample): a malformed prediction that is still a dict
(wrong-typed `artist_name`) fails strict validation but gets
`structured_score = 0.3` — the parseable-object credit — not the 0 the
claim asserts for every malformed input. -/
theorem c7_counterexample :
    schema_valid (PyVal.pydict badPred) true = false
    ∧ structured_score true (schema_valid (PyVal.pydict badPred) true) = 3 / 10
    ∧ (3 / 10 : ℚ) ≠ 0 := by
  refine ⟨by decide, ?_, by norm_num⟩
  rw [show schema_valid (PyVal.pydict badPred) true = false from by decide]
  simp only [structured_score, Bool.false_eq_true, if_false, if_true]
  norm_num

/-- C7 (amended): scoring never raises on malformed input: the schema
validator is a total Boolean function of an arbitrary value in both modes;
a non-object prediction yields `structured_score = 0`, a zero top-level
score, an empty event list and zero event aggregates against non-empty
gold; an object failing strict validation instead yields
`structured_score = 0.3` (the parseable-object credit), not 0. -/
theorem c7_graceful_degradation (pred gold : PyVal) (g : PyDict) (gs : List PyDict)
    (d : PyDict) (hnd : ∀ es : PyDict, pred ≠ PyVal.pydict es)
    (hd : schema_valid (PyVal.pydict d) true = false) :
    (∀ v : PyVal, ∀ strict : Bool,
      schema_valid v strict = true ∨ schema_valid v strict = false)
    ∧ structured_score (match pred with | PyVal.pydict _ => true | _ => false)
        (if (match pred with | PyVal.pydict _ => true | _ => false) then
          schema_valid pred true else false) = 0
    ∧ score_top_level gold pred = 0
    ∧ event_list pred = []
    ∧ match_events event_similarity (g :: gs) (event_list pred) = (0, 0, 0)
    ∧ structured_score true (schema_valid (PyVal.pydict d) true) = 3 / 10 := by
  have hm : (match pred with | PyVal.pydict _ => true | _ => false) = false := by
    cases pred
    case pydict es => exact absurd rfl (hnd es)
    all_goals rfl
  have hev : event_list pred = [] := by
    cases pred
    case pydict es => exact absurd rfl (hnd es)
    all_goals rfl
  refine ⟨?_, ?_, ?_, hev, ?_, ?_⟩
  · intro v strict
    cases h : schema_valid v strict
    · exact Or.inr rfl
    · exact Or.inl rfl
  · rw [hm]
    simp only [structured_score, Bool.false_eq_true, if_false]
    norm_num
  · cases gold <;> cases pred <;> first | rfl | exact absurd rfl (hnd _)
  · rw [hev]
    exact match_events_no_preds event_similarity g gs
  · rw [hd]
    simp only [structured_score, Bool.false_eq_true, if_false, if_true]
    norm_num

/-- C7 witness: the amended degradation theorem applied to the concrete
non-object prediction `[]` and to `badPred`. -/
theorem c7_graceful_degradation_witness :
    structured_score
        (match PyVal.pylist [] with | PyVal.pydict _ => true | _ => false)
        (if (match PyVal.pylist [] with | PyVal.pydict _ => true | _ => false) then
          schema_valid (PyVal.pylist []) true else false) = 0
    ∧ structured_score true (schema_valid (PyVal.pydict badPred) true) = 3 / 10 :=
  ⟨(c7_graceful_degradation (PyVal.pylist []) PyVal.pynone [] [] badPred
      (fun es h => PyVal.noConfusion h) (by decide)).2.1,
   (c7_graceful_degradation (PyVal.pylist []) PyVal.pynone [] [] badPred
      (fun es h => PyVal.noConfusion h) (by decide)).2.2.2.2.2⟩

/-! ### C9 and C6: bootstrap statistics -/

/-- Every rational is either `≤ 0` or `> 0`, so the two sign counts of a
list sum to its length. -/
theorem countP_sign_split (l : List ℚ) :
    l.countP (fun d => decide (d ≤ 0)) + l.countP (fun d => decide (0 < d)) = l.length := by
  induction l with
  | nil => rfl
  | cons x xs ih =>
    rcases le_or_lt x 0 with h | h
    · have h2 : ¬ (0 : ℚ) < x := not_lt.mpr h
      simp [List.countP_cons, h, h2]
      omega
    · have h2 : ¬ x ≤ (0 : ℚ) := not_le.mpr h
      simp [List.countP_cons, h, h2]
      omega

/-- C9: `_bootstrap_ci` returns the explicit no-result value exactly on an
empty score list, `_bootstrap_diff_stats` exactly when either list is
empty; on non-empty input both return a real result, and neither ever
reaches an error. -/
theorem c9_bootstrap_empty_contract (draws : Draws) (v w : ℚ) (vs ws : List ℚ) :
    bootstrap_ci draws [] = Except.ok Option.none
    ∧ (∃ ci, bootstrap_ci draws (v :: vs) = Except.ok (Option.some ci))
    ∧ (∀ xs, bootstrap_diff_stats draws [] xs = Except.ok Option.none)
    ∧ (∀ xs, bootstrap_diff_stats draws xs [] = Except.ok Option.none)
    ∧ (∃ st, bootstrap_diff_stats draws (v :: vs) (w :: ws) = Except.ok (Option.some st)) := by
  refine ⟨rfl, ?_, fun xs => rfl, ?_, ?_⟩
  · unfold bootstrap_ci
    simp only [List.isEmpty_cons, Bool.false_eq_true, if_false]
    split
    · exact ⟨_, rfl⟩
    · rename_i h
      exact absurd (by constructor <;> simp <;> decide) h
  · intro xs
    simp [bootstrap_diff_stats]
  · unfold bootstrap_diff_stats
    simp only [List.isEmpty_cons, Bool.false_or, Bool.or_self, Bool.false_eq_true, if_false]
    split
    · exact ⟨_, rfl⟩
    · rename_i h
      exact absurd (by constructor <;> simp <;> decide) h

/-- On a 1000-element list the "positive tail" `SAMPLES − count(≤ 0)` is
the count of strictly positive entries. -/
theorem tail_count_cast (l : List ℚ) (hl : l.length = bootstrapSamples) :
    ((bootstrapSamples - l.countP (fun d => decide (d ≤ 0)) : ℕ) : ℚ) / (bootstrapSamples : ℚ)
      = (l.countP (fun d => decide (0 < d)) : ℚ) / (bootstrapSamples : ℚ) := by
  have h := countP_sign_split l
  rw [hl] at h
  have : bootstrapSamples - l.countP (fun d => decide (d ≤ 0))
      = l.countP (fun d => decide (0 < d)) := by omega
  rw [this]

/-- The doubled smaller tail fraction lies in `[0, 1]`. -/
theorem p_value_bounds (l : List ℚ) (hl : l.length = bootstrapSamples) :
    0 ≤ (2 : ℚ) * min ((l.countP (fun d => decide (d ≤ 0)) : ℚ) / (bootstrapSamples : ℚ))
        (((bootstrapSamples - l.countP (fun d => decide (d ≤ 0)) : ℕ) : ℚ) / (bootstrapSamples : ℚ))
    ∧ (2 : ℚ) * min ((l.countP (fun d => decide (d ≤ 0)) : ℚ) / (bootstrapSamples : ℚ))
        (((bootstrapSamples - l.countP (fun d => decide (d ≤ 0)) : ℕ) : ℚ) / (bootstrapSamples : ℚ)) ≤ 1 := by
  have hle : l.countP (fun d => decide (d ≤ 0)) ≤ bootstrapSamples := by
    rw [← hl]
    exact List.countP_le_length _
  set neg := l.countP (fun d => decide (d ≤ 0)) with hneg
  have hcast : ((bootstrapSamples - neg : ℕ) : ℚ) = (bootstrapSamples : ℚ) - (neg : ℚ) := by
    push_cast [Nat.cast_sub hle]
    ring
  have hx : (0 : ℚ) ≤ (neg : ℚ) / (bootstrapSamples : ℚ) := by positivity
  have hy : (0 : ℚ) ≤ ((bootstrapSamples - neg : ℕ) : ℚ) / (bootstrapSamples : ℚ) := by positivity
  have hsum : (neg : ℚ) / (bootstrapSamples : ℚ)
      + ((bootstrapSamples - neg : ℕ) : ℚ) / (bootstrapSamples : ℚ) = 1 := by
    rw [hcast]
    have : (bootstrapSamples : ℚ) ≠ 0 := by norm_num
    field_simp
  constructor
  · have hmin := le_min hx hy
    linarith
  · have h1 := min_le_left ((neg : ℚ) / (bootstrapSamples : ℚ))
      (((bootstrapSamples - neg : ℕ) : ℚ) / (bootstrapSamples : ℚ))
    have h2 := min_le_right ((neg : ℚ) / (bootstrapSamples : ℚ))
      (((bootstrapSamples - neg : ℕ) : ℚ) / (bootstrapSamples : ℚ))
    linarith

/-- `significant` holds exactly when the CI excludes zero. -/
theorem significant_iff_ci_excludes_zero (st : DiffStats) :
    significant st = true ↔ 0 < st.ci_low ∨ st.ci_high < 0 := by
  unfold significant
  rcases le_or_lt st.ci_low 0 with h1 | h1 <;> rcases le_or_lt 0 st.ci_high with h2 | h2 <;>
    simp [h1, h2, not_le.mpr, not_lt.mpr, le_of_lt]

/-- C6: for non-empty score lists `_bootstrap_diff_stats` returns a result
whose `diff_mean` is the raw (non-resampled) difference of means, whose
`p_value` doubles the smaller tail fraction of the 1000 resampled
differences and therefore lies in `[0,1]`, and which `command_report`
flags significant exactly when the bootstrap CI excludes zero. -/
theorem c6_bootstrap_diff_contract (draws : Draws) (v w : ℚ) (vs ws : List ℚ) :
    ∃ st, bootstrap_diff_stats draws (v :: vs) (w :: ws) = Except.ok (Option.some st)
      ∧ st.diff_mean = (v :: vs).sum / ((v :: vs).length : ℚ)
          - (w :: ws).sum / ((w :: ws).length : ℚ)
      ∧ (∃ diffs : List ℚ,
          st.p_value = 2 * min
            ((diffs.countP (fun d => decide (d ≤ 0)) : ℚ) / (bootstrapSamples : ℚ))
            ((diffs.countP (fun d => decide (0 < d)) : ℚ) / (bootstrapSamples : ℚ))
          ∧ diffs.length = bootstrapSamples)
      ∧ 0 ≤ st.p_value ∧ st.p_value ≤ 1
      ∧ (significant st = true ↔ 0 < st.ci_low ∨ st.ci_high < 0) := by
  unfold bootstrap_diff_stats
  simp only [List.isEmpty_cons, Bool.or_self, Bool.false_eq_true, if_false]
  split
  · exact ⟨_, rfl, rfl,
      ⟨_, by rw [tail_count_cast _ (by simp)], by simp⟩,
      (p_value_bounds _ (by simp)).1, (p_value_bounds _ (by simp)).2,
      significant_iff_ci_excludes_zero _⟩
  · rename_i h
    exact absurd (by constructor <;> simp <;> decide) h

set_option maxHeartbeats 1000000

/-- One iteration of the phase loop preserves the invariant, pushes the
current column onto the used list, and leaves the new current column
unused, in range, with `minv` zero. -/
theorem phase_iter (cost : ℕ → ℕ → ℚ) (size : ℕ) (pf : ℕ → ℕ)
    (hpf_rows : ∀ j, j ≤ size → pf j ≠ 0 → 1 ≤ pf j ∧ pf j ≤ size)
    (hpf0 : pf 0 ≠ 0)
    (hpf_inj : ∀ j, j ≤ size → ∀ j', j' ≤ size → pf j ≠ 0 → pf j = pf j' → j = j')
    (hfree : ∃ jf, 1 ≤ jf ∧ jf ≤ size ∧ pf jf = 0)
    (st : PhaseState) (ul : List ℕ)
    (hinv : PhaseInv cost size pf st ul)
    (hj0u : st.used st.j0 = false) (hj0le : st.j0 ≤ size)
    (hj0m : st.j0 = 0 ∨ pf st.j0 ≠ 0)
    (hj0t : st.j0 ≠ 0 → st.minv st.j0 = Option.some 0) :
    ∃ d : ℚ,
      (hungScanFold cost (st.p st.j0) st.j0 st.u st.v (upd st.used st.j0 true)
        st.minv st.way (List.range' 1 size)).2.2.1 = Option.some d
      ∧ PhaseInv cost size pf (phaseIterState cost size st) (st.j0 :: ul)
      ∧ (phaseIterState cost size st).used (phaseIterState cost size st).j0 = false
      ∧ 1 ≤ (phaseIterState cost size st).j0
      ∧ (phaseIterState cost size st).j0 ≤ size
      ∧ (phaseIterState cost size st).minv (phaseIterState cost size st).j0
          = Option.some 0 := by
  obtain ⟨hp, hnd, hui, hulr, hulm, hfeas, hmt, hmub, hmway, htight⟩ := hinv
  -- the scan and its characterisation
  set U1 : ℕ → Bool := upd st.used st.j0 true with hU1
  set S := hungScanFold cost (st.p st.j0) st.j0 st.u st.v U1 st.minv st.way
      (List.range' 1 size) with hS
  have hrange_mem : ∀ j : ℕ, j ∈ List.range' 1 size ↔ 1 ≤ j ∧ j ≤ size := by
    intro j
    rw [List.mem_range']
    constructor
    · rintro ⟨i, hi, rfl⟩
      omega
    · rintro ⟨h1, h2⟩
      exact ⟨j - 1, by omega, by omega⟩
  obtain ⟨scanA, scanB, scanC, scanD, scanE⟩ :=
    hungScan_fold_spec cost (st.p st.j0) st.j0 st.u st.v U1 st.minv st.way
      (List.range' 1 size) (List.nodup_range' 1 size)
  -- used columns of U1
  have hU1_iff : ∀ j, U1 j = true ↔ j ∈ st.j0 :: ul := by
    intro j
    by_cases hjj : j = st.j0
    · subst hjj
      simp [hU1, upd_same]
    · rw [hU1, upd_ne _ _ _ _ hjj, hui]
      simp [hjj]
  have hU1_false : ∀ j, U1 j = false ↔ (j ≠ st.j0 ∧ st.used j = false) := by
    intro j
    by_cases hjj : j = st.j0
    · subst hjj
      simp [hU1, upd_same]
    · rw [hU1, upd_ne _ _ _ _ hjj]
      simp [hjj]
  -- row of the newly marked column is in range
  have hrow_j0 : 1 ≤ pf st.j0 ∧ pf st.j0 ≤ size := by
    rcases hj0m with h | h
    · rw [h]
      exact hpf_rows 0 (by omega) hpf0
    · exact hpf_rows st.j0 hj0le h
  -- rows of used columns are in range
  have hrow_ul : ∀ ju ∈ ul, 1 ≤ pf ju ∧ pf ju ≤ size := by
    intro ju hju
    by_cases hj : ju = 0
    · subst hj
      exact hpf_rows 0 (by omega) hpf0
    · exact hpf_rows ju (hulr ju hju) (hulm ju hju hj)
  -- a finite pre-scan minv on an unused column is a nonnegative tree slack
  have hminv_nonneg : ∀ j, 1 ≤ j → j ≤ size → st.used j = false →
      ∀ x : ℚ, st.minv j = Option.some x → 0 ≤ x := by
    intro j h1 h2 h3 x hx
    obtain ⟨hwmem, hweq⟩ := hmway j h1 h2 h3 (by rw [hx]; exact fun h => Option.noConfusion h)
    rw [hx] at hweq
    obtain ⟨hr1, hr2⟩ := hrow_ul (st.way j) hwmem
    have := hfeas (pf (st.way j)) hr1 hr2 j h1 h2
    have hxe : x = slack cost st.u st.v (pf (st.way j)) j := by
      exact Option.some.inj hweq
    rw [hxe]
    unfold slack
    linarith
  -- the slack of the new tree row is nonnegative
  have hslack_j0 : ∀ j, 1 ≤ j → j ≤ size →
      0 ≤ slack cost st.u st.v (st.p st.j0) j := by
    intro j h1 h2
    rw [hp]
    have := hfeas (pf st.j0) hrow_j0.1 hrow_j0.2 j h1 h2
    unfold slack
    linarith
  -- post-scan minv on an unused column is finite
  have hSM_some : ∀ j, 1 ≤ j → j ≤ size → U1 j = false → ∃ x, S.1 j = Option.some x := by
    intro j h1 h2 h3
    obtain ⟨hc1, _hc2⟩ := scanC j ((hrange_mem j).mpr ⟨h1, h2⟩) h3
    by_cases himp : ltInf (slack cost st.u st.v (st.p st.j0) j) (st.minv j) = true
    · rw [if_pos himp] at hc1
      exact ⟨_, hc1⟩
    · rw [if_neg himp] at hc1
      cases hm : st.minv j
      · rw [hm] at himp
        exact absurd rfl himp
      · rw [hm] at hc1
        exact ⟨_, hc1⟩
  -- post-scan minv is bounded by every tree slack (old and new row)
  have hSM_ub : ∀ j, 1 ≤ j → j ≤ size → U1 j = false →
      (toT (S.1 j) ≤ ((slack cost st.u st.v (st.p st.j0) j : ℚ) : WithTop ℚ))
      ∧ ∀ ju ∈ ul, toT (S.1 j) ≤ ((slack cost st.u st.v (pf ju) j : ℚ) : WithTop ℚ) := by
    intro j h1 h2 h3
    obtain ⟨hc1, _hc2⟩ := scanC j ((hrange_mem j).mpr ⟨h1, h2⟩) h3
    have husd : st.used j = false := ((hU1_false j).mp h3).2
    by_cases himp : ltInf (slack cost st.u st.v (st.p st.j0) j) (st.minv j) = true
    · rw [if_pos himp] at hc1
      constructor
      · rw [hc1, toT_some]
      · intro ju hju
        rw [hc1, toT_some]
        have hlt := (ltInf_iff _ _).mp himp
        have := hmub j h1 h2 husd ju hju
        exact le_trans (le_of_lt hlt) this
    · rw [if_neg himp] at hc1
      have hge : ¬ ((slack cost st.u st.v (st.p st.j0) j : ℚ) : WithTop ℚ) < toT (st.minv j) :=
        fun h => himp ((ltInf_iff _ _).mpr h)
      constructor
      · rw [hc1]
        exact le_of_not_lt hge
      · intro ju hju
        rw [hc1]
        exact hmub j h1 h2 husd ju hju
  -- membership facts about the new used list
  have hpf_ul1 : ∀ jj ∈ st.j0 :: ul, pf jj ≠ 0 := by
    intro jj hjj
    by_cases h0 : jj = 0
    · rw [h0]
      exact hpf0
    · rcases List.mem_cons.mp hjj with rfl | hmem
      · rcases hj0m with h | h
        · exact absurd h h0
        · exact h
      · exact hulm jj hmem h0
  have hle_ul1 : ∀ jj ∈ st.j0 :: ul, jj ≤ size := by
    intro jj hjj
    rcases List.mem_cons.mp hjj with rfl | hmem
    · exact hj0le
    · exact hulr jj hmem
  have hrow_ul1 : ∀ jj ∈ st.j0 :: ul, 1 ≤ pf jj ∧ pf jj ≤ size := by
    intro jj hjj
    exact hpf_rows jj (hle_ul1 jj hjj) (hpf_ul1 jj hjj)
  -- delta is finite: the free column keeps a finite minv
  obtain ⟨jf, hjf1, hjf2, hjff⟩ := hfree
  have hjfne : jf ≠ st.j0 := by
    rcases hj0m with h | h
    · omega
    · intro he
      rw [he] at hjff
      exact h hjff
  have hjfu : st.used jf = false := by
    cases h : st.used jf
    · rfl
    · have hmem := (hui jf).mp h
      have := hulm jf hmem (by omega)
      rw [hjff] at this
      exact absurd rfl this
  have hjfU1 : U1 jf = false := (hU1_false jf).mpr ⟨hjfne, hjfu⟩
  obtain ⟨xf, hxf⟩ := hSM_some jf hjf1 hjf2 hjfU1
  obtain ⟨d, hd⟩ : ∃ d, S.2.2.1 = Option.some d := by
    have hdle := scanD jf ((hrange_mem jf).mpr ⟨hjf1, hjf2⟩) hjfU1
    rw [hxf] at hdle
    cases hsd : S.2.2.1
    · rw [hsd, toT_none, toT_some] at hdle
      exact absurd hdle (by simp)
    · exact ⟨_, rfl⟩
  -- the selected column
  obtain ⟨hJmem, hJu, hJm⟩ :
      S.2.2.2 ∈ List.range' 1 size ∧ U1 S.2.2.2 = false ∧ S.1 S.2.2.2 = S.2.2.1 := by
    rcases scanE with h | h
    · rw [h] at hd
      cases hd
    · exact h
  have hJ1 : 1 ≤ S.2.2.2 := ((hrange_mem _).mp hJmem).1
  have hJ2 : S.2.2.2 ≤ size := ((hrange_mem _).mp hJmem).2
  have hJval : S.1 S.2.2.2 = Option.some d := by
    rw [hJm, hd]
  -- delta is nonnegative
  have hd0 : 0 ≤ d := by
    obtain ⟨hc1, _⟩ := scanC _ hJmem hJu
    rw [hJval] at hc1
    by_cases himp : ltInf (slack cost st.u st.v (st.p st.j0) S.2.2.2) (st.minv S.2.2.2) = true
    · rw [if_pos himp] at hc1
      rw [Option.some.inj hc1]
      exact hslack_j0 _ hJ1 hJ2
    · rw [if_neg himp] at hc1
      exact hminv_nonneg _ hJ1 hJ2 ((hU1_false _).mp hJu).2 d hc1.symm
  -- the updated state
  set stM : PhaseState := { st with used := U1, minv := S.1, way := S.2.1 } with hstM
  have hUDef : hungUpdate size d stM = (List.range (size + 1)).foldl (hungUpdateStep d) stM := rfl
  have hinjM : ∀ j ∈ List.range (size + 1), ∀ j' ∈ List.range (size + 1),
      stM.used j = true → stM.used j' = true → stM.p j = stM.p j' → j = j' := by
    intro j hj j' hj' h1 h2 h3
    have h1' : j ∈ st.j0 :: ul := (hU1_iff j).mp h1
    have h2' : j' ∈ st.j0 :: ul := (hU1_iff j').mp h2
    have h3' : pf j = pf j' := by
      rw [← hp]
      exact h3
    exact hpf_inj j (hle_ul1 j h1') j' (hle_ul1 j' h2') (hpf_ul1 j h1') h3'
  have hu2 : ∀ i, (hungUpdate size d stM).u i =
      if ∃ jj ∈ st.j0 :: ul, pf jj = i then st.u i + d else st.u i := by
    intro i
    rw [hUDef, hungUpdate_fold_u d (List.range (size + 1)) (List.nodup_range _) stM hinjM i]
    by_cases hex : ∃ jj ∈ st.j0 :: ul, pf jj = i
    · rw [if_pos hex, if_pos ?side]
      case side =>
        obtain ⟨jj, hjj, hjje⟩ := hex
        refine ⟨jj, List.mem_range.mpr (by have := hle_ul1 jj hjj; omega), ?_, ?_⟩
        · exact (hU1_iff jj).mpr hjj
        · rw [hp]
          exact hjje
    · rw [if_neg hex, if_neg ?side2]
      case side2 =>
        rintro ⟨jj, _hjr, hjju, hjjp⟩
        exact hex ⟨jj, (hU1_iff jj).mp hjju, by rw [← hp]; exact hjjp⟩
  have hv2 : ∀ j, (hungUpdate size d stM).v j =
      if j ∈ st.j0 :: ul then st.v j - d else st.v j := by
    intro j
    rw [hUDef, hungUpdate_fold_v d (List.range (size + 1)) (List.nodup_range _) stM j]
    by_cases hex : j ∈ st.j0 :: ul
    · rw [if_pos hex, if_pos ⟨List.mem_range.mpr (by have := hle_ul1 j hex; omega),
        (hU1_iff j).mpr hex⟩]
    · rw [if_neg hex, if_neg ?side3]
      case side3 =>
        rintro ⟨_hjr, hjju⟩
        exact hex ((hU1_iff j).mp hjju)
  have hm2 : ∀ j, (hungUpdate size d stM).minv j =
      if j ≤ size ∧ U1 j = false then (S.1 j).map (fun x => x - d) else S.1 j := by
    intro j
    rw [hUDef, hungUpdate_fold_minv d (List.range (size + 1)) (List.nodup_range _) stM j]
    by_cases hex : j ≤ size ∧ U1 j = false
    · rw [if_pos hex, if_pos ⟨List.mem_range.mpr (by omega), hex.2⟩]
    · rw [if_neg hex, if_neg ?side4]
      case side4 =>
        rintro ⟨hjr, hjju⟩
        exact hex ⟨by have := List.mem_range.mp hjr; omega, hjju⟩
  obtain ⟨hst_used, hst_p, hst_way, hst_j0⟩ :=
    hungUpdate_fold_stable d (List.range (size + 1)) stM
  rw [← hUDef] at hst_used hst_p hst_way hst_j0
  have hused2 : (hungUpdate size d stM).used = U1 := hst_used
  have hp2 : (hungUpdate size d stM).p = st.p := hst_p
  have hway2 : (hungUpdate size d stM).way = S.2.1 := hst_way
  have hU1_not : ∀ j, j ∉ st.j0 :: ul → U1 j = false := by
    intro j hj
    cases h : U1 j
    · rfl
    · exact absurd ((hU1_iff j).mp h) hj
  have hj0_notmem : st.j0 ∉ ul := by
    intro h
    rw [(hui st.j0).mpr h] at hj0u
    cases hj0u
  -- slack after the update
  have hslack_cancel : ∀ i j, (∃ jj ∈ st.j0 :: ul, pf jj = i) → j ∈ st.j0 :: ul →
      slack cost (hungUpdate size d stM).u (hungUpdate size d stM).v i j
        = slack cost st.u st.v i j := by
    intro i j hi hj
    unfold slack
    rw [hu2 i, hv2 j, if_pos hi, if_pos hj]
    ring
  have hslack_drop : ∀ i j, (∃ jj ∈ st.j0 :: ul, pf jj = i) → j ∉ st.j0 :: ul →
      slack cost (hungUpdate size d stM).u (hungUpdate size d stM).v i j
        = slack cost st.u st.v i j - d := by
    intro i j hi hj
    unfold slack
    rw [hu2 i, hv2 j, if_pos hi, if_neg hj]
    ring
  -- the iteration state is the updated state
  have hiter : phaseIterState cost size st = { hungUpdate size d stM with j0 := S.2.2.2 } := by
    unfold phaseIterState
    dsimp only
    rw [← hU1, ← hS, hd]
  rw [hiter]
  refine ⟨d, hd, ⟨?_, ?_, ?_, ?_, ?_, ?_, ?_, ?_, ?_, ?_⟩, ?_, ?_, ?_, ?_⟩
  · -- p_eq
    show (hungUpdate size d stM).p = pf
    rw [hp2, hp]
  · -- nodup
    exact List.nodup_cons.mpr ⟨hj0_notmem, hnd⟩
  · -- used_iff
    intro j
    show (hungUpdate size d stM).used j = true ↔ _
    rw [hused2]
    exact hU1_iff j
  · -- ul_range
    exact hle_ul1
  · -- ul_matched
    intro jj hjj _
    exact hpf_ul1 jj hjj
  · -- feas
    intro i hi1 hi2 j hj1 hj2
    show (hungUpdate size d stM).u i + (hungUpdate size d stM).v j ≤ _
    rw [hu2 i, hv2 j]
    by_cases hiT : ∃ jj ∈ st.j0 :: ul, pf jj = i
    · by_cases hjU : j ∈ st.j0 :: ul
      · rw [if_pos hiT, if_pos hjU]
        have := hfeas i hi1 hi2 j hj1 hj2
        linarith
      · rw [if_pos hiT, if_neg hjU]
        have hU1j : U1 j = false := hU1_not j hjU
        obtain ⟨x, hx⟩ := hSM_some j hj1 hj2 hU1j
        have hdx : d ≤ x := by
          have hsd := scanD j ((hrange_mem j).mpr ⟨hj1, hj2⟩) hU1j
          rw [hd, hx, toT_some, toT_some] at hsd
          exact_mod_cast hsd
        obtain ⟨jj, hjjmem, hjje⟩ := hiT
        have hxs : x ≤ slack cost st.u st.v i j := by
          rcases List.mem_cons.mp hjjmem with heq | hmem
          · subst heq
            have hub := (hSM_ub j hj1 hj2 hU1j).1
            rw [hx, toT_some, hp, hjje] at hub
            exact_mod_cast hub
          · have hub := (hSM_ub j hj1 hj2 hU1j).2 jj hmem
            rw [hx, toT_some, hjje] at hub
            exact_mod_cast hub
        unfold slack at hxs
        linarith
    · by_cases hjU : j ∈ st.j0 :: ul
      · rw [if_neg hiT, if_pos hjU]
        have := hfeas i hi1 hi2 j hj1 hj2
        linarith
      · rw [if_neg hiT, if_neg hjU]
        exact hfeas i hi1 hi2 j hj1 hj2
  · -- mtight
    intro j hj1 hj2 hjm
    show (hungUpdate size d stM).u (pf j) + (hungUpdate size d stM).v j = _
    rw [hu2, hv2]
    by_cases hjU : j ∈ st.j0 :: ul
    · rw [if_pos ⟨j, hjU, rfl⟩, if_pos hjU]
      have := hmt j hj1 hj2 hjm
      linarith
    · have hnotT : ¬ ∃ jj ∈ st.j0 :: ul, pf jj = pf j := by
        rintro ⟨jj, hjjmem, hjje⟩
        have heq := hpf_inj jj (hle_ul1 jj hjjmem) j hj2 (hpf_ul1 jj hjjmem) hjje
        rw [heq] at hjjmem
        exact hjU hjjmem
      rw [if_neg hnotT, if_neg hjU]
      exact hmt j hj1 hj2 hjm
  · -- minv_ub
    intro j hj1 hj2 hju ju hjumem
    have hU1j : U1 j = false := by
      rw [← hused2]
      exact hju
    have hjnot : j ∉ st.j0 :: ul := by
      intro h
      rw [(hU1_iff j).mpr h] at hU1j
      cases hU1j
    show toT ((hungUpdate size d stM).minv j) ≤ _
    rw [hm2, if_pos ⟨hj2, hU1j⟩]
    obtain ⟨x, hx⟩ := hSM_some j hj1 hj2 hU1j
    rw [hx]
    have hxs : x ≤ slack cost st.u st.v (pf ju) j := by
      rcases List.mem_cons.mp hjumem with heq | hmem
      · subst heq
        have hub := (hSM_ub j hj1 hj2 hU1j).1
        rw [hx, toT_some, hp] at hub
        exact_mod_cast hub
      · have hub := (hSM_ub j hj1 hj2 hU1j).2 ju hmem
        rw [hx, toT_some] at hub
        exact_mod_cast hub
    have hdr := hslack_drop (pf ju) j ⟨ju, hjumem, rfl⟩ hjnot
    show toT (Option.some (x - d)) ≤ _
    rw [toT_some, hdr]
    exact_mod_cast (by linarith : x - d ≤ slack cost st.u st.v (pf ju) j - d)
  · -- minv_way
    intro j hj1 hj2 hju _hne
    have hU1j : U1 j = false := by
      rw [← hused2]
      exact hju
    have hjnot : j ∉ st.j0 :: ul := by
      intro h
      rw [(hU1_iff j).mpr h] at hU1j
      cases hU1j
    obtain ⟨hc1, hc2⟩ := scanC j ((hrange_mem j).mpr ⟨hj1, hj2⟩) hU1j
    have hwshow : ({ hungUpdate size d stM with j0 := S.2.2.2 } : PhaseState).way j
        = S.2.1 j := by
      show (hungUpdate size d stM).way j = S.2.1 j
      rw [hway2]
    have hmshow : ({ hungUpdate size d stM with j0 := S.2.2.2 } : PhaseState).minv j
        = (S.1 j).map (fun x => x - d) := by
      show (hungUpdate size d stM).minv j = _
      rw [hm2, if_pos ⟨hj2, hU1j⟩]
    by_cases himp : ltInf (slack cost st.u st.v (st.p st.j0) j) (st.minv j) = true
    · constructor
      · rw [hwshow, hc2, if_pos himp]
        exact List.mem_cons_self _ _
      · rw [hmshow, hwshow, hc1, hc2, if_pos himp, if_pos himp]
        show Option.some (slack cost st.u st.v (st.p st.j0) j - d) = _
        rw [hslack_drop (pf st.j0) j ⟨st.j0, List.mem_cons_self _ _, rfl⟩ hjnot, hp]
    · have hmn : st.minv j ≠ Option.none := by
        intro h
        rw [h] at himp
        exact himp rfl
      obtain ⟨hwm, hwe⟩ := hmway j hj1 hj2 ((hU1_false j).mp hU1j).2 hmn
      constructor
      · rw [hwshow, hc2, if_neg himp]
        exact List.mem_cons_of_mem _ hwm
      · rw [hmshow, hwshow, hc1, hc2, if_neg himp, if_neg himp, hwe]
        show Option.some (slack cost st.u st.v (pf (st.way j)) j - d) = _
        rw [hslack_drop (pf (st.way j)) j ⟨st.way j, List.mem_cons_of_mem _ hwm, rfl⟩ hjnot]
  · -- tight
    intro l1 j l2 hsplit hjne
    cases l1 with
    | nil =>
      rw [List.nil_append] at hsplit
      injection hsplit with hj hl2
      have hj0ne : st.j0 ≠ 0 := by
        rw [hj]
        exact hjne
      have hmem0 : st.j0 ∈ List.range' 1 size := (hrange_mem _).mpr ⟨by omega, hj0le⟩
      have hU1j0 : U1 st.j0 = true := (hU1_iff _).mpr (List.mem_cons_self _ _)
      obtain ⟨_hb1, hb2⟩ := scanB st.j0 hmem0 hU1j0
      have hmv0 := hj0t hj0ne
      obtain ⟨hwm, hwe⟩ := hmway st.j0 (by omega) hj0le hj0u
        (by rw [hmv0]; exact fun h => Option.noConfusion h)
      have hslack0 : slack cost st.u st.v (pf (st.way st.j0)) st.j0 = 0 := by
        rw [hmv0] at hwe
        exact (Option.some.inj hwe).symm
      have hwshow : ({ hungUpdate size d stM with j0 := S.2.2.2 } : PhaseState).way j
          = st.way st.j0 := by
        show (hungUpdate size d stM).way j = _
        rw [hway2, ← hj, hb2]
      constructor
      · rw [hwshow, ← hl2]
        exact hwm
      · rw [hwshow]
        show slack cost (hungUpdate size d stM).u (hungUpdate size d stM).v
          (pf (st.way st.j0)) j = 0
        rw [← hj]
        rw [hslack_cancel _ _ ⟨st.way st.j0, List.mem_cons_of_mem _ hwm, rfl⟩
          (List.mem_cons_self _ _)]
        exact hslack0
    | cons a l1x =>
      rw [List.cons_append] at hsplit
      injection hsplit with _ha hul
      have hjmem : j ∈ ul := by
        rw [hul]
        exact List.mem_append_right _ (List.mem_cons_self _ _)
      obtain ⟨hwm, hsl⟩ := htight l1x j l2 hul hjne
      have hwul : st.way j ∈ ul := by
        rw [hul]
        exact List.mem_append_right _ (List.mem_cons_of_mem _ hwm)
      have hjr1 : 1 ≤ j := by omega
      have hjr2 : j ≤ size := hulr j hjmem
      have hU1j : U1 j = true := (hU1_iff j).mpr (List.mem_cons_of_mem _ hjmem)
      obtain ⟨_hb1, hb2⟩ := scanB j ((hrange_mem j).mpr ⟨hjr1, hjr2⟩) hU1j
      have hwshow : ({ hungUpdate size d stM with j0 := S.2.2.2 } : PhaseState).way j
          = st.way j := by
        show (hungUpdate size d stM).way j = _
        rw [hway2, hb2]
      constructor
      · rw [hwshow]
        exact hwm
      · rw [hwshow]
        show slack cost (hungUpdate size d stM).u (hungUpdate size d stM).v
          (pf (st.way j)) j = 0
        rw [hslack_cancel _ _ ⟨st.way j, List.mem_cons_of_mem _ hwul, rfl⟩
          (List.mem_cons_of_mem _ hjmem)]
        exact hsl
  · -- new j0 unused
    show (hungUpdate size d stM).used S.2.2.2 = false
    rw [hused2]
    exact hJu
  · -- 1 ≤ new j0
    exact hJ1
  · -- new j0 ≤ size
    exact hJ2
  · -- minv at new j0 is zero
    show (hungUpdate size d stM).minv S.2.2.2 = Option.some 0
    rw [hm2, if_pos ⟨hJ2, hJu⟩, hJval]
    simp


/-- A walk that is already at its last step (`way j0 = 0`) rewrites only
its own column. -/
theorem augChain_single (way : ℕ → ℕ) (s : List ℕ) (j0 : ℕ) (hj0 : j0 ≠ 0)
    (hw0 : way j0 = 0) : AugChain way s j0 [j0] := by
  refine ⟨List.mem_singleton_self _, ?_, ?_, ?_, ?_, ?_, ?_,
    ⟨j0, List.mem_singleton_self _, hw0⟩, ?_⟩
  · intro x hx
    rw [List.mem_singleton.mp hx]
    exact hj0
  · intro x hx
    exact Or.inl (List.mem_singleton.mp hx)
  · intro x hx
    rw [List.mem_singleton.mp hx]
    exact Or.inr hw0
  · intro x hx
    rw [List.mem_singleton.mp hx]
    exact Or.inr hw0
  · intro x hx y hy _
    rw [List.mem_singleton.mp hx, List.mem_singleton.mp hy]
  · intro x hx hne
    exact absurd (List.mem_singleton.mp hx) hne
  · intro fuel hf p
    cases fuel with
    | zero => omega
    | succ f =>
      show (if way j0 = 0 then upd p j0 (p (way j0))
        else augmentLoop way f (upd p j0 (p (way j0))) (way j0)) = _
      rw [if_pos hw0]
      funext j
      by_cases hj : j = j0
      · subst hj
        rw [upd_same]
        simp
      · rw [upd_ne _ _ _ _ hj]
        simp [List.mem_singleton, hj]

/-- Existence of the augmenting walk: from an unused column `j0` whose
parent lies in the used list `s` (newest first, parents pointing at
strictly older columns), the walk of `augmentLoop` reaches column `0` and
its effect on the matching is the one-step row shift along the walk. -/
theorem augment_chain (way : ℕ → ℕ) : ∀ (n : ℕ) (s : List ℕ), s.length ≤ n →
    (∀ l1 j l2, s = l1 ++ j :: l2 → j ≠ 0 → way j ∈ l2) → s.Nodup →
    ∀ j0, j0 ≠ 0 → j0 ∉ s → (way j0 ∈ s ∨ way j0 = 0) →
    ∃ c, AugChain way s j0 c := by
  intro n
  induction n with
  | zero =>
    intro s hsl _ _ j0 hj0 _ hwj
    have hs0 : s = [] := List.length_eq_zero.mp (Nat.le_zero.mp hsl)
    subst hs0
    rcases hwj with h | h
    · exact absurd h (List.not_mem_nil _)
    · exact ⟨[j0], augChain_single way [] j0 hj0 h⟩
  | succ n ih =>
    intro s hsl hwS hndS j0 hj0 hj0s hwj
    by_cases hw0 : way j0 = 0
    · exact ⟨[j0], augChain_single way s j0 hj0 hw0⟩
    rcases hwj with hj1s | hj1s
    swap
    · exact absurd hj1s hw0
    obtain ⟨l1, l2, hsplit⟩ := List.append_of_mem hj1s
    have hj1ne : way j0 ≠ 0 := hw0
    have hl2w : ∀ m1 j m2, l2 = m1 ++ j :: m2 → j ≠ 0 → way j ∈ m2 := by
      intro m1 j m2 hm hjne
      refine hwS (l1 ++ way j0 :: m1) j m2 ?_ hjne
      rw [hsplit, hm]
      simp
    have hl2nd : l2.Nodup := by
      have h1 : (way j0 :: l2).Nodup := by
        refine List.Nodup.sublist ?_ hndS
        rw [hsplit]
        exact List.sublist_append_right l1 _
      exact (List.nodup_cons.mp h1).2
    have hj1l2 : way j0 ∉ l2 := by
      have h1 : (way j0 :: l2).Nodup := by
        refine List.Nodup.sublist ?_ hndS
        rw [hsplit]
        exact List.sublist_append_right l1 _
      exact (List.nodup_cons.mp h1).1
    have hl2len : l2.length ≤ n := by
      have : s.length = l1.length + 1 + l2.length := by
        rw [hsplit]
        simp [List.length_append]
        omega
      omega
    have hwj1 : way (way j0) ∈ l2 ∨ way (way j0) = 0 :=
      Or.inl (hwS l1 (way j0) l2 hsplit hj1ne)
    obtain ⟨c', hc'⟩ := ih l2 hl2len hl2w hl2nd (way j0) hj1ne hj1l2 hwj1
    have hl2s : ∀ x ∈ l2, x ∈ s := by
      intro x hx
      rw [hsplit]
      exact List.mem_append_right _ (List.mem_cons_of_mem _ hx)
    have hmem_s : ∀ x ∈ c', x ∈ s := by
      intro x hx
      rcases hc'.mem_s x hx with h | h
      · rw [h]
        exact hj1s
      · exact hl2s x h
    have hj0c' : j0 ∉ c' := fun h => hj0s (hmem_s j0 h)
    have hwayc'_ne : ∀ x ∈ c', way x ≠ j0 := by
      intro x hx h
      rcases hc'.way_s x hx with hm | hm
      · exact hj0s (h ▸ hl2s _ hm)
      · exact hj0 (h ▸ hm)
    refine ⟨j0 :: c', List.mem_cons_self _ _, ?_, ?_, ?_, ?_, ?_, ?_, ?_, ?_⟩
    · intro x hx
      rcases List.mem_cons.mp hx with h | h
      · rw [h]
        exact hj0
      · exact hc'.ne_zero x h
    · intro x hx
      rcases List.mem_cons.mp hx with h | h
      · exact Or.inl h
      · exact Or.inr (hmem_s x h)
    · intro x hx
      rcases List.mem_cons.mp hx with h | h
      · rw [h]
        exact Or.inl hj1s
      · rcases hc'.way_s x h with hm | hm
        · exact Or.inl (hl2s _ hm)
        · exact Or.inr hm
    · intro x hx
      rcases List.mem_cons.mp hx with h | h
      · rw [h]
        exact Or.inl (List.mem_cons_of_mem _ hc'.head_mem)
      · rcases hc'.way_closed x h with hm | hm
        · exact Or.inl (List.mem_cons_of_mem _ hm)
        · exact Or.inr hm
    · intro x hx y hy hxy
      rcases List.mem_cons.mp hx with h | h <;> rcases List.mem_cons.mp hy with h2 | h2
      · rw [h, h2]
      · exfalso
        rcases hc'.way_s y h2 with hm | hm
        · rw [← hxy, h] at hm
          exact hj1l2 hm
        · rw [← hxy, h] at hm
          exact hj1ne hm
      · exfalso
        rcases hc'.way_s x h with hm | hm
        · rw [hxy, h2] at hm
          exact hj1l2 hm
        · rw [hxy, h2] at hm
          exact hj1ne hm
      · exact hc'.way_inj x h y h2 hxy
    · intro x hx hne
      rcases List.mem_cons.mp hx with h | h
      · exact absurd h hne
      · by_cases hxj1 : x = way j0
        · exact ⟨j0, List.mem_cons_self _ _, hxj1.symm⟩
        · obtain ⟨y, hy, hwy⟩ := hc'.parent x h hxj1
          exact ⟨y, List.mem_cons_of_mem _ hy, hwy⟩
    · obtain ⟨y, hy, hwy⟩ := hc'.root
      exact ⟨y, List.mem_cons_of_mem _ hy, hwy⟩
    · intro fuel hf p
      cases fuel with
      | zero => omega
      | succ f =>
        have hflen : l2.length + 1 ≤ f := by
          have : s.length = l1.length + 1 + l2.length := by
            rw [hsplit]
            simp [List.length_append]
            omega
          omega
        show (if way j0 = 0 then upd p j0 (p (way j0))
          else augmentLoop way f (upd p j0 (p (way j0))) (way j0)) = _
        rw [if_neg hw0]
        rw [hc'.run f hflen (upd p j0 (p (way j0)))]
        funext j
        by_cases hjc : j ∈ c'
        · rw [if_pos hjc, if_pos (List.mem_cons_of_mem _ hjc),
            upd_ne _ _ _ _ (hwayc'_ne j hjc)]
        · by_cases hjj0 : j = j0
          · subst hjj0
            rw [if_neg hjc, if_pos (List.mem_cons_self _ _), upd_same]
          · rw [if_neg hjc, upd_ne _ _ _ _ hjj0,
              if_neg (by rw [List.mem_cons]; rintro (h | h); exact hjj0 h; exact hjc h)]

/-- Unfolding one iteration of `phaseLoop` when the scan's `delta` is
finite. -/
theorem phaseLoop_succ (cost : ℕ → ℕ → ℚ) (size fuel : ℕ) (st : PhaseState) (d : ℚ)
    (hd : (hungScanFold cost (st.p st.j0) st.j0 st.u st.v (upd st.used st.j0 true)
      st.minv st.way (List.range' 1 size)).2.2.1 = Option.some d) :
    phaseLoop cost size (fuel + 1) st =
      if (phaseIterState cost size st).p (phaseIterState cost size st).j0 = 0
      then phaseIterState cost size st
      else phaseLoop cost size fuel (phaseIterState cost size st) := by
  have hd' : ((List.range' 1 size).foldl
      (hungScanStep cost (st.p st.j0) st.j0 st.u st.v (upd st.used st.j0 true))
      (st.minv, st.way, Option.none, 0)).2.2.1 = Option.some d := hd
  conv_lhs => rw [phaseLoop]
  conv_rhs => rw [phaseIterState]
  dsimp only
  rw [hd', hd]
  rfl

/-- The phase loop exits, with enough fuel, at a free unused in-range
column whose `way` edge is tight, all invariants intact. -/
theorem phaseLoop_spec (cost : ℕ → ℕ → ℚ) (size : ℕ) (pf : ℕ → ℕ)
    (hpf_rows : ∀ j, j ≤ size → pf j ≠ 0 → 1 ≤ pf j ∧ pf j ≤ size)
    (hpf0 : pf 0 ≠ 0)
    (hpf_inj : ∀ j, j ≤ size → ∀ j', j' ≤ size → pf j ≠ 0 → pf j = pf j' → j = j')
    (hfree : ∃ jf, 1 ≤ jf ∧ jf ≤ size ∧ pf jf = 0) :
    ∀ (fuel : ℕ) (st : PhaseState) (ul : List ℕ),
    PhaseInv cost size pf st ul →
    st.used st.j0 = false → st.j0 ≤ size →
    (st.j0 = 0 ∨ pf st.j0 ≠ 0) → (st.j0 ≠ 0 → st.minv st.j0 = Option.some 0) →
    size + 1 ≤ fuel + ul.length →
    ∃ ul', PhaseOut cost size pf (phaseLoop cost size fuel st) ul' := by
  intro fuel
  induction fuel with
  | zero =>
    intro st ul hinv hj0u hj0le hj0m hj0t hlen
    exfalso
    have h1 : ul.toFinset ⊆ Finset.range (size + 1) := by
      intro x hx
      have := hinv.ul_range x (List.mem_toFinset.mp hx)
      exact Finset.mem_range.mpr (by omega)
    have h2 : ul.toFinset.card = ul.length := List.toFinset_card_of_nodup hinv.nodup
    have h3 : ul.toFinset = Finset.range (size + 1) :=
      Finset.eq_of_subset_of_card_le h1 (by rw [h2, Finset.card_range]; omega)
    obtain ⟨jf, hjf1, hjf2, hjf3⟩ := hfree
    have hmem : jf ∈ ul := by
      rw [← List.mem_toFinset, h3]
      exact Finset.mem_range.mpr (by omega)
    exact hinv.ul_matched jf hmem (by omega) hjf3
  | succ fuel ih =>
    intro st ul hinv hj0u hj0le hj0m hj0t hlen
    obtain ⟨d, hd, hinv2, hu2, hge2, hle2, hm2⟩ :=
      phase_iter cost size pf hpf_rows hpf0 hpf_inj hfree st ul hinv hj0u hj0le hj0m hj0t
    rw [phaseLoop_succ cost size fuel st d hd]
    by_cases hstop :
        (phaseIterState cost size st).p (phaseIterState cost size st).j0 = 0
    · rw [if_pos hstop]
      have hfree0 : pf (phaseIterState cost size st).j0 = 0 := by
        rw [← hinv2.p_eq]
        exact hstop
      have hmw := hinv2.minv_way (phaseIterState cost size st).j0 hge2 hle2 hu2
        (by rw [hm2]; exact fun h => Option.noConfusion h)
      refine ⟨st.j0 :: ul, ⟨hinv2, hge2, hle2, hfree0, hu2, hmw.1, ?_⟩⟩
      have := hmw.2
      rw [hm2] at this
      exact (Option.some.inj this).symm
    · rw [if_neg hstop]
      refine ih (phaseIterState cost size st) (st.j0 :: ul) hinv2 hu2 hle2 ?_
        (fun _ => hm2) (by simp only [List.length_cons]; omega)
      right
      intro h
      exact hstop (by rw [hinv2.p_eq]; exact h)

/-- Processing one row of `_hungarian` extends the matching by that row,
keeping injectivity, feasibility and tightness. -/
theorem hungRow_spec (cost : ℕ → ℕ → ℚ) (size r : ℕ) (hr : r < size) (hs : HState)
    (hMI : MainInv cost size r hs) :
    MainInv cost size (r + 1) (hungRow cost size hs (r + 1)) := by
  set pf := upd hs.p 0 (r + 1) with hpf
  have hpf0v : pf 0 = r + 1 := upd_same _ _ _
  have hpfj : ∀ j, j ≠ 0 → pf j = hs.p j := fun j hj => upd_ne _ _ _ _ hj
  have hpf_rows : ∀ j, j ≤ size → pf j ≠ 0 → 1 ≤ pf j ∧ pf j ≤ size := by
    intro j hj hne
    by_cases h0 : j = 0
    · subst h0
      rw [hpf0v]
      omega
    · rw [hpfj j h0] at hne ⊢
      have := hMI.p_le j (by omega) hj
      omega
  have hpf0 : pf 0 ≠ 0 := by
    rw [hpf0v]
    omega
  have hpf_inj : ∀ j, j ≤ size → ∀ j', j' ≤ size → pf j ≠ 0 → pf j = pf j' → j = j' := by
    intro j hj j' hj' hne heq
    by_cases h0 : j = 0 <;> by_cases h0' : j' = 0
    · rw [h0, h0']
    · rw [h0, hpf0v, hpfj j' h0'] at heq
      have := hMI.p_le j' (by omega) hj'
      omega
    · rw [h0', hpf0v] at heq
      rw [hpfj j h0] at heq hne
      have := hMI.p_le j (by omega) hj
      omega
    · rw [hpfj j h0] at hne heq
      rw [hpfj j' h0'] at heq
      exact hMI.p_inj j (by omega) hj j' (by omega) hj' hne heq
  have hfree : ∃ jf, 1 ≤ jf ∧ jf ≤ size ∧ pf jf = 0 := by
    by_contra hall
    push_neg at hall
    have hmaps : ∀ j ∈ Finset.Icc 1 size, pf j ∈ Finset.Icc 1 r := by
      intro j hjm
      rw [Finset.mem_Icc] at hjm ⊢
      have hne := hall j hjm.1 hjm.2
      rw [hpfj j (by omega)] at hne ⊢
      have := hMI.p_le j hjm.1 hjm.2
      omega
    have hinj : Set.InjOn pf (Finset.Icc 1 size) := by
      intro a ha b hb heq
      rw [Finset.coe_Icc, Set.mem_Icc] at ha hb
      exact hpf_inj a ha.2 b hb.2 (hall a ha.1 ha.2) heq
    have := Finset.card_le_card_of_injOn pf hmaps hinj
    rw [Nat.card_Icc, Nat.card_Icc] at this
    omega
  set ps : PhaseState := { u := hs.u, v := hs.v, p := pf, way := hs.way, minv := fun _ => Option.none, used := fun _ => false, j0 := 0 } with hpsd
  have hinv0 : PhaseInv cost size pf ps [] := by
    refine ⟨rfl, List.nodup_nil, ?_, ?_, ?_, hMI.feas, ?_, ?_, ?_, ?_⟩
    · intro j
      simp [hpsd]
    · intro j hj
      exact absurd hj (List.not_mem_nil _)
    · intro j hj
      exact absurd hj (List.not_mem_nil _)
    · intro j h1 h2 hne
      rw [hpfj j (by omega)] at hne ⊢
      exact hMI.tight j h1 h2 hne
    · intro j _ _ _ ju hju
      exact absurd hju (List.not_mem_nil _)
    · intro j _ _ _ hne
      exact absurd rfl hne
    · intro l1 j l2 h
      exact absurd h (by simp)
  obtain ⟨ul', hout⟩ := phaseLoop_spec cost size pf hpf_rows hpf0 hpf_inj hfree
    (size + 1) ps [] hinv0 rfl (Nat.zero_le size) (Or.inl rfl)
    (fun h => absurd rfl h) (by simp)
  set fin := phaseLoop cost size (size + 1) ps with hfin
  have hulen : ul'.length ≤ size + 1 := by
    have h1 : ul'.toFinset ⊆ Finset.range (size + 1) := by
      intro x hx
      have := hout.inv.ul_range x (List.mem_toFinset.mp hx)
      exact Finset.mem_range.mpr (by omega)
    have h2 := Finset.card_le_card h1
    rw [List.toFinset_card_of_nodup hout.inv.nodup, Finset.card_range] at h2
    exact h2
  have hj0n0 : fin.j0 ≠ 0 := by
    have := hout.j0_ge
    omega
  have hj0nm : fin.j0 ∉ ul' := by
    intro h
    have := (hout.inv.used_iff fin.j0).mpr h
    rw [hout.j0_unused] at this
    cases this
  obtain ⟨c, hc⟩ := augment_chain fin.way ul'.length ul' le_rfl
    (fun l1 j l2 hsp hjne => (hout.inv.tight l1 j l2 hsp hjne).1)
    hout.inv.nodup fin.j0 hj0n0 hj0nm (Or.inl hout.way_mem)
  have hrun := hc.run (size + 2) (by omega) fin.p
  have hpfin : fin.p = pf := hout.inv.p_eq
  have hrow : hungRow cost size hs (r + 1) =
      { u := fin.u, v := fin.v, p := augmentLoop fin.way (size + 2) fin.p fin.j0,
        way := fin.way } := rfl
  rw [hrow, hrun]
  have hcle : ∀ x ∈ c, x ≤ size := by
    intro x hx
    rcases hc.mem_s x hx with h | h
    · rw [h]
      exact hout.j0_le
    · exact hout.inv.ul_range x h
  have hwayle : ∀ x ∈ c, fin.way x ≤ size := by
    intro x hx
    rcases hc.way_s x hx with h | h
    · exact hout.inv.ul_range _ h
    · omega
  have hpfle : ∀ x, x ≤ size → pf x ≤ r + 1 := by
    intro x hx
    by_cases h0 : x = 0
    · rw [h0, hpf0v]
    · rw [hpfj x h0]
      by_cases h1 : 1 ≤ x
      · have := hMI.p_le x h1 hx
        omega
      · omega
  refine ⟨?_, ?_, ?_, hout.inv.feas, ?_⟩
  · -- p_le
    intro j h1 h2
    dsimp only
    by_cases hjc : j ∈ c
    · rw [if_pos hjc, hpfin]
      exact hpfle _ (hwayle j hjc)
    · rw [if_neg hjc, hpfin]
      exact hpfle _ h2
  · -- p_inj
    intro j h1 h2 j' h1' h2' hne heq
    dsimp only at hne heq
    by_cases hjc : j ∈ c <;> by_cases hjc' : j' ∈ c
    · rw [if_pos hjc, hpfin] at hne
      rw [if_pos hjc, if_pos hjc', hpfin] at heq
      exact hc.way_inj j hjc j' hjc'
        (hpf_inj _ (hwayle j hjc) _ (hwayle j' hjc') hne heq)
    · rw [if_pos hjc, hpfin] at hne
      rw [if_pos hjc, if_neg hjc', hpfin] at heq
      have := hpf_inj _ (hwayle j hjc) _ h2' hne heq
      rcases hc.way_closed j hjc with hm | hm
      · rw [this] at hm
        exact absurd hm hjc'
      · omega
    · rw [if_neg hjc, hpfin] at hne
      rw [if_neg hjc, if_pos hjc', hpfin] at heq
      have := hpf_inj _ h2 _ (hwayle j' hjc') hne heq
      rcases hc.way_closed j' hjc' with hm | hm
      · rw [← this] at hm
        exact absurd hm hjc
      · omega
    · rw [if_neg hjc, hpfin] at hne
      rw [if_neg hjc, if_neg hjc', hpfin] at heq
      exact hpf_inj _ h2 _ h2' hne heq
  · -- p_onto
    intro i hi1 hi2
    dsimp only
    by_cases hitop : i = r + 1
    · obtain ⟨y, hy, hwy⟩ := hc.root
      refine ⟨y, by have := hc.ne_zero y hy; omega, hcle y hy, ?_⟩
      rw [if_pos hy, hpfin, hwy, hpf0v, hitop]
    · obtain ⟨jc, hj1, hj2, hj3⟩ := hMI.p_onto i hi1 (by omega)
      have hpfjc : pf jc = i := by
        rw [hpfj jc (by omega)]
        exact hj3
      by_cases hjcc : jc ∈ c
      · have hjcne : jc ≠ fin.j0 := by
          intro h
          rw [h, hout.j0_free] at hpfjc
          omega
        obtain ⟨y, hy, hwy⟩ := hc.parent jc hjcc hjcne
        refine ⟨y, by have := hc.ne_zero y hy; omega, hcle y hy, ?_⟩
        rw [if_pos hy, hpfin, hwy, hpfjc]
      · exact ⟨jc, hj1, hj2, by rw [if_neg hjcc, hpfin, hpfjc]⟩
  · -- tight
    intro j h1 h2 hne
    dsimp only at hne ⊢
    by_cases hjc : j ∈ c
    · rw [if_pos hjc, hpfin] at hne ⊢
      by_cases hjj0 : j = fin.j0
      · subst hjj0
        have := hout.way_tight
        unfold slack at this
        linarith
      · have hjul : j ∈ ul' := (hc.mem_s j hjc).resolve_left hjj0
        obtain ⟨l1, l2, hsp⟩ := List.append_of_mem hjul
        have := (hout.inv.tight l1 j l2 hsp (hc.ne_zero j hjc)).2
        unfold slack at this
        linarith
    · rw [if_neg hjc, hpfin] at hne ⊢
      exact hout.inv.mtight j h1 h2 hne

/-- The invariant of `_hungarian` holds after all rows are processed:
for non-negative cost matrices the final matching is a tight injection of
the columns onto the rows under feasible potentials. -/
theorem hungarianState_inv (cost : ℕ → ℕ → ℚ) (size : ℕ)
    (hc : ∀ i j, i < size → j < size → 0 ≤ cost i j) :
    MainInv cost size size (hungarianState cost size) := by
  suffices h : ∀ r, r ≤ size → MainInv cost size r ((List.range' 1 r).foldl
      (hungRow cost size)
      { u := fun _ => 0, v := fun _ => 0, p := fun _ => 0, way := fun _ => 0 }) by
    exact h size le_rfl
  intro r
  induction r with
  | zero =>
    intro _
    refine ⟨?_, ?_, ?_, ?_, ?_⟩
    · intro j _ _
      exact le_rfl
    · intro j _ _ j' _ _ hne _
      exact absurd rfl hne
    · intro i hi1 hi2
      omega
    · intro i hi1 hi2 j hj1 hj2
      have := hc (i - 1) (j - 1) (by omega) (by omega)
      show (0 : ℚ) + 0 ≤ _
      linarith
    · intro j _ _ hne
      exact absurd rfl hne
  | succ r ih =>
    intro hle
    have hcat : List.range' 1 (r + 1) = List.range' 1 r ++ [1 + 1 * r] :=
      List.range'_concat 1 r
    have hr1 : 1 + 1 * r = r + 1 := by omega
    rw [hcat, hr1, List.foldl_append, List.foldl_cons, List.foldl_nil]
    exact hungRow_spec cost size r (by omega) _ (ih (by omega))

/-- After all rows, every column of `_hungarian` is matched to a row in
range. -/
theorem hungarianState_p_pos (cost : ℕ → ℕ → ℚ) (size : ℕ)
    (hc : ∀ i j, i < size → j < size → 0 ≤ cost i j) :
    ∀ j, 1 ≤ j → j ≤ size → 1 ≤ (hungarianState cost size).p j ∧
      (hungarianState cost size).p j ≤ size := by
  intro j hj1 hj2
  have hMI := hungarianState_inv cost size hc
  refine ⟨?_, hMI.p_le j hj1 hj2⟩
  by_contra h0
  have hpj : (hungarianState cost size).p j = 0 := by omega
  set M := (Finset.Icc 1 size).filter
    (fun x => (hungarianState cost size).p x ≠ 0) with hM
  have hMsub : M ⊆ Finset.Icc 1 size := Finset.filter_subset _ _
  have himg : Finset.Icc 1 size ⊆ M.image (hungarianState cost size).p := by
    intro i hi
    rw [Finset.mem_Icc] at hi
    obtain ⟨jc, h1, h2, h3⟩ := hMI.p_onto i hi.1 hi.2
    refine Finset.mem_image.mpr ⟨jc, ?_, h3⟩
    rw [hM, Finset.mem_filter, Finset.mem_Icc]
    exact ⟨⟨h1, h2⟩, by rw [h3]; omega⟩
  have h1c := Finset.card_le_card himg
  have h2c := Finset.card_image_le (s := M) (f := (hungarianState cost size).p)
  have h3c := Finset.card_lt_card
    (⟨hMsub, fun hsub => ?_⟩ : M ⊂ Finset.Icc 1 size)
  · rw [Nat.card_Icc] at h1c h3c
    omega
  · have hjm := hsub (Finset.mem_Icc.mpr ⟨hj1, hj2⟩)
    rw [hM, Finset.mem_filter] at hjm
    exact hjm.2 hpj

/-- Duality: the matching of `_hungarian` has minimal total cost among all
injections of the columns into the rows (0-based indexing). -/
theorem hungarianState_opt (cost : ℕ → ℕ → ℚ) (size : ℕ)
    (hc : ∀ i j, i < size → j < size → 0 ≤ cost i j)
    (g : ℕ → ℕ) (hgm : ∀ j, j < size → g j < size)
    (hginj : ∀ j, j < size → ∀ j', j' < size → g j = g j' → j = j') :
    ∑ j ∈ Finset.range size, cost ((hungarianState cost size).p (j + 1) - 1) j
      ≤ ∑ j ∈ Finset.range size, cost (g j) j := by
  set hsf := hungarianState cost size with hhsf
  have hMI := hungarianState_inv cost size hc
  have hpos := hungarianState_p_pos cost size hc
  rw [← hhsf] at hMI hpos
  have tight0 : ∀ j ∈ Finset.range size,
      cost (hsf.p (j + 1) - 1) j = hsf.u (hsf.p (j + 1)) + hsf.v (j + 1) := by
    intro j hj
    rw [Finset.mem_range] at hj
    have hne : hsf.p (j + 1) ≠ 0 := by
      have := (hpos (j + 1) (by omega) (by omega)).1
      omega
    have := hMI.tight (j + 1) (by omega) (by omega) hne
    rw [Nat.add_sub_cancel] at this
    exact this.symm
  have feas0 : ∀ j ∈ Finset.range size,
      hsf.u (g j + 1) + hsf.v (j + 1) ≤ cost (g j) j := by
    intro j hj
    rw [Finset.mem_range] at hj
    have hgj := hgm j hj
    have := hMI.feas (g j + 1) (by omega) (by omega) (j + 1) (by omega) (by omega)
    rw [Nat.add_sub_cancel, Nat.add_sub_cancel] at this
    exact this
  have hreindex : ∀ f : ℕ → ℕ, (∀ j, j < size → f j < size) →
      (∀ j, j < size → ∀ j', j' < size → f j = f j' → j = j') →
      ∀ w : ℕ → ℚ, ∑ j ∈ Finset.range size, w (f j) = ∑ i ∈ Finset.range size, w i := by
    intro f hm hinj w
    have hinjOn : Set.InjOn f (Finset.range size) := by
      intro a ha b hb heq
      rw [Finset.coe_range, Set.mem_Iio] at ha hb
      exact hinj a ha b hb heq
    have himg : (Finset.range size).image f = Finset.range size := by
      refine Finset.eq_of_subset_of_card_le ?_ ?_
      · intro x hx
        obtain ⟨a, ha, rfl⟩ := Finset.mem_image.mp hx
        rw [Finset.mem_range] at ha ⊢
        exact hm a ha
      · rw [Finset.card_image_of_injOn hinjOn]
    calc ∑ j ∈ Finset.range size, w (f j)
        = ∑ x ∈ (Finset.range size).image f, w x :=
          (Finset.sum_image (fun a ha b hb => hinjOn (by simpa using ha) (by simpa using hb))).symm
      _ = ∑ i ∈ Finset.range size, w i := by rw [himg]
  have hfm : ∀ j, j < size → hsf.p (j + 1) - 1 < size := by
    intro j hj
    have := hpos (j + 1) (by omega) (by omega)
    omega
  have hfminj : ∀ j, j < size → ∀ j', j' < size →
      hsf.p (j + 1) - 1 = hsf.p (j' + 1) - 1 → j = j' := by
    intro j hj j' hj' heq
    have h1 := hpos (j + 1) (by omega) (by omega)
    have h2 := hpos (j' + 1) (by omega) (by omega)
    have : hsf.p (j + 1) = hsf.p (j' + 1) := by omega
    have := hMI.p_inj (j + 1) (by omega) (by omega) (j' + 1) (by omega) (by omega)
      (by omega) this
    omega
  have hsum1 : ∑ j ∈ Finset.range size, hsf.u (hsf.p (j + 1))
      = ∑ i ∈ Finset.range size, hsf.u (i + 1) := by
    have := hreindex (fun j => hsf.p (j + 1) - 1) hfm hfminj (fun x => hsf.u (x + 1))
    calc ∑ j ∈ Finset.range size, hsf.u (hsf.p (j + 1))
        = ∑ j ∈ Finset.range size, hsf.u ((hsf.p (j + 1) - 1) + 1) := by
          refine Finset.sum_congr rfl ?_
          intro j hj
          rw [Finset.mem_range] at hj
          have := (hpos (j + 1) (by omega) (by omega)).1
          congr 1
          omega
      _ = ∑ i ∈ Finset.range size, hsf.u (i + 1) := this
  have hsum2 : ∑ j ∈ Finset.range size, hsf.u (g j + 1)
      = ∑ i ∈ Finset.range size, hsf.u (i + 1) :=
    hreindex g hgm hginj (fun x => hsf.u (x + 1))
  calc ∑ j ∈ Finset.range size, cost (hsf.p (j + 1) - 1) j
      = ∑ j ∈ Finset.range size, (hsf.u (hsf.p (j + 1)) + hsf.v (j + 1)) :=
        Finset.sum_congr rfl tight0
    _ = ∑ j ∈ Finset.range size, hsf.u (hsf.p (j + 1))
        + ∑ j ∈ Finset.range size, hsf.v (j + 1) := Finset.sum_add_distrib
    _ = ∑ j ∈ Finset.range size, hsf.u (g j + 1)
        + ∑ j ∈ Finset.range size, hsf.v (j + 1) := by rw [hsum1, hsum2]
    _ = ∑ j ∈ Finset.range size, (hsf.u (g j + 1) + hsf.v (j + 1)) :=
        Finset.sum_add_distrib.symm
    _ ≤ ∑ j ∈ Finset.range size, cost (g j) j := Finset.sum_le_sum feas0

/-- Any injection defined on part of `range size` extends to an injection
of all of `range size` into itself. -/
theorem extend_to_inj (size : ℕ) (A : Finset ℕ) (hA : A ⊆ Finset.range size)
    (f : ℕ → ℕ) (hf : ∀ i ∈ A, f i < size)
    (hinj : ∀ i ∈ A, ∀ i' ∈ A, f i = f i' → i = i') :
    ∃ g : ℕ → ℕ, (∀ j, j < size → g j < size) ∧
      (∀ j, j < size → ∀ j', j' < size → g j = g j' → j = j') ∧
      (∀ i ∈ A, g i = f i) := by
  classical
  set B := A.image f with hB
  have hinjOn : Set.InjOn f A := fun a ha b hb => hinj a ha b hb
  have hBsub : B ⊆ Finset.range size := by
    intro x hx
    obtain ⟨a, ha, rfl⟩ := Finset.mem_image.mp hx
    exact Finset.mem_range.mpr (hf a ha)
  have hBcard : B.card = A.card := Finset.card_image_of_injOn hinjOn
  have hcards : (Finset.range size \ A).card = (Finset.range size \ B).card := by
    rw [Finset.card_sdiff hA, Finset.card_sdiff hBsub, hBcard]
  set e := Finset.equivOfCardEq hcards with he
  refine ⟨fun i => if h : i ∈ A then f i
    else if h2 : i ∈ Finset.range size \ A then (e ⟨i, h2⟩ : ℕ) else 0, ?_, ?_, ?_⟩
  · intro j hj
    dsimp only
    by_cases h : j ∈ A
    · rw [dif_pos h]
      exact hf j h
    · have h2 : j ∈ Finset.range size \ A :=
        Finset.mem_sdiff.mpr ⟨Finset.mem_range.mpr hj, h⟩
      rw [dif_neg h, dif_pos h2]
      have := (e ⟨j, h2⟩).2
      rw [Finset.mem_sdiff, Finset.mem_range] at this
      exact this.1
  · intro j hj j' hj' heq
    dsimp only at heq
    by_cases h : j ∈ A <;> by_cases h' : j' ∈ A
    · rw [dif_pos h, dif_pos h'] at heq
      exact hinj j h j' h' heq
    · exfalso
      have h2 : j' ∈ Finset.range size \ A :=
        Finset.mem_sdiff.mpr ⟨Finset.mem_range.mpr hj', h'⟩
      rw [dif_pos h, dif_neg h', dif_pos h2] at heq
      have hmem := (e ⟨j', h2⟩).2
      rw [Finset.mem_sdiff] at hmem
      exact hmem.2 (by rw [← heq]; exact Finset.mem_image_of_mem f h)
    · exfalso
      have h2 : j ∈ Finset.range size \ A :=
        Finset.mem_sdiff.mpr ⟨Finset.mem_range.mpr hj, h⟩
      rw [dif_neg h, dif_pos h2, dif_pos h'] at heq
      have hmem := (e ⟨j, h2⟩).2
      rw [Finset.mem_sdiff] at hmem
      exact hmem.2 (by rw [heq]; exact Finset.mem_image_of_mem f h')
    · have h2 : j ∈ Finset.range size \ A :=
        Finset.mem_sdiff.mpr ⟨Finset.mem_range.mpr hj, h⟩
      have h2' : j' ∈ Finset.range size \ A :=
        Finset.mem_sdiff.mpr ⟨Finset.mem_range.mpr hj', h'⟩
      rw [dif_neg h, dif_pos h2, dif_neg h', dif_pos h2'] at heq
      have := e.injective (Subtype.ext heq)
      exact congrArg Subtype.val this
  · intro i hi
    dsimp only
    rw [dif_pos hi]

/-- The assignment-building fold of `_hungarian` preserves length. -/
theorem assignFold_length (p : ℕ → ℕ) (js : List ℕ) (acc : List ℤ) :
    (js.foldl (fun acc j => if p j > 0 then acc.set (p j - 1) ((j : ℤ) - 1) else acc)
      acc).length = acc.length := by
  induction js generalizing acc with
  | nil => rfl
  | cons j js ih =>
    rw [List.foldl_cons, ih]
    by_cases h : p j > 0
    · rw [if_pos h, List.length_set]
    · rw [if_neg h]

/-- Indices never written by the assignment fold keep their value. -/
theorem assignFold_untouched (p : ℕ → ℕ) (i : ℕ) : ∀ (js : List ℕ),
    (∀ j ∈ js, p j ≠ i + 1) → ∀ acc : List ℤ,
    (js.foldl (fun acc j => if p j > 0 then acc.set (p j - 1) ((j : ℤ) - 1) else acc)
      acc).getD i (-1) = acc.getD i (-1) := by
  intro js
  induction js with
  | nil =>
    intro _ acc
    rfl
  | cons j js ih =>
    intro hno acc
    rw [List.foldl_cons, ih (fun x hx => hno x (List.mem_cons_of_mem _ hx))]
    by_cases h : p j > 0
    · rw [if_pos h]
      have hne : p j - 1 ≠ i := by
        have := hno j (List.mem_cons_self _ _)
        omega
      rw [List.getD_eq_getElem?_getD, List.getElem?_set_ne hne,
        ← List.getD_eq_getElem?_getD]
    · rw [if_neg h]

/-- The assignment fold writes `j - 1` at position `p j - 1` for the
unique column `j` matched to row `i + 1`. -/
theorem assignFold_getD (p : ℕ → ℕ) (i : ℕ) : ∀ (js : List ℕ) (acc : List ℤ) (js0 : ℕ),
    js.Nodup → js0 ∈ js → p js0 = i + 1 →
    (∀ j ∈ js, p j = i + 1 → j = js0) → i < acc.length →
    (js.foldl (fun acc j => if p j > 0 then acc.set (p j - 1) ((j : ℤ) - 1) else acc)
      acc).getD i (-1) = (js0 : ℤ) - 1 := by
  intro js
  induction js with
  | nil =>
    intro acc js0 _ hmem
    exact absurd hmem (List.not_mem_nil _)
  | cons j js ih =>
    intro acc js0 hnd hmem hval huniq hlen
    rw [List.foldl_cons]
    by_cases hj : j = js0
    · subst hj
      rw [if_pos (by omega : p j > 0)]
      have hno : ∀ x ∈ js, p x ≠ i + 1 := by
        intro x hx hpe
        have hxj := huniq x (List.mem_cons_of_mem _ hx) hpe
        rw [hxj] at hx
        exact (List.nodup_cons.mp hnd).1 hx
      rw [assignFold_untouched p i js hno]
      have hidx : p j - 1 = i := by omega
      rw [hidx, List.getD_eq_getElem?_getD, List.getElem?_set_self hlen]
      rfl
    · have hne : p j ≠ i + 1 := fun hpe => hj (huniq j (List.mem_cons_self _ _) hpe)
      have hmem' : js0 ∈ js := (List.mem_cons.mp hmem).resolve_left
        (fun h => hj h.symm)
      refine ih _ js0 (List.nodup_cons.mp hnd).2 hmem' hval
        (fun x hx hpe => huniq x (List.mem_cons_of_mem _ hx) hpe) ?_
      by_cases h : p j > 0
      · rw [if_pos h, List.length_set]
        exact hlen
      · rw [if_neg h]
        exact hlen

/-- `_hungarian` returns one entry per row. -/
theorem hungarian_length (cost : ℕ → ℕ → ℚ) (size : ℕ) :
    (hungarian cost size).length = size := by
  by_cases h : size = 0
  · subst h
    rfl
  · show (if size = 0 then [] else _).length = size
    rw [if_neg h, assignFold_length, List.length_replicate]

/-- Each row `i` of `_hungarian`'s result holds the (0-based) column
matched to it. -/
theorem hungarian_getD (cost : ℕ → ℕ → ℚ) (size : ℕ)
    (hc : ∀ i j, i < size → j < size → 0 ≤ cost i j) (i : ℕ) (hi : i < size) :
    ∃ j, 1 ≤ j ∧ j ≤ size ∧ (hungarianState cost size).p j = i + 1 ∧
      (hungarian cost size).getD i (-1) = (j : ℤ) - 1 := by
  have hMI := hungarianState_inv cost size hc
  obtain ⟨j, hj1, hj2, hj3⟩ := hMI.p_onto (i + 1) (by omega) (by omega)
  refine ⟨j, hj1, hj2, hj3, ?_⟩
  have hsz : size ≠ 0 := by omega
  show (if size = 0 then [] else _).getD i (-1) = _
  rw [if_neg hsz]
  have hrange_mem : ∀ x : ℕ, x ∈ List.range' 1 size ↔ 1 ≤ x ∧ x ≤ size := by
    intro x
    rw [List.mem_range']
    constructor
    · rintro ⟨k, hk, rfl⟩
      omega
    · rintro ⟨h1, h2⟩
      exact ⟨x - 1, by omega, by omega⟩
  refine assignFold_getD (hungarianState cost size).p i (List.range' 1 size)
    (List.replicate size (-1)) j (List.nodup_range' 1 size)
    ((hrange_mem j).mpr ⟨hj1, hj2⟩) hj3 ?_ (by rw [List.length_replicate]; exact hi)
  intro x hx hpe
  rw [hrange_mem] at hx
  exact hMI.p_inj x hx.1 hx.2 j hj1 hj2 (by omega) (by rw [hpe, hj3])

theorem getD_mem_of_lt {α : Type} (l : List α) (d : α) (i : ℕ) (h : i < l.length) :
    l.getD i d ∈ l := by
  rw [List.getD_eq_getElem l d h]
  exact List.getElem_mem h

theorem padSim_nonneg (simf : PyDict → PyDict → ℚ) (gold pred : List PyDict)
    (h0 : ∀ g ∈ gold, ∀ p ∈ pred, 0 ≤ simf g p) (i j : ℕ) :
    0 ≤ padSim simf gold pred i j := by
  unfold padSim
  split
  · next h =>
    rw [Bool.and_eq_true, decide_eq_true_eq, decide_eq_true_eq] at h
    exact h0 _ (getD_mem_of_lt gold [] i h.1) _ (getD_mem_of_lt pred [] j h.2)
  · exact le_rfl

theorem padSim_le_one (simf : PyDict → PyDict → ℚ) (gold pred : List PyDict)
    (h1 : ∀ g ∈ gold, ∀ p ∈ pred, simf g p ≤ 1) (i j : ℕ) :
    padSim simf gold pred i j ≤ 1 := by
  unfold padSim
  split
  · next h =>
    rw [Bool.and_eq_true, decide_eq_true_eq, decide_eq_true_eq] at h
    exact h1 _ (getD_mem_of_lt gold [] i h.1) _ (getD_mem_of_lt pred [] j h.2)
  · exact zero_le_one

theorem list_map_sum_range (g : ℕ → ℚ) (n : ℕ) :
    ((List.range n).map g).sum = ∑ i ∈ Finset.range n, g i := by
  induction n with
  | zero => rfl
  | succ n ih =>
    rw [List.range_succ, List.map_append, List.sum_append, Finset.sum_range_succ, ih]
    simp

theorem countP_range_card (q : ℕ → Bool) (n : ℕ) :
    List.countP q (List.range n) = ((Finset.range n).filter (fun i => q i = true)).card := by
  induction n with
  | zero => rfl
  | succ n ih =>
    rw [List.range_succ, List.countP_append, Finset.range_succ, Finset.filter_insert, ih]
    by_cases h : q n = true
    · rw [if_pos h, Finset.card_insert_of_not_mem (by simp)]
      simp [List.countP_cons, h]
    · rw [if_neg h]
      simp [List.countP_cons, h]

/-- Sums over `range size` are invariant under reindexing by an injection
of `range size` into itself. -/
theorem sum_reindex (size : ℕ) (f : ℕ → ℕ) (hm : ∀ j, j < size → f j < size)
    (hinj : ∀ j, j < size → ∀ j', j' < size → f j = f j' → j = j')
    (w : ℕ → ℚ) : ∑ j ∈ Finset.range size, w (f j) = ∑ i ∈ Finset.range size, w i := by
  have hinjOn : Set.InjOn f (Finset.range size) := by
    intro a ha b hb heq
    rw [Finset.coe_range, Set.mem_Iio] at ha hb
    exact hinj a ha b hb heq
  have himg : (Finset.range size).image f = Finset.range size := by
    refine Finset.eq_of_subset_of_card_le ?_ ?_
    · intro x hx
      obtain ⟨a, ha, rfl⟩ := Finset.mem_image.mp hx
      rw [Finset.mem_range] at ha ⊢
      exact hm a ha
    · rw [Finset.card_image_of_injOn hinjOn]
  calc ∑ j ∈ Finset.range size, w (f j)
      = ∑ x ∈ (Finset.range size).image f, w x :=
        (Finset.sum_image (fun a ha b hb =>
          hinjOn (by simpa using ha) (by simpa using hb))).symm
    _ = ∑ i ∈ Finset.range size, w i := by rw [himg]

/-- `_optimal_event_matches`, unfolded through `padSim` and `oemCost`. -/
theorem oem_unfold (simf : PyDict → PyDict → ℚ) (gold pred : List PyDict)
    (hsz : max gold.length pred.length ≠ 0) :
    optimal_event_matches simf gold pred = (List.range gold.length).map (fun i =>
      let j : ℤ := if i < (hungarian (oemCost simf gold pred)
          (max gold.length pred.length)).length
        then (hungarian (oemCost simf gold pred)
          (max gold.length pred.length)).getD i (-1) else -1
      if j < 0 || (pred.length : ℤ) ≤ j then (i, Option.none, (0 : ℚ))
      else (i, Option.some j.toNat, padSim simf gold pred i j.toNat)) := by
  show (if max gold.length pred.length = 0 then [] else _) = _
  rw [if_neg hsz]
  rfl

/-- The matched column of each row of `_hungarian`, as a function. -/
theorem hungarian_col (cost : ℕ → ℕ → ℚ) (size : ℕ)
    (hc : ∀ i j, i < size → j < size → 0 ≤ cost i j) (i : ℕ) (hi : i < size) :
    ((hungarian cost size).getD i (-1)).toNat < size
    ∧ (hungarianState cost size).p (((hungarian cost size).getD i (-1)).toNat + 1) = i + 1
    ∧ (hungarian cost size).getD i (-1) = ((((hungarian cost size).getD i (-1)).toNat : ℕ) : ℤ) := by
  obtain ⟨j, hj1, hj2, hp, hgd⟩ := hungarian_getD cost size hc i hi
  have ht : ((hungarian cost size).getD i (-1)).toNat = j - 1 := by
    rw [hgd]
    omega
  rw [ht]
  refine ⟨by omega, ?_, ?_⟩
  · rw [show j - 1 + 1 = j from by omega]
    exact hp
  · rw [hgd]
    omega

/-- The Hungarian matching of `_optimal_event_matches` collects at least
as much similarity as any valid one-to-one assignment. -/
theorem oem_total_ge (simf : PyDict → PyDict → ℚ) (gold pred : List PyDict)
    (h0 : ∀ g ∈ gold, ∀ p ∈ pred, 0 ≤ simf g p)
    (h1 : ∀ g ∈ gold, ∀ p ∈ pred, simf g p ≤ 1)
    (a : ℕ → Option ℕ) (ha : ValidAssign gold.length pred.length a) :
    assignTotal simf gold pred a ≤ matchedSimTotal (optimal_event_matches simf gold pred) := by
  classical
  by_cases hsz : max gold.length pred.length = 0
  · have hn0 : gold.length = 0 := by omega
    have hempty : optimal_event_matches simf gold pred = [] := by
      show (if max gold.length pred.length = 0 then [] else _) = []
      rw [if_pos hsz]
    have hassign : assignTotal simf gold pred a = 0 := by
      unfold assignTotal
      rw [hn0]
      rfl
    rw [hassign, hempty]
    exact le_rfl
  set n := gold.length with hn
  set m := pred.length with hm
  set size := max n m with hsize
  set cost := oemCost simf gold pred with hcost
  have hc : ∀ i j, i < size → j < size → 0 ≤ cost i j := by
    intro i j _ _
    have := padSim_le_one simf gold pred h1 i j
    show 0 ≤ 1 - padSim simf gold pred i j
    linarith
  set σ : ℕ → ℕ := fun i => ((hungarian cost size).getD i (-1)).toNat with hσ
  have hσf : ∀ i, i < size → σ i < size
      ∧ (hungarianState cost size).p (σ i + 1) = i + 1
      ∧ (hungarian cost size).getD i (-1) = ((σ i : ℕ) : ℤ) :=
    fun i hi => hungarian_col cost size hc i hi
  have hσinj : ∀ i, i < size → ∀ i', i' < size → σ i = σ i' → i = i' := by
    intro i hi i' hi' he
    have ha1 := (hσf i hi).2.1
    have ha2 := (hσf i' hi').2.1
    rw [he] at ha1
    rw [ha1] at ha2
    omega
  have hlen : (hungarian cost size).length = size := hungarian_length cost size
  have htot : matchedSimTotal (optimal_event_matches simf gold pred)
      = ∑ i ∈ Finset.range n, padSim simf gold pred i (σ i) := by
    rw [oem_unfold simf gold pred hsz]
    unfold matchedSimTotal
    rw [List.map_map, list_map_sum_range]
    refine Finset.sum_congr rfl ?_
    intro i hi
    rw [Finset.mem_range] at hi
    simp only [Function.comp]
    have hif : i < (hungarian cost size).length := by
      rw [hlen]
      omega
    rw [if_pos hif]
    obtain ⟨hσlt, hσp, hσgd⟩ := hσf i (by omega)
    rw [hσgd]
    by_cases hcase : m ≤ σ i
    · rw [if_pos (by simp; omega)]
      show (0 : ℚ) = padSim simf gold pred i (σ i)
      unfold padSim
      rw [if_neg (by simp; omega)]
    · rw [if_neg (by simp; omega)]
      show padSim simf gold pred i ((σ i : ℤ)).toNat = _
      rw [Int.toNat_natCast]
  have htot2 : ∑ i ∈ Finset.range n, padSim simf gold pred i (σ i)
      = ∑ i ∈ Finset.range size, padSim simf gold pred i (σ i) := by
    refine Finset.sum_subset (Finset.range_subset.mpr (by omega)) ?_
    intro i _ hni
    rw [Finset.mem_range] at hni
    unfold padSim
    rw [if_neg (by simp; omega)]
  have htot3 : ∑ i ∈ Finset.range size, padSim simf gold pred i (σ i)
      = ∑ j ∈ Finset.range size,
          padSim simf gold pred ((hungarianState cost size).p (j + 1) - 1) j := by
    calc ∑ i ∈ Finset.range size, padSim simf gold pred i (σ i)
        = ∑ i ∈ Finset.range size,
            padSim simf gold pred ((hungarianState cost size).p (σ i + 1) - 1) (σ i) := by
          refine Finset.sum_congr rfl ?_
          intro i hi
          rw [Finset.mem_range] at hi
          obtain ⟨hσlt, hσp, _⟩ := hσf i hi
          rw [hσp, Nat.add_sub_cancel]
      _ = _ := sum_reindex size σ (fun i hi => (hσf i hi).1) hσinj
          (fun j => padSim simf gold pred ((hungarianState cost size).p (j + 1) - 1) j)
  set A : Finset ℕ := (Finset.range m).filter
    (fun j => ∃ i, i < n ∧ a i = Option.some j) with hA
  set f : ℕ → ℕ := fun j =>
    if h : ∃ i, i < n ∧ a i = Option.some j then h.choose else 0 with hf
  have hfspec : ∀ j ∈ A, f j < n ∧ a (f j) = Option.some j := by
    intro j hj
    rw [hA, Finset.mem_filter] at hj
    obtain ⟨_, hex⟩ := hj
    show (if h : ∃ i, i < n ∧ a i = Option.some j then h.choose else 0) < n
      ∧ a (if h : ∃ i, i < n ∧ a i = Option.some j then h.choose else 0) = Option.some j
    rw [dif_pos hex]
    exact ⟨hex.choose_spec.1, hex.choose_spec.2⟩
  have hAsub : A ⊆ Finset.range size := by
    intro j hj
    rw [hA, Finset.mem_filter, Finset.mem_range] at hj
    exact Finset.mem_range.mpr (by omega)
  have hfm : ∀ j ∈ A, f j < size := by
    intro j hj
    have := (hfspec j hj).1
    omega
  have hfinj : ∀ j ∈ A, ∀ j' ∈ A, f j = f j' → j = j' := by
    intro j hj j' hj' he
    have hb1 := (hfspec j hj).2
    have hb2 := (hfspec j' hj').2
    rw [he] at hb1
    rw [hb1] at hb2
    exact Option.some.inj hb2
  obtain ⟨g, hgm, hginj, hgagree⟩ := extend_to_inj size A hAsub f hfm hfinj
  have hopt := hungarianState_opt cost size hc g hgm hginj
  have hcostsum : ∀ τ : ℕ → ℕ, ∑ j ∈ Finset.range size, cost (τ j) j
      = (size : ℚ) - ∑ j ∈ Finset.range size, padSim simf gold pred (τ j) j := by
    intro τ
    calc ∑ j ∈ Finset.range size, cost (τ j) j
        = ∑ j ∈ Finset.range size, ((1 : ℚ) - padSim simf gold pred (τ j) j) :=
          Finset.sum_congr rfl (fun j _ => rfl)
      _ = ∑ j ∈ Finset.range size, (1 : ℚ)
          - ∑ j ∈ Finset.range size, padSim simf gold pred (τ j) j :=
          Finset.sum_sub_distrib
      _ = (size : ℚ) - ∑ j ∈ Finset.range size, padSim simf gold pred (τ j) j := by
          rw [Finset.sum_const, Finset.card_range, nsmul_eq_mul, mul_one]
  have hkey : ∑ j ∈ Finset.range size, padSim simf gold pred (g j) j
      ≤ ∑ j ∈ Finset.range size,
          padSim simf gold pred ((hungarianState cost size).p (j + 1) - 1) j := by
    have e1 := hcostsum (fun j => (hungarianState cost size).p (j + 1) - 1)
    have e2 := hcostsum g
    rw [e1, e2] at hopt
    linarith
  have h1sum : ∑ j ∈ A, padSim simf gold pred (g j) j
      ≤ ∑ j ∈ Finset.range size, padSim simf gold pred (g j) j :=
    Finset.sum_le_sum_of_subset_of_nonneg hAsub
      (fun j _ _ => padSim_nonneg simf gold pred h0 (g j) j)
  have h2sum : assignTotal simf gold pred a
      = ∑ j ∈ A, padSim simf gold pred (g j) j := by
    unfold assignTotal
    rw [list_map_sum_range]
    set B : Finset ℕ := (Finset.range n).filter (fun i => (a i).isSome) with hB
    have hsplit : ∑ i ∈ Finset.range n, (match a i with
        | Option.none => (0 : ℚ)
        | Option.some j => simf (gold.getD i []) (pred.getD j []))
        = ∑ i ∈ B, (match a i with
        | Option.none => (0 : ℚ)
        | Option.some j => simf (gold.getD i []) (pred.getD j [])) := by
      symm
      refine Finset.sum_subset (Finset.filter_subset _ _) ?_
      intro i hi hni
      rw [hB, Finset.mem_filter] at hni
      cases haio : a i with
      | none => rfl
      | some v =>
        exact absurd ⟨hi, by rw [haio]; rfl⟩ hni
    rw [hsplit]
    refine Finset.sum_nbij' (fun i => (a i).getD 0) f ?_ ?_ ?_ ?_ ?_
    · intro i hi
      dsimp only
      rw [hB, Finset.mem_filter, Finset.mem_range] at hi
      obtain ⟨hin, hsome⟩ := hi
      obtain ⟨v, hv⟩ := Option.isSome_iff_exists.mp hsome
      rw [hv, Option.getD_some, hA, Finset.mem_filter, Finset.mem_range]
      exact ⟨ha.1 i v hin hv, ⟨i, hin, hv⟩⟩
    · intro j hj
      dsimp only
      rw [hB, Finset.mem_filter, Finset.mem_range]
      obtain ⟨hfn, hfa⟩ := hfspec j hj
      exact ⟨hfn, by rw [hfa]; rfl⟩
    · intro i hi
      dsimp only
      rw [hB, Finset.mem_filter, Finset.mem_range] at hi
      obtain ⟨hin, hsome⟩ := hi
      obtain ⟨v, hv⟩ := Option.isSome_iff_exists.mp hsome
      rw [hv, Option.getD_some]
      show (if h : ∃ i2, i2 < n ∧ a i2 = Option.some v then h.choose else 0) = i
      have hex : ∃ i2, i2 < n ∧ a i2 = Option.some v := ⟨i, hin, hv⟩
      rw [dif_pos hex]
      exact ha.2 hex.choose i v hex.choose_spec.1 hin hex.choose_spec.2 hv
    · intro j hj
      dsimp only
      rw [(hfspec j hj).2, Option.getD_some]
    · intro i hi
      rw [hB, Finset.mem_filter, Finset.mem_range] at hi
      obtain ⟨hin, hsome⟩ := hi
      obtain ⟨v, hv⟩ := Option.isSome_iff_exists.mp hsome
      dsimp only
      rw [hv, Option.getD_some]
      show simf (gold.getD i []) (pred.getD v []) = padSim simf gold pred (g v) v
      have hvA : v ∈ A := by
        rw [hA, Finset.mem_filter, Finset.mem_range]
        exact ⟨ha.1 i v hin hv, ⟨i, hin, hv⟩⟩
      have hfv : f v = i := by
        show (if h : ∃ i2, i2 < n ∧ a i2 = Option.some v then h.choose else 0) = i
        have hex : ∃ i2, i2 < n ∧ a i2 = Option.some v := ⟨i, hin, hv⟩
        rw [dif_pos hex]
        exact ha.2 hex.choose i v hex.choose_spec.1 hin hex.choose_spec.2 hv
      rw [hgagree _ hvA, hfv]
      unfold padSim
      rw [if_pos (by
        simp only [Bool.and_eq_true, decide_eq_true_eq]
        exact ⟨hin, ha.1 i v hin hv⟩)]
  rw [htot, htot2, htot3, h2sum]
  exact le_trans h1sum hkey

/-- Each gold event contributes at most `1` to the matched total. -/
theorem oem_total_le (simf : PyDict → PyDict → ℚ) (gold pred : List PyDict)
    (h1 : ∀ g ∈ gold, ∀ p ∈ pred, simf g p ≤ 1) :
    matchedSimTotal (optimal_event_matches simf gold pred) ≤ (gold.length : ℚ) := by
  by_cases hsz : max gold.length pred.length = 0
  · have hempty : optimal_event_matches simf gold pred = [] := by
      show (if max gold.length pred.length = 0 then [] else _) = []
      rw [if_pos hsz]
    rw [hempty]
    show (0 : ℚ) ≤ _
    positivity
  · rw [oem_unfold simf gold pred hsz]
    unfold matchedSimTotal
    rw [List.map_map, list_map_sum_range]
    refine le_trans (Finset.sum_le_sum (g := fun _ => (1 : ℚ)) ?_) ?_
    · intro i _
      simp only [Function.comp]
      split <;> split
      · show (0 : ℚ) ≤ 1
        norm_num
      · exact padSim_le_one simf gold pred h1 i _
      · show (0 : ℚ) ≤ 1
        norm_num
      · exact padSim_le_one simf gold pred h1 i _
    · rw [Finset.sum_const, Finset.card_range, nsmul_eq_mul, mul_one]

/-- Exactly `max 0 (n - m)` gold events are left unmatched. -/
theorem oem_none_count (simf : PyDict → PyDict → ℚ) (gold pred : List PyDict)
    (h1 : ∀ g ∈ gold, ∀ p ∈ pred, simf g p ≤ 1) :
    (optimal_event_matches simf gold pred).countP (fun t => t.2.1.isNone)
      = gold.length - pred.length := by
  classical
  by_cases hsz : max gold.length pred.length = 0
  · have hempty : optimal_event_matches simf gold pred = [] := by
      show (if max gold.length pred.length = 0 then [] else _) = []
      rw [if_pos hsz]
    rw [hempty]
    show 0 = gold.length - pred.length
    omega
  set n := gold.length with hn
  set m := pred.length with hm
  set size := max n m with hsize
  set cost := oemCost simf gold pred with hcost
  have hc : ∀ i j, i < size → j < size → 0 ≤ cost i j := by
    intro i j _ _
    have := padSim_le_one simf gold pred h1 i j
    show 0 ≤ 1 - padSim simf gold pred i j
    linarith
  set σ : ℕ → ℕ := fun i => ((hungarian cost size).getD i (-1)).toNat with hσ
  have hσf : ∀ i, i < size → σ i < size
      ∧ (hungarianState cost size).p (σ i + 1) = i + 1
      ∧ (hungarian cost size).getD i (-1) = ((σ i : ℕ) : ℤ) :=
    fun i hi => hungarian_col cost size hc i hi
  have hlen : (hungarian cost size).length = size := hungarian_length cost size
  rw [oem_unfold simf gold pred hsz, List.countP_map]
  have hpt : List.countP
      ((fun t : ℕ × Option ℕ × ℚ => (t.2.1).isNone) ∘ (fun i =>
        let j : ℤ := if i < (hungarian (oemCost simf gold pred)
            (max gold.length pred.length)).length
          then (hungarian (oemCost simf gold pred)
            (max gold.length pred.length)).getD i (-1) else -1
        if j < 0 || (pred.length : ℤ) ≤ j then (i, Option.none, (0 : ℚ))
        else (i, Option.some j.toNat, padSim simf gold pred i j.toNat)))
      (List.range n)
      = List.countP (fun i => decide (m ≤ σ i)) (List.range n) := by
    refine List.countP_congr ?_
    intro i hi
    rw [List.mem_range] at hi
    simp only [Function.comp]
    have hif : i < (hungarian cost size).length := by
      rw [hlen]
      omega
    rw [if_pos hif]
    obtain ⟨hσlt, hσp, hσgd⟩ := hσf i (by omega)
    rw [hσgd]
    by_cases hcase : m ≤ σ i
    · rw [if_pos (by simp; omega)]
      simp [hcase]
    · rw [if_neg (by simp; omega)]
      simp [hcase]
  rw [hpt, countP_range_card]
  by_cases hmn : n ≤ m
  · have hms : size = m := max_eq_right hmn
    have hempty2 : ∀ i ∈ Finset.range n, ¬(decide (m ≤ σ i) = true) := by
      intro i hi
      rw [Finset.mem_range] at hi
      rw [decide_eq_true_eq]
      have := (hσf i (by omega)).1
      omega
    rw [Finset.filter_false_of_mem hempty2, Finset.card_empty]
    omega
  · have hns : size = n := max_eq_left (by omega)
    have hMI := hungarianState_inv cost size hc
    have hpos := hungarianState_p_pos cost size hc
    have hστ : ∀ j, j < m → (hungarianState cost size).p (j + 1) - 1 < size
        ∧ σ ((hungarianState cost size).p (j + 1) - 1) = j := by
      intro j hj
      have hj1 : j + 1 ≤ size := by omega
      have hpp := hpos (j + 1) (by omega) hj1
      have hτ : (hungarianState cost size).p (j + 1) - 1 < size := by omega
      refine ⟨hτ, ?_⟩
      obtain ⟨hσlt, hσp, _⟩ := hσf ((hungarianState cost size).p (j + 1) - 1) hτ
      have hpe : (hungarianState cost size).p (σ ((hungarianState cost size).p (j + 1) - 1) + 1)
          = (hungarianState cost size).p (j + 1) := by
        rw [hσp]
        omega
      have := hMI.p_inj _ (by omega) (by omega) (j + 1) (by omega) hj1
        (by omega) hpe
      omega
    have hm_card : ((Finset.range n).filter (fun i => σ i < m)).card = m := by
      conv_rhs => rw [← Finset.card_range m]
      refine Finset.card_nbij' σ
        (fun j => (hungarianState cost size).p (j + 1) - 1) ?_ ?_ ?_ ?_
      · intro i hi
        rw [Finset.mem_filter] at hi
        exact Finset.mem_range.mpr hi.2
      · intro j hj
        rw [Finset.mem_range] at hj
        dsimp only
        rw [Finset.mem_filter, Finset.mem_range]
        obtain ⟨hτ, hστj⟩ := hστ j hj
        rw [hστj]
        exact ⟨by omega, hj⟩
      · intro i hi
        rw [Finset.mem_filter, Finset.mem_range] at hi
        obtain ⟨hσlt, hσp, _⟩ := hσf i (by omega)
        dsimp only
        rw [hσp]
        omega
      · intro j hj
        rw [Finset.mem_range] at hj
        exact (hστ j hj).2
    have hcomp := Finset.filter_card_add_filter_neg_card_eq_card
      (s := Finset.range n) (p := fun i => decide (m ≤ σ i) = true)
    rw [Finset.card_range] at hcomp
    have hfe : (Finset.range n).filter (fun i => ¬(decide (m ≤ σ i) = true))
        = (Finset.range n).filter (fun i => σ i < m) := by
      refine Finset.filter_congr ?_
      intro i _
      rw [decide_eq_true_eq]
      constructor
      · intro h
        omega
      · intro h h2
        omega
    rw [hfe, hm_card] at hcomp
    omega

theorem flmStep_ok (prev : List (ℕ × ℕ)) (alo blo ahi bhi i : ℕ)
    (hprev : ∀ e ∈ prev, e.2 ≤ i - alo ∧ e.2 ≤ e.1 + 1 - blo)
    (hi1 : alo ≤ i) (hi2 : i < ahi)
    (s : (ℕ × ℕ × ℕ) × List (ℕ × ℕ)) (hs1 : BestOK alo blo ahi bhi s.1)
    (hs2 : ∀ e ∈ s.2, e.2 ≤ i + 1 - alo ∧ e.2 ≤ e.1 + 1 - blo)
    (j : ℕ) (hj1 : blo ≤ j) (hj2 : j < bhi) :
    BestOK alo blo ahi bhi (flmStep prev i s j).1
    ∧ ∀ e ∈ (flmStep prev i s j).2, e.2 ≤ i + 1 - alo ∧ e.2 ≤ e.1 + 1 - blo := by
  have hk : (if j = 0 then 0 else j2lenGet prev (j - 1)) ≤ i - alo
      ∧ (if j = 0 then 0 else j2lenGet prev (j - 1)) ≤ j - blo := by
    by_cases hj0 : j = 0
    · rw [if_pos hj0]
      omega
    · rw [if_neg hj0]
      unfold j2lenGet
      cases hf : prev.find? (fun e => e.1 = j - 1) with
      | none =>
        dsimp only
        omega
      | some e =>
        dsimp only
        have hmem := List.mem_of_find?_eq_some hf
        have hkey : e.1 = j - 1 := by
          have := List.find?_some hf
          rwa [decide_eq_true_eq] at this
        have hb := hprev e hmem
        rw [hkey] at hb
        omega
  unfold flmStep
  dsimp only
  set k := (if j = 0 then 0 else j2lenGet prev (j - 1)) + 1 with hkdef
  by_cases hbig : k > s.1.2.2
  · rw [if_pos hbig]
    constructor
    · show alo ≤ i + 1 - k ∧ blo ≤ j + 1 - k
        ∧ (i + 1 - k) + k ≤ ahi ∧ (j + 1 - k) + k ≤ bhi
      omega
    intro e he
    rcases List.mem_cons.mp he with h | h
    · rw [h]
      dsimp only
      omega
    · exact hs2 e h
  · rw [if_neg hbig]
    refine ⟨hs1, ?_⟩
    intro e he
    rcases List.mem_cons.mp he with h | h
    · rw [h]
      dsimp only
      omega
    · exact hs2 e h

theorem flmRow_ok (a b : List Char) (alo blo ahi bhi i : ℕ)
    (hi1 : alo ≤ i) (hi2 : i < ahi)
    (acc : (ℕ × ℕ × ℕ) × List (ℕ × ℕ)) (hbest : BestOK alo blo ahi bhi acc.1)
    (hrow : ∀ e ∈ acc.2, e.2 ≤ i - alo ∧ e.2 ≤ e.1 + 1 - blo) :
    BestOK alo blo ahi bhi (flmRow a b blo bhi acc i).1
    ∧ ∀ e ∈ (flmRow a b blo bhi acc i).2, e.2 ≤ i + 1 - alo ∧ e.2 ≤ e.1 + 1 - blo := by
  unfold flmRow
  dsimp only
  set js := ((b2jPositions b (a.getD i ' ')).filter
    (fun j => blo ≤ j)).takeWhile (fun j => j < bhi) with hjs
  have hjsmem : ∀ j ∈ js, blo ≤ j ∧ j < bhi := by
    intro j hj
    constructor
    · have hjf := (List.takeWhile_sublist (fun j => decide (j < bhi))).mem hj
      have := List.of_mem_filter hjf
      rwa [decide_eq_true_eq] at this
    · have := List.mem_takeWhile_imp hj
      rwa [decide_eq_true_eq] at this
  have main : ∀ (l : List ℕ), (∀ j ∈ l, blo ≤ j ∧ j < bhi) →
      ∀ s : (ℕ × ℕ × ℕ) × List (ℕ × ℕ), BestOK alo blo ahi bhi s.1 →
      (∀ e ∈ s.2, e.2 ≤ i + 1 - alo ∧ e.2 ≤ e.1 + 1 - blo) →
      BestOK alo blo ahi bhi (l.foldl (flmStep acc.2 i) s).1
      ∧ ∀ e ∈ (l.foldl (flmStep acc.2 i) s).2,
          e.2 ≤ i + 1 - alo ∧ e.2 ≤ e.1 + 1 - blo := by
    intro l
    induction l with
    | nil =>
      intro _ s hs1 hs2
      exact ⟨hs1, hs2⟩
    | cons x xs ih =>
      intro hmem s hs1 hs2
      rw [List.foldl_cons]
      obtain ⟨hx1, hx2⟩ := hmem x (List.mem_cons_self _ _)
      obtain ⟨hb, hr⟩ := flmStep_ok acc.2 alo blo ahi bhi i hrow hi1 hi2 s hs1 hs2 x hx1 hx2
      exact ih (fun j hj => hmem j (List.mem_cons_of_mem _ hj)) _ hb hr
  exact main js hjsmem (acc.1, []) hbest (fun e he => absurd he (List.not_mem_nil _))

theorem flmDP_ok (a b : List Char) (alo blo ahi bhi : ℕ) :
    ∀ (len i0 : ℕ) (acc : (ℕ × ℕ × ℕ) × List (ℕ × ℕ)), alo ≤ i0 → i0 + len ≤ ahi →
    BestOK alo blo ahi bhi acc.1 →
    (∀ e ∈ acc.2, e.2 ≤ i0 - alo ∧ e.2 ≤ e.1 + 1 - blo) →
    BestOK alo blo ahi bhi ((List.range' i0 len).foldl (flmRow a b blo bhi) acc).1 := by
  intro len
  induction len with
  | zero =>
    intro i0 acc _ _ hb _
    exact hb
  | succ len ih =>
    intro i0 acc h1 h2 hb hr
    rw [List.range'_succ, List.foldl_cons]
    obtain ⟨hb2, hr2⟩ := flmRow_ok a b alo blo ahi bhi i0 h1 (by omega) acc hb hr
    refine ih (i0 + 1) _ (by omega) (by omega) hb2 ?_
    intro e he
    have := hr2 e he
    omega

theorem flmExtendBack_ok (a b : List Char) (alo blo ahi bhi : ℕ) :
    ∀ (fuel : ℕ) (best : ℕ × ℕ × ℕ), BestOK alo blo ahi bhi best →
    BestOK alo blo ahi bhi (flmExtendBack a b alo blo fuel best) := by
  intro fuel
  induction fuel with
  | zero =>
    intro best hb
    exact hb
  | succ fuel ih =>
    intro best hb
    obtain ⟨bi, bj, bk⟩ := best
    have hb2 : alo ≤ bi ∧ blo ≤ bj ∧ bi + bk ≤ ahi ∧ bj + bk ≤ bhi := hb
    unfold flmExtendBack
    split
    · next h =>
      rw [Bool.and_eq_true, Bool.and_eq_true, decide_eq_true_eq, decide_eq_true_eq] at h
      refine ih _ ?_
      show alo ≤ bi - 1 ∧ blo ≤ bj - 1
        ∧ (bi - 1) + (bk + 1) ≤ ahi ∧ (bj - 1) + (bk + 1) ≤ bhi
      omega
    · exact hb

theorem flmExtendFwd_ok (a b : List Char) (alo blo ahi bhi : ℕ) :
    ∀ (fuel : ℕ) (best : ℕ × ℕ × ℕ), BestOK alo blo ahi bhi best →
    BestOK alo blo ahi bhi (flmExtendFwd a b ahi bhi fuel best) := by
  intro fuel
  induction fuel with
  | zero =>
    intro best hb
    exact hb
  | succ fuel ih =>
    intro best hb
    obtain ⟨bi, bj, bk⟩ := best
    have hb2 : alo ≤ bi ∧ blo ≤ bj ∧ bi + bk ≤ ahi ∧ bj + bk ≤ bhi := hb
    unfold flmExtendFwd
    split
    · next h =>
      rw [Bool.and_eq_true, Bool.and_eq_true, decide_eq_true_eq, decide_eq_true_eq] at h
      refine ih _ ?_
      show alo ≤ bi ∧ blo ≤ bj ∧ bi + (bk + 1) ≤ ahi ∧ bj + (bk + 1) ≤ bhi
      omega
    · exact hb

/-- The block found by `find_longest_match` lies inside the window. -/
theorem findLongestMatch_ok (a b : List Char) (alo ahi blo bhi : ℕ)
    (h1 : alo ≤ ahi) (h2 : blo ≤ bhi) :
    BestOK alo blo ahi bhi (findLongestMatch a b alo ahi blo bhi) := by
  unfold findLongestMatch
  refine flmExtendFwd_ok a b alo blo ahi bhi _ _ (flmExtendBack_ok a b alo blo ahi bhi _ _ ?_)
  refine flmDP_ok a b alo blo ahi bhi (ahi - alo) alo ((alo, blo, 0), []) le_rfl (by omega)
    ?_ ?_
  · show alo ≤ alo ∧ blo ≤ blo ∧ alo + 0 ≤ ahi ∧ blo + 0 ≤ bhi
    omega
  · intro e he
    exact absurd he (List.not_mem_nil _)

/-- The matching-block total never exceeds either window width. -/
theorem matchTotalFuel_le (a b : List Char) :
    ∀ (fuel alo ahi blo bhi : ℕ), alo ≤ ahi → blo ≤ bhi →
    matchTotalFuel a b fuel alo ahi blo bhi ≤ ahi - alo
    ∧ matchTotalFuel a b fuel alo ahi blo bhi ≤ bhi - blo := by
  intro fuel
  induction fuel with
  | zero =>
    intro alo ahi blo bhi _ _
    exact ⟨Nat.zero_le _, Nat.zero_le _⟩
  | succ fuel ih =>
    intro alo ahi blo bhi h1 h2
    obtain ⟨hm1, hm2, hm3, hm4⟩ := findLongestMatch_ok a b alo ahi blo bhi h1 h2
    show (if (findLongestMatch a b alo ahi blo bhi).2.2 = 0 then 0 else _) ≤ _
      ∧ (if (findLongestMatch a b alo ahi blo bhi).2.2 = 0 then 0 else _) ≤ _
    by_cases hz : (findLongestMatch a b alo ahi blo bhi).2.2 = 0
    · rw [if_pos hz]
      exact ⟨Nat.zero_le _, Nat.zero_le _⟩
    · rw [if_neg hz]
      have hsub1 := ih alo (findLongestMatch a b alo ahi blo bhi).1 blo
        (findLongestMatch a b alo ahi blo bhi).2.1 hm1 hm2
      have hsub2 := ih ((findLongestMatch a b alo ahi blo bhi).1
          + (findLongestMatch a b alo ahi blo bhi).2.2) ahi
        ((findLongestMatch a b alo ahi blo bhi).2.1
          + (findLongestMatch a b alo ahi blo bhi).2.2) bhi (by omega) (by omega)
      omega

/-- The full matching total is at most each string length. -/
theorem matchTotal_le (a b : List Char) :
    matchTotal a b ≤ a.length ∧ matchTotal a b ≤ b.length := by
  have := matchTotalFuel_le a b (a.length + 1) 0 a.length 0 b.length
    (Nat.zero_le _) (Nat.zero_le _)
  unfold matchTotal
  omega

theorem ratioOf_nonneg (a b : List Char) : 0 ≤ ratioOf a b := by
  unfold ratioOf
  split
  · norm_num
  · apply div_nonneg
    · positivity
    · positivity

theorem ratioOf_le_one (a b : List Char) : ratioOf a b ≤ 1 := by
  unfold ratioOf
  split
  · exact le_rfl
  · next h =>
    have hpos : (0 : ℚ) < (a.length : ℚ) + (b.length : ℚ) := by
      have := Nat.pos_of_ne_zero h
      exact_mod_cast this
    rw [div_le_one hpos]
    have := matchTotal_le a b
    have hcast : ((matchTotal a b : ℕ) : ℚ) ≤ (a.length : ℚ)
        ∧ ((matchTotal a b : ℕ) : ℚ) ≤ (b.length : ℚ) := by
      constructor <;> exact_mod_cast (by omega)
    linarith

theorem string_score_nonneg (gold pred : PyVal) : 0 ≤ string_score gold pred := by
  unfold string_score
  dsimp only
  split
  · norm_num
  · split
    · norm_num
    · split
      · norm_num
      · exact ratioOf_nonneg _ _

theorem string_score_le_one (gold pred : PyVal) : string_score gold pred ≤ 1 := by
  unfold string_score
  dsimp only
  split
  · exact le_rfl
  · split
    · norm_num
    · split
      · exact le_rfl
      · exact ratioOf_le_one _ _

theorem exact_score_nonneg (gold pred : PyVal) : 0 ≤ exact_score gold pred := by
  unfold exact_score
  dsimp only
  split
  · norm_num
  · split
    · norm_num
    · split
      · norm_num
      · norm_num

theorem exact_score_le_one (gold pred : PyVal) : exact_score gold pred ≤ 1 := by
  unfold exact_score
  dsimp only
  split
  · exact le_rfl
  · split
    · norm_num
    · split
      · exact le_rfl
      · norm_num

theorem event_similarity_nonneg (goldEvent predEvent : PyDict) :
    0 ≤ event_similarity goldEvent predEvent := by
  unfold event_similarity
  have e1 := exact_score_nonneg (dictGet goldEvent "date") (dictGet predEvent "date")
  have e2 := exact_score_nonneg (dictGet goldEvent "time") (dictGet predEvent "time")
  have e3 := string_score_nonneg (dictGet goldEvent "venue") (dictGet predEvent "venue")
  have e4 := string_score_nonneg (dictGet goldEvent "city") (dictGet predEvent "city")
  have e5 := string_score_nonneg (dictGet goldEvent "province") (dictGet predEvent "province")
  have e6 := exact_score_nonneg (dictGet goldEvent "country") (dictGet predEvent "country")
  have e7 := string_score_nonneg (dictGet goldEvent "event_name") (dictGet predEvent "event_name")
  have e8 := string_score_nonneg (dictGet goldEvent "ticket_info") (dictGet predEvent "ticket_info")
  have e9 := exact_score_nonneg (dictGet goldEvent "status") (dictGet predEvent "status")
  linarith

theorem event_similarity_le_one (goldEvent predEvent : PyDict) :
    event_similarity goldEvent predEvent ≤ 1 := by
  unfold event_similarity
  have e1 := exact_score_le_one (dictGet goldEvent "date") (dictGet predEvent "date")
  have e2 := exact_score_le_one (dictGet goldEvent "time") (dictGet predEvent "time")
  have e3 := string_score_le_one (dictGet goldEvent "venue") (dictGet predEvent "venue")
  have e4 := string_score_le_one (dictGet goldEvent "city") (dictGet predEvent "city")
  have e5 := string_score_le_one (dictGet goldEvent "province") (dictGet predEvent "province")
  have e6 := exact_score_le_one (dictGet goldEvent "country") (dictGet predEvent "country")
  have e7 := string_score_le_one (dictGet goldEvent "event_name") (dictGet predEvent "event_name")
  have e8 := string_score_le_one (dictGet goldEvent "ticket_info") (dictGet predEvent "ticket_info")
  have e9 := exact_score_le_one (dictGet goldEvent "status") (dictGet predEvent "status")
  linarith

theorem event_similarity_core_nonneg (goldEvent predEvent : PyDict) :
    0 ≤ event_similarity_core goldEvent predEvent := by
  unfold event_similarity_core
  have e1 := exact_score_nonneg (dictGet goldEvent "date") (dictGet predEvent "date")
  have e3 := string_score_nonneg (dictGet goldEvent "venue") (dictGet predEvent "venue")
  have e4 := string_score_nonneg (dictGet goldEvent "city") (dictGet predEvent "city")
  have e5 := string_score_nonneg (dictGet goldEvent "province") (dictGet predEvent "province")
  have e6 := exact_score_nonneg (dictGet goldEvent "country") (dictGet predEvent "country")
  linarith

theorem event_similarity_core_le_one (goldEvent predEvent : PyDict) :
    event_similarity_core goldEvent predEvent ≤ 1 := by
  unfold event_similarity_core
  have e1 := exact_score_le_one (dictGet goldEvent "date") (dictGet predEvent "date")
  have e3 := string_score_le_one (dictGet goldEvent "venue") (dictGet predEvent "venue")
  have e4 := string_score_le_one (dictGet goldEvent "city") (dictGet predEvent "city")
  have e5 := string_score_le_one (dictGet goldEvent "province") (dictGet predEvent "province")
  have e6 := exact_score_le_one (dictGet goldEvent "country") (dictGet predEvent "country")
  linarith

theorem string_score_self (v : PyVal) : string_score v v = 1 := by
  unfold string_score
  dsimp only
  by_cases he : (normalize_text v).isEmpty = true
  · rw [if_pos (by rw [he]; rfl)]
  · rw [if_neg (by rw [Bool.and_eq_true]; exact fun h => he h.1),
      if_neg (by rw [Bool.or_eq_true]; exact fun h => he (h.elim id id)), if_pos rfl]

theorem exact_score_self (v : PyVal) : exact_score v v = 1 := by
  unfold exact_score
  dsimp only
  by_cases he : (normalize_text v).isEmpty = true
  · rw [if_pos (by rw [he]; rfl)]
  · rw [if_neg (by rw [Bool.and_eq_true]; exact fun h => he h.1),
      if_neg (by rw [Bool.or_eq_true]; exact fun h => he (h.elim id id)), if_pos rfl]

theorem event_similarity_self (e : PyDict) : event_similarity e e = 1 := by
  unfold event_similarity
  simp only [string_score_self, exact_score_self]
  norm_num

theorem event_similarity_core_self (e : PyDict) : event_similarity_core e e = 1 := by
  unfold event_similarity_core
  simp only [string_score_self, exact_score_self]
  norm_num

theorem score_top_level_self (g : PyDict) :
    score_top_level (PyVal.pydict g) (PyVal.pydict g) = 1 := by
  show (0.35 * string_score (dictGet g "artist_name") (dictGet g "artist_name")
      + 0.15 * exact_score (PyVal.pystr (normalize_handle (dictGet g "instagram_handle")))
          (PyVal.pystr (normalize_handle (dictGet g "instagram_handle")))
      + 0.2 * string_score (dictGet g "tour_name") (dictGet g "tour_name")
      + 0.1 * string_score (dictGet g "contact_info") (dictGet g "contact_info")
      + 0.2 * exact_score (dictGet g "source_month") (dictGet g "source_month"))
      / (0.35 + 0.15 + 0.2 + 0.1 + 0.2) = 1
  simp only [string_score_self, exact_score_self]
  norm_num

/-- The first component of the aggregation fold of `_match_events` is the
running similarity total. -/
theorem foldl_first_total (step : (ℚ × ℚ × ℚ) → (ℕ × Option ℕ × ℚ) → (ℚ × ℚ × ℚ))
    (hstep : ∀ acc m, (step acc m).1 = acc.1 + m.2.2) :
    ∀ (l : List (ℕ × Option ℕ × ℚ)) (acc : ℚ × ℚ × ℚ),
    (l.foldl step acc).1 = acc.1 + matchedSimTotal l := by
  intro l
  induction l with
  | nil =>
    intro acc
    show acc.1 = acc.1 + ([] : List ℚ).sum
    simp
  | cons m l ih =>
    intro acc
    rw [List.foldl_cons, ih, hstep]
    show acc.1 + m.2.2 + matchedSimTotal l = acc.1 + ((m :: l).map (fun t => t.2.2)).sum
    rw [List.map_cons, List.sum_cons]
    show _ = acc.1 + (m.2.2 + matchedSimTotal l)
    ring

/-- `_match_events`'s event-match component is the matched similarity
total averaged over the gold events. -/
theorem match_events_first (simf : PyDict → PyDict → ℚ) (gold pred : List PyDict)
    (hg : gold ≠ []) :
    (match_events simf gold pred).1
      = matchedSimTotal (optimal_event_matches simf gold pred) / (gold.length : ℚ) := by
  have hge : gold.isEmpty = false := by
    cases gold with
    | nil => exact absurd rfl hg
    | cons x xs => rfl
  have hlen : gold.length ≠ 0 := by
    cases gold with
    | nil => exact absurd rfl hg
    | cons x xs => simp
  unfold match_events
  rw [hge]
  dsimp only
  rw [if_neg (by rw [Bool.false_and]; exact Bool.noConfusion), if_neg Bool.noConfusion,
    if_neg hlen]
  dsimp only
  rw [foldl_first_total _ ?_ (optimal_event_matches simf gold pred) (0, 0, 0)]
  · show (0 + matchedSimTotal (optimal_event_matches simf gold pred)) / _ = _
    rw [zero_add]
  · intro acc m
    rcases m with ⟨i, o, q⟩
    cases o with
    | none => rfl
    | some j => rfl

/-- C3 (amended): scoring a strict-valid record against itself gives
`event_match_score = 1` and `top_level_score = 1`; `missing_field_rate = 0`
holds additionally whenever every event has non-blank date, venue, city
and province (strict validity alone permits null values there, which count
as missing). -/
theorem c3_self_identity (R : PyVal) (hval : schema_valid R true = true) :
    (match_events event_similarity (event_list R) (event_list R)).1 = 1
    ∧ score_top_level R R = 1
    ∧ ((∀ e ∈ event_list R, is_blank (dictGet e "date") = false
          ∧ is_blank (dictGet e "venue") = false
          ∧ is_blank (dictGet e "city") = false
          ∧ is_blank (dictGet e "province") = false) →
        missing_field_rate (event_list R) (event_list R).length = 0) := by
  refine ⟨?_, ?_, ?_⟩
  · by_cases hg : event_list R = []
    · rw [hg]
      rfl
    · rw [match_events_first event_similarity (event_list R) (event_list R) hg]
      have hnpos : 0 < (event_list R).length := List.length_pos.mpr hg
      have h0 : ∀ g ∈ event_list R, ∀ p ∈ event_list R, 0 ≤ event_similarity g p :=
        fun g _ p _ => event_similarity_nonneg g p
      have h1 : ∀ g ∈ event_list R, ∀ p ∈ event_list R, event_similarity g p ≤ 1 :=
        fun g _ p _ => event_similarity_le_one g p
      have hva : ValidAssign (event_list R).length (event_list R).length
          (fun i => if i < (event_list R).length then Option.some i else Option.none) := by
        constructor
        · intro i j hi he
          dsimp only at he
          rw [if_pos hi] at he
          rw [← Option.some.inj he]
          exact hi
        · intro i i' j hi hi' he he'
          dsimp only at he he'
          rw [if_pos hi] at he
          rw [if_pos hi'] at he'
          have e1 := Option.some.inj he
          have e2 := Option.some.inj he'
          omega
      have hge := oem_total_ge event_similarity (event_list R) (event_list R) h0 h1 _ hva
      have hle := oem_total_le event_similarity (event_list R) (event_list R) h1
      have hterm : ∀ i ∈ Finset.range (event_list R).length,
          (match (if i < (event_list R).length then Option.some i else Option.none) with
            | Option.none => (0 : ℚ)
            | Option.some j => event_similarity ((event_list R).getD i [])
                ((event_list R).getD j [])) = 1 := by
        intro i hi
        rw [Finset.mem_range] at hi
        rw [if_pos hi]
        show event_similarity ((event_list R).getD i []) ((event_list R).getD i []) = 1
        exact event_similarity_self _
      have hat : assignTotal event_similarity (event_list R) (event_list R)
          (fun i => if i < (event_list R).length then Option.some i else Option.none)
          = ((event_list R).length : ℚ) := by
        unfold assignTotal
        rw [list_map_sum_range]
        refine Eq.trans (Finset.sum_congr rfl hterm) ?_
        rw [Finset.sum_const, Finset.card_range, nsmul_eq_mul, mul_one]
      rw [hat] at hge
      have heq : matchedSimTotal
          (optimal_event_matches event_similarity (event_list R) (event_list R))
          = ((event_list R).length : ℚ) := le_antisymm hle hge
      rw [heq, div_self (Nat.cast_ne_zero.mpr (by omega))]
  · cases R with
    | pydict g => exact score_top_level_self g
    | pynone => exact Bool.noConfusion hval
    | pybool b => exact Bool.noConfusion hval
    | pyint n => exact Bool.noConfusion hval
    | pyfloat q => exact Bool.noConfusion hval
    | pystr s => exact Bool.noConfusion hval
    | pylist xs => exact Bool.noConfusion hval
  · intro hnb
    unfold missing_field_rate
    by_cases hz : (event_list R).length = 0
    · rw [if_pos hz]
    · rw [if_neg hz]
      have hne : (event_list R).isEmpty = false := by
        cases hev : event_list R with
        | nil => exact absurd (by rw [hev]; rfl) hz
        | cons x xs => rfl
      rw [hne]
      dsimp only
      rw [if_neg (by omega : ¬(event_list R).length * 4 = 0), if_neg Bool.noConfusion]
      have hfold : ∀ (l : List PyDict),
          (∀ e ∈ l, (["date", "venue", "city", "province"].countP
            (fun f => is_blank (dictGet e f))) = 0) →
          ∀ acc : ℕ, l.foldl (fun acc event => acc
            + (["date", "venue", "city", "province"].countP
              (fun f => is_blank (dictGet event f)))) acc = acc := by
        intro l
        induction l with
        | nil =>
          intro _ acc
          rfl
        | cons e l ih =>
          intro hzz acc
          rw [List.foldl_cons, hzz e (List.mem_cons_self _ _), Nat.add_zero]
          exact ih (fun x hx => hzz x (List.mem_cons_of_mem _ hx)) acc
      rw [hfold (event_list R) ?_ 0]
      · norm_num
      · intro e he
        obtain ⟨h1, h2, h3, h4⟩ := hnb e he
        rw [List.countP_eq_zero]
        intro f hf
        simp only [List.mem_cons, List.not_mem_nil, or_false] at hf
        rcases hf with rfl | rfl | rfl | rfl
        · rw [h1]
          exact Bool.noConfusion
        · rw [h2]
          exact Bool.noConfusion
        · rw [h3]
          exact Bool.noConfusion
        · rw [h4]
          exact Bool.noConfusion

/-- C3 (amended) holds at the concrete strict-valid record `selfRecord`. -/
theorem c3_self_identity_witness :
    schema_valid selfRecord true = true
    ∧ ((match_events event_similarity (event_list selfRecord) (event_list selfRecord)).1 = 1
      ∧ score_top_level selfRecord selfRecord = 1
      ∧ ((∀ e ∈ event_list selfRecord, is_blank (dictGet e "date") = false
            ∧ is_blank (dictGet e "venue") = false
            ∧ is_blank (dictGet e "city") = false
            ∧ is_blank (dictGet e "province") = false) →
          missing_field_rate (event_list selfRecord) (event_list selfRecord).length = 0)) :=
  ⟨by decide, c3_self_identity selfRecord (by decide)⟩

/-- C1: `_optimal_event_matches` (the Hungarian routine on the padded
square cost matrix `1 - similarity`) maximizes total similarity over all
valid one-to-one assignments of gold events to predicted events, and
leaves exactly `max 0 (n - m)` gold events unmatched. -/
theorem c1_matching_optimality (simf : PyDict → PyDict → ℚ) (gold pred : List PyDict)
    (h0 : ∀ g ∈ gold, ∀ p ∈ pred, 0 ≤ simf g p)
    (h1 : ∀ g ∈ gold, ∀ p ∈ pred, simf g p ≤ 1)
    (a : ℕ → Option ℕ) (ha : ValidAssign gold.length pred.length a) :
    assignTotal simf gold pred a ≤ matchedSimTotal (optimal_event_matches simf gold pred)
    ∧ (optimal_event_matches simf gold pred).countP (fun t => t.2.1.isNone)
        = gold.length - pred.length :=
  ⟨oem_total_ge simf gold pred h0 h1 a ha, oem_none_count simf gold pred h1⟩

/-- C1 holds at a concrete instance. -/
theorem c1_matching_optimality_witness :
    (∀ g ∈ ([[], []] : List PyDict), ∀ p ∈ ([[]] : List PyDict),
      0 ≤ (fun (_ _ : PyDict) => (1 : ℚ) / 2) g p)
    ∧ (∀ g ∈ ([[], []] : List PyDict), ∀ p ∈ ([[]] : List PyDict),
      (fun (_ _ : PyDict) => (1 : ℚ) / 2) g p ≤ 1)
    ∧ ValidAssign ([[], []] : List PyDict).length ([[]] : List PyDict).length
        (fun i => if i = 0 then Option.some 0 else Option.none)
    ∧ (assignTotal (fun _ _ => (1 : ℚ) / 2) [[], []] [[]]
          (fun i => if i = 0 then Option.some 0 else Option.none)
        ≤ matchedSimTotal (optimal_event_matches (fun _ _ => (1 : ℚ) / 2) [[], []] [[]])
      ∧ (optimal_event_matches (fun _ _ => (1 : ℚ) / 2) [[], []] [[]]).countP
          (fun t => t.2.1.isNone)
          = ([[], []] : List PyDict).length - ([[]] : List PyDict).length) := by
  have hh0 : ∀ g ∈ ([[], []] : List PyDict), ∀ p ∈ ([[]] : List PyDict),
      0 ≤ (fun (_ _ : PyDict) => (1 : ℚ) / 2) g p := by
    intro g _ p _
    norm_num
  have hh1 : ∀ g ∈ ([[], []] : List PyDict), ∀ p ∈ ([[]] : List PyDict),
      (fun (_ _ : PyDict) => (1 : ℚ) / 2) g p ≤ 1 := by
    intro g _ p _
    norm_num
  have hha : ValidAssign ([[], []] : List PyDict).length ([[]] : List PyDict).length
      (fun i => if i = 0 then Option.some 0 else Option.none) := by
    constructor
    · intro i j hi he
      dsimp only at he
      by_cases h : i = 0
      · rw [if_pos h] at he
        rw [← Option.some.inj he]
        show 0 < ([[]] : List PyDict).length
        decide
      · rw [if_neg h] at he
        exact Option.noConfusion he
    · intro i i' j hi hi' he he'
      dsimp only at he he'
      by_cases h : i = 0 <;> by_cases h' : i' = 0
      · rw [h, h']
      · rw [if_neg h'] at he'
        exact Option.noConfusion he'
      · rw [if_neg h] at he
        exact Option.noConfusion he
      · rw [if_neg h] at he
        exact Option.noConfusion he
  exact ⟨hh0, hh1, hha, c1_matching_optimality (fun _ _ => (1 : ℚ) / 2) [[], []] [[]]
    hh0 hh1 (fun i => if i = 0 then Option.some 0 else Option.none) hha⟩

end Bench
